import Mathlib

/-!
# Utreexo pollard: a shallow embedding of `utreexo/pollard.go`

The Go heap is explicit: a `polNode` holds its hash and two optional addresses
(`niece[0]`, `niece[1]`), and the cells those addresses name live in
`Pollard.heap` (address = index).  `p.tops` is a slice of node *values*, as in
the source.  `uint64` values are natural numbers below `2^64`; arithmetic that
can wrap is written with an explicit `% 2^64`.

Functions that mutate the pollard return the new pollard together with the Go
`error` (`none` is `nil`); a Go run-time panic is an `Err` of its own.
-/

set_option autoImplicit false

namespace Utreexo

/-! ## Data model -/

/-- Hash values: `[32]byte` in the source, an opaque number here. -/
abbrev Hash := Nat

/-- The distinguished all-zero hash (`empty` in the source). -/
def empty : Hash := 0

/-- The 64-bit word size of `uint64`. -/
def u64 : Nat := 2 ^ 64

/-- Pollard node: `data` and the two niece pointers (heap addresses, `none` is `nil`). -/
structure polNode where
  data : Hash
  niece0 : Option Nat
  niece1 : Option Nat
deriving DecidableEq, Repr

/-- The zero value `polNode{}` made by `new(polNode)`. -/
def polNode.zero : polNode := ⟨empty, none, none⟩

/-- Read `n.niece[lr]`. -/
def polNode.niece (n : polNode) (lr : Nat) : Option Nat :=
  if lr % 2 = 0 then n.niece0 else n.niece1

/-- Write `n.niece[lr] = v`. -/
def polNode.setNiece (n : polNode) (lr : Nat) (v : Option Nat) : polNode :=
  if lr % 2 = 0 then { n with niece0 := v } else { n with niece1 := v }

/-- A leaf to add: `LeafTXO` with its hash and the remember flag. -/
structure LeafTXO where
  hash : Hash
  remember : Bool
deriving DecidableEq, Repr

/-- Outcomes other than `nil`: the `fmt.Errorf` results of the source, and Go run-time panics. -/
inductive Err where
  | swapOutOfBounds      -- "swapNodes %d %d out of bounds"
  | grab2NotInForest     -- "grab2 %d not in forest"
  | grab2NilNiece        -- "grab2 can't grab %d nil neice at height %d"
  | bparsibNilNiece      -- "pos %d %x bparsib nil niece"
  | nexTopsNilParsib     -- "nexTops nil ntparsib"
  | nexTopsNilNiece      -- "nexTops nil ntparsib niece[%d]"
  | panicIndex           -- run-time panic: index out of range
  | panicNil             -- run-time panic: nil pointer dereference
  | panicWhyYes          -- panic("why yes it can")
deriving DecidableEq, Repr

/-- An `Err` that is a Go panic rather than a returned `error`. -/
def Err.isPanic : Err → Bool
  | .panicIndex | .panicNil | .panicWhyYes => true
  | _ => false

/-- The pollard: `numLeaves`, the slice of top nodes, the counters, and the heap the niece
pointers point into. -/
structure Pollard where
  numLeaves : Nat
  tops : List polNode
  hashesEver : Nat
  rememberEver : Nat
  overWire : Nat
  heap : List polNode
deriving DecidableEq, Repr

/-- The zero value `var p Pollard`. -/
def Pollard.empty : Pollard := ⟨0, [], 0, 0, 0, []⟩

/-- Hashes of the tops, in slice order. -/
def Pollard.topHashes (p : Pollard) : List Hash := p.tops.map polNode.data

/-- Number of one bits among the low `k` bits of `n`. -/
def popcountAux : Nat → Nat → Nat
  | 0, _ => 0
  | k + 1, n => n % 2 + popcountAux k (n / 2)

/-- Number of one bits of a `uint64`. -/
def popcount (n : Nat) : Nat := popcountAux 64 n

/-! ## Heap access -/

/-- Dereference a heap address. -/
def deref (heap : List polNode) (a : Nat) : Option polNode := heap.get? a

/-- Store a node at a heap address. -/
def store (heap : List polNode) (a : Nat) (n : polNode) : List polNode := heap.set a n

/-- Helper of `prune`: whether the node at address `a` holds no niece pointer; a nil or
dangling address counts as a dead end. -/
def deadEnd (heap : List polNode) (a : Option Nat) : Bool :=
  match a with
  | none => true
  | some a =>
    match deref heap a with
    | none => true
    | some n => n.niece0.isNone && n.niece1.isNone

/-- Modelled from the spec: `polNode.prune`, which is called by `addOne` but is not under
`src/`.  After a combine, a niece of the new parent whose own subtree is forgettable (it
holds no niece pointer, so no remembered leaf and no sibling of one is below it) is dropped.
Only niece pointers of the node at `a` change; no hash is touched. -/
def prune (heap : List polNode) (a : Nat) : List polNode :=
  match deref heap a with
  | none => heap
  | some n =>
    let n1 := if n.niece0.isSome && deadEnd heap n.niece0 then { n with niece0 := none } else n
    let n2 := if n.niece1.isSome && deadEnd heap n.niece1 then { n1 with niece1 := none } else n1
    store heap a n2

/-! ## Adding leaves -/

/-- One pass through the body of the `addOne` loop on the heap: swap the nieces of the
popped top `leftTop` and of the node at address `n`, move `leftTop` to the heap (its address
is taken), allocate the parent with the hash of the two, and prune it.  Returns the new heap
and the address of the parent. -/
def combine (Parent : Hash → Hash → Hash) (heap : List polNode) (n : Nat)
    (nNode leftTop : polNode) : List polNode × Nat :=
  -- swap: leftTop.niece, n.niece = n.niece, leftTop.niece
  let leftTop1 : polNode := ⟨leftTop.data, nNode.niece0, nNode.niece1⟩
  let nNode1 : polNode := ⟨nNode.data, leftTop.niece0, leftTop.niece1⟩
  let heap1 := store heap n nNode1
  let nHash := Parent leftTop.data nNode.data       -- hash
  -- new: n = &polNode{data: nHash, niece: [2]*polNode{&leftTop, n}}
  let leftAddr := heap1.length
  let heap2 := heap1 ++ [leftTop1]
  let parAddr := heap2.length
  let heap3 := heap2 ++ [⟨nHash, some leftAddr, some n⟩]
  (prune heap3 parAddr, parAddr)                    -- n.prune()

/-- The loop of `addOne` (`for ; (p.numLeaves>>h)&1 == 1; h++`), started at bit `h` with
`k = 64 - h` bits left; at `h = 64` the shifted `uint64` is zero and the loop ends.
The state is the pollard (tops, heap, `hashesEver`) and the address of the node `n`. -/
def addOneLoop (Parent : Hash → Hash → Hash) :
    Nat → Nat → Pollard → Nat → Pollard × Except Err Nat
  | 0, _, p, n => (p, .ok n)
  | k + 1, h, p, n =>
    if (p.numLeaves >>> h) % 2 = 1 then
      match p.tops.getLast? with
      | none => (p, .error .panicIndex)            -- p.tops[len(p.tops)-1] on an empty slice
      | some leftTop =>                             -- grab
        match deref p.heap n with
        | none => (p, .error .panicNil)
        | some nNode =>
          let c := combine Parent p.heap n nNode leftTop
          addOneLoop Parent k (h + 1)
            { p with tops := p.tops.dropLast,       -- pop
                     heap := c.1, hashesEver := p.hashesEver + 1 } c.2
    else (p, .ok n)

/-- Transcription of `addOne`: add a single leaf to a pollard. -/
def addOne (Parent : Hash → Hash → Hash) (p : Pollard) (add : Hash) (remember : Bool) :
    Pollard × Option Err :=
  -- n := new(polNode); n.data = add; if remember { n.niece[0] = n }
  let n := p.heap.length
  let p1 := { p with heap := p.heap ++ [⟨add, if remember then some n else none, none⟩] }
  match addOneLoop Parent 64 0 p1 n with
  | (p2, .error e) => (p2, some e)
  | (p2, .ok n2) =>
    match deref p2.heap n2 with
    | none => (p2, some .panicNil)
    | some nNode =>
      -- p.tops = append(p.tops, *n); p.numLeaves++
      ({ p2 with tops := p2.tops ++ [nNode], numLeaves := (p2.numLeaves + 1) % u64 }, none)

/-- Transcription of `add`: add the leaves one at a time, stopping at the first error. -/
def add (Parent : Hash → Hash → Hash) : Pollard → List LeafTXO → Pollard × Option Err
  | p, [] => (p, none)
  | p, a :: rest =>
    let p1 := if a.remember then { p with rememberEver := p.rememberEver + 1 } else p
    match addOne Parent p1 a.hash a.remember with
    | (p2, some e) => (p2, some e)
    | (p2, none) => add Parent p2 rest

/-! ## Removing leaves -/

/-- Swap instruction `arrow{from, to}` made by the transform. -/
structure arrow where
  from_ : Nat
  to_ : Nat
deriving DecidableEq, Repr

/-- The functions of the package that `pollard.go` calls and that are not under `src/`:
the 2-to-1 hash, the positional arithmetic and the deletion transform.  The pollard code
below is written against them; every theorem that does not name a particular `Layout`
holds for all of them. -/
structure Layout where
  /-- `Parent(l, r)`: the 2-to-1 hash. -/
  Parent : Hash → Hash → Hash
  /-- `p.height()` as a function of `numLeaves` (a `uint8`). -/
  height : Nat → Nat
  /-- `remTrans2(dels, numLeaves, ph)`: the swap rows. -/
  remTrans2 : List Nat → Nat → Nat → List (List arrow)
  /-- `getTopsReverse(numLeaves, ph)`: the positions of the tops (first result). -/
  getTopsReverse : Nat → Nat → List Nat
  /-- `detectOffset(pos, numLeaves)`: tree index, branch length, descent bits. -/
  detectOffset : Nat → Nat → Nat × Nat × Nat
  /-- `inForest(pos, numLeaves, height)`. -/
  inForest : Nat → Nat → Nat → Bool
  /-- `up1(pos, ph)`: parent position. -/
  up1 : Nat → Nat → Nat
  /-- `upMany(pos, rise, ph)`: ancestor position. -/
  upMany : Nat → Nat → Nat → Nat

/-- A `*polNode` inside `rem2`: the address of a slot of `p.tops` (`&p.tops[i]`) or of a
heap cell. -/
inductive Ptr where
  | top (i : Nat)
  | cell (a : Nat)
deriving DecidableEq, Repr

/-- Read through a pointer. -/
def Pollard.read (p : Pollard) : Ptr → Option polNode
  | .top i => p.tops.get? i
  | .cell a => deref p.heap a

/-- Write through a pointer. -/
def Pollard.write (p : Pollard) (q : Ptr) (n : polNode) : Pollard :=
  match q with
  | .top i => { p with tops := p.tops.set i n }
  | .cell a => { p with heap := store p.heap a n }

/-- Allocate a heap cell holding `n`; returns the new pollard and the address. -/
def Pollard.alloc (p : Pollard) (n : polNode) : Pollard × Nat :=
  ({ p with heap := p.heap ++ [n] }, p.heap.length)

/-- Assign `q.niece = [n0, n1]`, keeping `q.data`. -/
def Pollard.setNieces (p : Pollard) (q : Ptr) (n0 n1 : Option Nat) : Pollard :=
  match p.read q with
  | none => p
  | some n => p.write q ⟨n.data, n0, n1⟩

/-- Assign `q.niece[lr] = v`. -/
def Pollard.setNieceAt (p : Pollard) (q : Ptr) (lr : Nat) (v : Option Nat) : Pollard :=
  match p.read q with
  | none => p
  | some n => p.write q (n.setNiece lr v)

/-- The value `q.niece[lr]` (`none` also when `q` dangles). -/
def Pollard.nieceAt (p : Pollard) (q : Ptr) (lr : Nat) : Option Nat :=
  match p.read q with
  | none => none
  | some n => n.niece lr

/-- The handle `hashableNode{dest, sib}`. -/
structure hashableNode where
  dest : Option Ptr
  sib : Option Ptr
deriving DecidableEq, Repr

/-- Results of `grabPos2`: `par`, `parsib` and `lr`. -/
structure Grab where
  par : Option Ptr
  parsib : Option Ptr
  lr : Nat
deriving DecidableEq, Repr

/-- The descent loop of `grabPos2` (`for h := branchLen - 1; h != 0; h--`); the first
argument is the current `h`.  A missing `parsib.niece[lr^1]` is created empty; the debug
print of `parsib.data` after the step dereferences the new `parsib`, so a nil one is a
nil-pointer panic. -/
def grabPos2Loop (bits : Nat) : Nat → Pollard → Ptr → Ptr → Pollard × Except Err (Ptr × Ptr)
  | 0, p, par, parsib => (p, .ok (par, parsib))
  | h + 1, p, _, parsib =>
    let lr := (bits >>> (h + 1)) % 2
    match p.read parsib with
    | none => (p, .error .panicNil)
    | some ps =>
      -- if parsib.niece[lr^1] == nil { parsib.niece[lr^1] = new(polNode) }
      let p1 := match ps.niece (lr ^^^ 1) with
        | none => (p.alloc polNode.zero).1.setNieceAt parsib (lr ^^^ 1) (some p.heap.length)
        | some _ => p
      -- par, parsib = parsib.niece[lr^1], parsib.niece[lr]
      match p1.nieceAt parsib (lr ^^^ 1), p1.nieceAt parsib lr with
      | some par2, some parsib2 => grabPos2Loop bits h p1 (.cell par2) (.cell parsib2)
      | _, none => (p1, .error .panicNil)          -- Printf of parsib.data[:4]
      | none, some _ => (p1, .error .grab2NilNiece) -- if par == nil

/-- Transcription of `grabPos2`: the parent of `pos`, the parent's sibling and `lr`; for a
top, nil pointers and the index of the top. -/
def grabPos2 (L : Layout) (p : Pollard) (pos : Nat) : Pollard × Except Err Grab :=
  match L.detectOffset pos p.numLeaves with
  | (tree, branchLen, bits) =>
    if tree ≥ p.tops.length % 256 then (p, .error .grab2NotInForest)
    else if branchLen = 0 then (p, .ok ⟨none, none, tree⟩)
    else
      match grabPos2Loop bits (branchLen - 1) p (.top tree) (.top tree) with
      | (p1, .error e) => (p1, .error e)
      | (p1, .ok (par, parsib)) => (p1, .ok ⟨some par, some parsib, pos % 2⟩)

/-- Transcription of `HnFromPos`. -/
def HnFromPos (L : Layout) (p : Pollard) (pos : Nat) : Pollard × Except Err hashableNode :=
  match grabPos2 L p pos with
  | (p1, .error e) => (p1, .error e)
  | (p1, .ok g) => (p1, .ok ⟨g.par, g.parsib⟩)

/-- Transcription of `dirtify`: adds to the next dirt row. -/
def dirtify (L : Layout) (dirt : List Nat) (swaps : List (List arrow))
    (pos nl up2h ph : Nat) : List Nat :=
  let parpar := L.upMany pos 2 ph
  let skip : Bool :=
    if !L.inForest parpar nl ph then
      if up2h ≥ swaps.length % 256 then true
      else !((swaps.getD up2h []).any fun a => parpar == a.from_)
    else false
  if skip then dirt
  else
    let par := L.up1 pos ph
    if dirt ≠ [] ∧ (dirt.getLast? ≠ some pos ∨ dirt.getLast? ≠ some (pos ^^^ 1)) then dirt
    else dirt ++ [par]

/-- The hash `q.niece[lr].data`, `none` when `q.niece[lr]` is nil. -/
def Pollard.nieceData (p : Pollard) (q : Ptr) (lr : Nat) : Option Hash :=
  match p.nieceAt q lr with
  | none => none
  | some a => (deref p.heap a).map polNode.data

/-- Modelled from the spec: `hashableNode.run`, which `rem2` starts with `go` and which is
not under `src/`.  The handle "encapsulates the parent that must be re-hashed": the work
unit is `(parent_slot, left_hash, right_hash)`, so `dest.data` becomes
`Parent(sib.niece[0].data, sib.niece[1].data)`.  The goroutine is run to completion at the
`go` statement, which is one of the schedules the source allows. -/
def hashableNode.run (L : Layout) (p : Pollard) (hn : hashableNode) : Pollard × Option Err :=
  match hn.dest, hn.sib with
  | some d, some s =>
    match p.nieceData s 0, p.nieceData s 1, p.read d with
    | some l, some r, some dn => (p.write d { dn with data := L.Parent l r }, none)
    | _, _, _ => (p, some .panicNil)
  | _, _ => (p, some .panicNil)

/-- The branch of `swapNodes` for `apar == nil` (a is the top `p.tops[alr]`): the debug
prints dereference `bparsib.niece[blr^1]`; then the three niece arrays rotate, and the top
and the node at `bparsib.niece[blr]` change places through `stash`. -/
def topSwap (p : Pollard) (alr : Nat) (bparsib : Ptr) (blr : Nat) : Pollard × Option Err :=
  match p.nieceAt bparsib (blr ^^^ 1), p.nieceAt bparsib blr with
  | some y, some x =>
    match p.read (.cell x), p.read (.cell y), p.read (.top alr) with
    | some xn, some yn, some tn =>
      -- bparsib.niece[blr].niece, bparsib.niece[blr^1].niece, p.tops[alr].niece =
      --   bparsib.niece[blr^1].niece, p.tops[alr].niece, bparsib.niece[blr].niece
      let p1 := p.setNieces (.cell x) yn.niece0 yn.niece1
      let p2 := p1.setNieces (.cell y) tn.niece0 tn.niece1
      let p3 := p2.setNieces (.top alr) xn.niece0 xn.niece1
      -- stash := p.tops[alr]; p.tops[alr] = *bparsib.niece[blr]; bparsib.niece[blr] = &stash
      match p3.read (.top alr), p3.nieceAt bparsib blr with
      | some stash, some x2 =>
        match p3.read (.cell x2) with
        | some x2n =>
          let p4 := p3.write (.top alr) x2n
          let p5 := p4.alloc stash
          (p5.1.setNieceAt bparsib blr (some p5.2), none)
        | none => (p3, some .panicNil)
      | _, _ => (p3, some .panicNil)
    | _, _, _ => (p, some .panicNil)
  | _, _ => (p, some .panicNil)

/-- The branch of `swapNodes` for two nodes that are not tops: unless they are siblings the
nieces of their siblings are exchanged (the debug print dereferences both siblings), then
the two niece pointers are exchanged. -/
def normalSwap (p : Pollard) (r : arrow) (aparsib : Ptr) (alr : Nat) (bparsib : Ptr)
    (blr : Nat) : Pollard × Option Err :=
  let step1 : Pollard × Option Err :=
    if r.from_ ≠ r.to_ ^^^ 1 then
      match p.nieceAt aparsib (alr ^^^ 1), p.nieceAt bparsib (blr ^^^ 1) with
      | some x, some y =>
        match p.read (.cell x), p.read (.cell y) with
        | some xn, some yn =>
          ((p.setNieces (.cell x) yn.niece0 yn.niece1).setNieces (.cell y) xn.niece0 xn.niece1,
            none)
        | _, _ => (p, some .panicNil)
      | _, _ => (p, some .panicNil)
    else (p, none)
  match step1 with
  | (p1, some e) => (p1, some e)
  | (p1, none) =>
    -- aparsib.niece[alr], bparsib.niece[blr] = bparsib.niece[blr], aparsib.niece[alr]
    let va := p1.nieceAt aparsib alr
    let vb := p1.nieceAt bparsib blr
    ((p1.setNieceAt aparsib alr vb).setNieceAt bparsib blr va, none)

/-- Transcription of `swapNodes`: swaps the nodes at positions `r.from` and `r.to` and
returns the hashable node of `to`'s parent. -/
def swapNodes (L : Layout) (p : Pollard) (r : arrow) : Pollard × Except Err hashableNode :=
  if !L.inForest r.from_ p.numLeaves (L.height p.numLeaves) ||
      !L.inForest r.to_ p.numLeaves (L.height p.numLeaves) then
    (p, .error .swapOutOfBounds)
  else
    match grabPos2 L p r.from_ with
    | (p1, .error e) => (p1, .error e)
    | (p1, .ok a) =>
      match grabPos2 L p1 r.to_ with
      | (p2, .error e) => (p2, .error e)
      | (p2, .ok b) =>
        match b.par, b.parsib with
        | none, _ => (p2, .error .panicWhyYes)       -- b is a top
        | some _, none => (p2, .error .panicNil)
        | some bpar, some bparsib =>
          let swapped : Pollard × Option Err :=
            match a.par, a.parsib with
            | none, _ => topSwap p2 a.lr bparsib b.lr
            | some _, none => (p2, some .panicNil)
            | some _, some aparsib => normalSwap p2 r aparsib a.lr bparsib b.lr
          match swapped with
          | (p3, some e) => (p3, .error e)
          | (p3, none) =>
            if (p3.nieceAt bparsib 0).isNone || (p3.nieceAt bparsib 1).isNone then
              (p3, .error .bparsibNilNiece)
            else (p3, .ok ⟨some bpar, some bparsib⟩)

/-- The inner loop of `rem2` over the arrows of row `h`: swap, skip the hashing when a
niece of the parent's sibling is empty, otherwise drop a matching head of `rowdirt`, hash
the parent and `dirtify`.  Returns `rowdirt` and `hashdirt`. -/
def swapLoop (L : Layout) (swaprows : List (List arrow)) (nextNumLeaves h ph : Nat) :
    List arrow → Pollard → List Nat → List Nat → Pollard × Except Err (List Nat × List Nat)
  | [], p, rowdirt, hashdirt => (p, .ok (rowdirt, hashdirt))
  | s :: rest, p, rowdirt, hashdirt =>
    if s.from_ = s.to_ then swapLoop L swaprows nextNumLeaves h ph rest p rowdirt hashdirt
    else
      match swapNodes L p s with
      | (p1, .error e) => (p1, .error e)
      | (p1, .ok hn) =>
        match hn.sib with
        | none => (p1, .error .panicNil)
        | some sib =>
          match p1.nieceData sib 0, p1.nieceData sib 1 with
          | some d0, some d1 =>
            if d0 = empty ∨ d1 = empty then
              swapLoop L swaprows nextNumLeaves h ph rest p1 rowdirt hashdirt
            else
              let rowdirt1 :=
                if rowdirt ≠ [] ∧
                    (rowdirt.head? = some s.to_ ∨ rowdirt.head? = some (s.to_ ^^^ 1)) then
                  rowdirt.tail
                else rowdirt
              match hn.run L p1 with
              | (p2, some e) => (p2, .error e)
              | (p2, none) =>
                swapLoop L swaprows nextNumLeaves h ph rest p2 rowdirt1
                  (dirtify L hashdirt swaprows s.to_ nextNumLeaves ((h + 2) % 256) ph)
          | _, _ => (p1, .error .panicNil)

/-- The loop of `rem2` over `rowdirt`: build the hashable node of each dirty position.
`HnFromPos` never returns a nil handle, and the debug print dereferences both nieces of
`hn.sib`; then the parent is hashed and `dirtify` is called. -/
def dirtLoop (L : Layout) (swaprows : List (List arrow)) (nextNumLeaves h ph : Nat) :
    List Nat → Pollard → List Nat → Pollard × Except Err (List Nat)
  | [], p, hashdirt => (p, .ok hashdirt)
  | d :: rest, p, hashdirt =>
    match HnFromPos L p d with
    | (p1, .error e) => (p1, .error e)
    | (p1, .ok hn) =>
      match hn.sib with
      | none => (p1, .error .panicNil)
      | some sib =>
        match p1.nieceData sib 0, p1.nieceData sib 1 with
        | some _, some _ =>
          match hn.run L p1 with
          | (p2, some e) => (p2, .error e)
          | (p2, none) =>
            dirtLoop L swaprows nextNumLeaves h ph rest p2
              (dirtify L hashdirt swaprows d nextNumLeaves ((h + 2) % 256) ph)
        | _, _ => (p1, .error .panicNil)

/-- The loop of `rem2` over the rows (`for h := uint8(0); h < ph; h++`); the first argument
counts the rows left, the second is `h`. -/
def rowsLoop (L : Layout) (swaprows : List (List arrow)) (nextNumLeaves ph : Nat) :
    Nat → Nat → Pollard → List Nat → Pollard × Option Err
  | 0, _, p, _ => (p, none)
  | c + 1, h, p, hashdirt =>
    match swaprows.get? h with
    | none => (p, some .panicIndex)                 -- swaprows[h]
    | some row =>
      match swapLoop L swaprows nextNumLeaves h ph row p hashdirt [] with
      | (p1, .error e) => (p1, some e)
      | (p1, .ok (rowdirt, hashdirt1)) =>
        match dirtLoop L swaprows nextNumLeaves h ph rowdirt p1 hashdirt1 with
        | (p2, .error e) => (p2, some e)
        | (p2, .ok hashdirt2) => rowsLoop L swaprows nextNumLeaves ph c (h + 1) p2 hashdirt2

/-- The loop of `rem2` that collects the new tops: the node at each next top position is
copied out of the pollard (with the nieces of its sibling, when that is there). -/
def nexTopsLoop (L : Layout) :
    List Nat → Pollard → List polNode → Pollard × Except Err (List polNode)
  | [], p, acc => (p, .ok acc)
  | pos :: rest, p, acc =>
    match grabPos2 L p pos with
    | (p1, .error e) => (p1, .error e)
    | (p1, .ok g) =>
      match g.par with
      | none =>                                     -- was already a top
        match p1.tops.get? g.lr with
        | none => (p1, .error .panicIndex)
        | some t => nexTopsLoop L rest p1 (acc ++ [t])
      | some _ =>
        match g.parsib with
        | none => (p1, .error .nexTopsNilParsib)
        | some ntparsib =>
          match p1.nieceAt ntparsib g.lr with
          | none => (p1, .error .nexTopsNilNiece)
          | some x =>
            match p1.read (.cell x) with
            | none => (p1, .error .panicNil)
            | some xn =>
              let t : polNode :=
                match p1.nieceAt ntparsib (g.lr ^^^ 1) with
                | none => xn
                | some y =>
                  match p1.read (.cell y) with
                  | none => xn
                  | some yn => ⟨xn.data, yn.niece0, yn.niece1⟩
              nexTopsLoop L rest p1 (acc ++ [t])

/-- Transcription of `rem2`: deletes the leaves at positions `dels`, using `remTrans2`.
`reversePolNodeSlice` (not under `src/`) reverses the slice, as its name says. -/
def rem2 (L : Layout) (p : Pollard) (dels : List Nat) : Pollard × Option Err :=
  if dels.length = 0 then (p, none)
  else
    let ph := L.height p.numLeaves
    let nextNumLeaves := (p.numLeaves + u64 - dels.length % u64) % u64
    let swaprows := L.remTrans2 dels p.numLeaves ph
    match rowsLoop L swaprows nextNumLeaves ph ph 0 p [] with
    | (p1, some e) => (p1, some e)
    | (p1, none) =>
      match nexTopsLoop L (L.getTopsReverse nextNumLeaves ph) p1 [] with
      | (p2, .error e) => (p2, some e)
      | (p2, .ok nexTops) =>
        ({ p2 with numLeaves := nextNumLeaves, tops := nexTops.reverse }, none)

/-- Transcription of `Modify`: deletes then adds elements to the accumulator. -/
def Modify (L : Layout) (p : Pollard) (adds : List LeafTXO) (dels : List Nat) :
    Pollard × Option Err :=
  match rem2 L p dels with
  | (p1, some e) => (p1, some e)
  | (p1, none) =>
    match add L.Parent p1 adds with
    | (p2, some e) => (p2, some e)
    | (p2, none) => (p2, none)

/-! ## The positional arithmetic and the transform, as the specification describes them

These functions are not under `src/`.  The theorems about `rem2`, `swapNodes` and `Modify`
are proved for every `Layout`; the definitions below give one concrete `Layout` for the
worked examples. -/

/-- Modelled from the spec: the forest height `p.height()` (not under `src/`),
`H = ceil(log2(numLeaves + 1))`: the least `k` with `numLeaves + 1 ≤ 2^k`. -/
def specHeight (numLeaves : Nat) : Nat :=
  ((List.range 65).find? fun k => numLeaves + 1 ≤ 2 ^ k).getD 64

/-- Modelled from the spec: `up1` (not under `src/`), `up1(p, H) = (p >> 1) | (1 << H)`. -/
def specUp1 (pos H : Nat) : Nat := (pos >>> 1) ||| (1 <<< H)

/-- Modelled from the spec: `upMany` (not under `src/`), the parent `k` rows up. -/
def specUpMany (pos : Nat) : Nat → Nat → Nat
  | 0, _ => pos
  | k + 1, H => specUp1 (specUpMany pos k H) H

/-- First position of row `r` in a forest of height `H`: row 0 is `[0, 2^H)`, row 1 is
`[2^H, 2^H + 2^(H-1))`, and so on. -/
def rowStart (H r : Nat) : Nat := 2 ^ (H + 1) - 2 ^ (H + 1 - r)

/-- Row of a position in a forest of height `H`. -/
def detectRow (pos H : Nat) : Nat :=
  ((List.range H).filter fun r => rowStart H (r + 1) ≤ pos).length

/-- Index of the highest set bit of a non-zero `uint64`. -/
def topBit (x : Nat) : Nat := ((List.range 64).filter fun k => 2 ^ (k + 1) ≤ x).length

/-- Modelled from the spec: `inForest` (not under `src/`), "true iff `pos` lies inside a
currently-live subtree": `pos` is a position of the height-`H` forest and all the leaves
below it are leaves of one tree of the forest. -/
def specInForest (pos numLeaves H : Nat) : Bool :=
  decide (pos + 1 < 2 ^ (H + 1)) &&
    decide (pos - rowStart H (detectRow pos H) < numLeaves >>> detectRow pos H)

/-- Modelled from the spec: `detectOffset` (not under `src/`): "which root it descends
from, the path length to the root, and the left/right bit pattern of that path from root
to target".  Trees are counted largest first, as `addOne` stores the tops.  The bit
pattern is the sequence of niece indices `grabPos2` and `descendToPos` follow, which is the
position inside the tree with its bits flipped (the comment in `descendToPos`).  A
position outside the forest descends from no root: the tree index is then the number of
roots. -/
def specDetectOffset (pos numLeaves : Nat) : Nat × Nat × Nat :=
  let H := specHeight numLeaves
  let r := detectRow pos H
  let idx := pos - rowStart H r
  if specInForest pos numLeaves H then
    -- the tree holding leaf `idx * 2^r` is the highest bit where it differs from numLeaves
    let b := topBit (numLeaves ^^^ (idx * 2 ^ r))
    (popcount (numLeaves >>> (b + 1)), b - r, (u64 - 1) - idx % 2 ^ (b - r))
  else (popcount numLeaves, 0, (u64 - 1) - pos % u64)

/-- Modelled from the spec: `getTopsReverse` (not under `src/`), the root positions, "one
root per set bit of `numLeaves`, ordered low row → high row": the root of row `r` is `r`
rows above the first leaf of its tree. -/
def specGetTopsReverse (numLeaves H : Nat) : List Nat :=
  (List.range 64).filterMap fun r =>
    if (numLeaves >>> r) % 2 = 1 then
      some (specUpMany ((numLeaves >>> (r + 1)) <<< (r + 1)) r H)
    else none

/-- The leaf positions that survive a removal, in increasing order: the positions below
`numLeaves` that are not deleted. -/
def survivors (dels : List Nat) (numLeaves : Nat) : List Nat :=
  (List.range numLeaves).filter fun s => decide (s ∉ dels)

/-- Row 0 of the transform: every surviving leaf, in increasing order, gets the arrow from
its position to its packed position, the number of survivors to its left.  A deleted
position (a twin or not) is the `from` of no arrow; the mate of a deletion, and every
survivor right of it, slides leftward; a survivor with no deletion to its left gets a
self-arrow. -/
def specRow0 (dels : List Nat) (numLeaves : Nat) : List arrow :=
  (survivors dels numLeaves).enum.map fun x => ⟨x.2, x.1⟩

/-- Modelled from the spec: `remTrans2` (not under `src/`), §4.2 of the specification.  The
specification gives the algorithm at design level and fixes its outcome: twins give no
arrow, a surviving mate slides leftward, "after this row, survivors occupy positions
`[0, rowSurvivorCount)` contiguously", every `from` lies inside the forest before and every
`to` inside the forest after the transform, and the `to` positions of a row are a prefix of
the row (invariants (a) and (b)).  The steps leave the `to` of an arrow open ("XOR-adjusted
to the contiguous packed position"); this is the transform with the stated outcome that
keeps the survivors in their order: row 0 is `specRow0`, and the rows above, whose nodes
are the parents of the packed leaves and are contiguous already, have no arrow; there are
`H` rows.  For `dels = [2, 5, 6]` on 8 leaves the arrows that move a leaf are those of the
three mates, `3 → 2`, `4 → 3` and `7 → 4`. -/
def specRemTrans2 (dels : List Nat) (numLeaves H : Nat) : List (List arrow) :=
  match H with
  | 0 => []
  | k + 1 => specRow0 dels numLeaves :: List.replicate k []

/-- The layout of the specification, with the given 2-to-1 hash. -/
def specLayout (Parent : Hash → Hash → Hash) : Layout where
  Parent := Parent
  height := specHeight
  remTrans2 := specRemTrans2
  getTopsReverse := specGetTopsReverse
  detectOffset := specDetectOffset
  inForest := specInForest
  up1 := specUp1
  upMany := specUpMany

/-- A stand-in 2-to-1 hash for the worked examples (the double SHA-256 of the package is
not needed for them). -/
def exParent (l r : Hash) : Hash := 2 * (l + 2 * r) + 1

/-- What `rem2` leaves alone until it succeeds: `q` has the leaf count, the number of tops
and the counters of `p` (nodes and niece pointers may differ). -/
def Pollard.sameShape (p q : Pollard) : Prop :=
  q.numLeaves = p.numLeaves ∧ q.tops.length = p.tops.length ∧ q.hashesEver = p.hashesEver ∧
    q.rememberEver = p.rememberEver ∧ q.overWire = p.overWire

/-- The pollard with `2^64 - 1` leaves and one (empty) top per set bit. -/
def fullPollard : Pollard := ⟨u64 - 1, List.replicate 64 polNode.zero, 0, 0, 0, []⟩

/-- Example pollard: one remembered leaf. -/
def exOne : Pollard := (add exParent Pollard.empty [⟨5, true⟩]).1

/-- Example pollard: two leaves, the first remembered and the second not, so that the top
holds the second leaf as `niece[1]` and nothing as `niece[0]`. -/
def exTwo : Pollard := (add exParent Pollard.empty [⟨5, true⟩, ⟨6, false⟩]).1

/-! ## Looking up the node at a position -/

/-- Read-only descent along the parent-sibling chain that the loop of `grabPos2` follows
(`parsib = parsib.niece[lr]`), started at height `h`: the pointers whose nieces are read on
the way and the parent-sibling reached; `none` when a node of the chain is missing. -/
def descendSib (bits : Nat) : Nat → Pollard → Ptr → Option (List Ptr × Ptr)
  | 0, _, parsib => some ([], parsib)
  | h + 1, p, parsib =>
    match p.nieceAt parsib ((bits >>> (h + 1)) % 2) with
    | none => none
    | some b =>
      match descendSib bits h p (.cell b) with
      | none => none
      | some (path, q) => some (parsib :: path, q)

/-- The slot of a non-root position, found as `grabPos2` finds it but without creating
nodes: the pointers read on the way, the parent's sibling `parsib` and `lr = pos & 1`; the
node at `pos` is `parsib.niece[lr]` and its sibling is `parsib.niece[lr^1]`. -/
def locate (L : Layout) (p : Pollard) (pos : Nat) : Option (List Ptr × Ptr × Nat) :=
  match L.detectOffset pos p.numLeaves with
  | (tree, branchLen, bits) =>
    if tree ≥ p.tops.length % 256 then none
    else if branchLen = 0 then none
    else
      match descendSib bits (branchLen - 1) p (.top tree) with
      | none => none
      | some (path, q) => some (path, q, pos % 2)

/-- The node found at a non-root position. -/
def nodeAt (L : Layout) (p : Pollard) (pos : Nat) : Option polNode :=
  match locate L p pos with
  | none => none
  | some (_, q, lr) =>
    match p.nieceAt q lr with
    | none => none
    | some a => deref p.heap a

/-- The node found at the sibling of a non-root position. -/
def sibNodeAt (L : Layout) (p : Pollard) (pos : Nat) : Option polNode :=
  match locate L p pos with
  | none => none
  | some (_, q, lr) =>
    match p.nieceAt q (lr ^^^ 1) with
    | none => none
    | some a => deref p.heap a

/-- The hash found at a non-root position. -/
def hashAt (L : Layout) (p : Pollard) (pos : Nat) : Option Hash :=
  (nodeAt L p pos).map polNode.data

/-- The hash found at the sibling of a non-root position. -/
def sibHashAt (L : Layout) (p : Pollard) (pos : Nat) : Option Hash :=
  (sibNodeAt L p pos).map polNode.data

/-- Example pollard: two remembered leaves. -/
def exTwoR : Pollard := (add exParent Pollard.empty [⟨5, true⟩, ⟨6, true⟩]).1

/-- Example pollard: three remembered leaves (a two-leaf tree and a single leaf). -/
def exThree : Pollard :=
  (add exParent Pollard.empty [⟨5, true⟩, ⟨6, true⟩, ⟨7, true⟩]).1

/-- Example pollard: four leaves, none remembered, so that the top has no nieces. -/
def exFourPruned : Pollard :=
  (add exParent Pollard.empty [⟨5, false⟩, ⟨6, false⟩, ⟨7, false⟩, ⟨8, false⟩]).1

/-- Example pollard: four remembered leaves. -/
def exFour : Pollard :=
  (add exParent Pollard.empty [⟨5, true⟩, ⟨6, true⟩, ⟨7, true⟩, ⟨8, true⟩]).1

/-- Example pollard: eight remembered leaves. -/
def exEight : Pollard :=
  (add exParent Pollard.empty
    [⟨5, true⟩, ⟨6, true⟩, ⟨7, true⟩, ⟨8, true⟩,
     ⟨9, true⟩, ⟨10, true⟩, ⟨11, true⟩, ⟨12, true⟩]).1

/-- Pollard `p1` keeps what `p` has: the same shape, and every node of `p` is still there
with its hash and with every niece pointer it had (nil pointers may have been filled). -/
def Pollard.grows (p p1 : Pollard) : Prop :=
  p.sameShape p1 ∧
  ∀ q n, p.read q = some n →
    ∃ n1, p1.read q = some n1 ∧ n1.data = n.data ∧
      (∀ v, n.niece0 = some v → n1.niece0 = some v) ∧
      (∀ v, n.niece1 = some v → n1.niece1 = some v)

/-- Pollard `p1` has the shape of `p` and every node of `p` is still there with its hash
(its niece pointers may differ). -/
def Pollard.keepsData (p p1 : Pollard) : Prop :=
  p.sameShape p1 ∧ ∀ q n, p.read q = some n → ∃ n1, p1.read q = some n1 ∧ n1.data = n.data

/-- Every node of `p` that is not at a pointer of `path` is the same in `p1`. -/
def unchangedOff (path : List Ptr) (p p1 : Pollard) : Prop :=
  ∀ q, q ∉ path → ∀ n, p.read q = some n → p1.read q = some n

/-- The heap cells of `p1` that `p` does not have are empty nodes. -/
def createdEmpty (p p1 : Pollard) : Prop :=
  p.heap.length ≤ p1.heap.length ∧
  ∀ a, p.heap.length ≤ a → a < p1.heap.length → deref p1.heap a = some polNode.zero

/-- Example pollard: four leaves of which only the first is remembered, so that the nodes
on the proof path of leaf 0 are there and the rest is pruned. -/
def exFourFirst : Pollard :=
  (add exParent Pollard.empty [⟨5, true⟩, ⟨6, false⟩, ⟨7, false⟩, ⟨8, false⟩]).1

/-- Every niece pointer of every node of `p` is the address of a heap cell of `p`: the
pointers of a Go program never dangle. -/
def Pollard.closed (p : Pollard) : Prop :=
  ∀ q n k v, p.read q = some n → n.niece k = some v → v < p.heap.length

/-! ## Read-only descents: `grabPos` and `descendToPos` -/

/-- Outcomes of `grabPos` and `descendToPos` that are not a result: the three errors they
return, and the index and nil-pointer panics. -/
inductive WalkErr where
  | descendOOB        -- "OOB: descend to %d but only %d leaves"
  | dtpTopNil         -- "dtp top %d is nil"
  | descendNilNiece   -- "descend pos %d nil neice at height %d"
  | grabNilNiece      -- "grab %d nil neice at height %d"
  | panicIndex
  | panicNil
deriving DecidableEq, Repr

/-- The loop of `grabPos` (`for h := branchLen - 1; h != 255; h--`); the first argument
is `h + 1`.  At `h = 0` the requested node `n.niece[lr^1]` and its sibling `n.niece[lr]`
are returned with the hashable node `{dest: nsib, sib: n}`; above, a missing
`n.niece[lr^1]` is created and the descent follows `n.niece[lr]`. -/
def grabPosLoop (bits : Nat) :
    Nat → Pollard → Ptr → Option Ptr →
      Pollard × Except WalkErr (Option Ptr × Option Ptr × Option hashableNode)
  | 0, p, n, nsib => (p, .ok (some n, nsib, none))
  | h + 1, p, n, nsib =>
    let lr := (bits >>> h) % 2
    match p.read n with
    | none => (p, .error .panicNil)
    | some nn =>
      if h = 0 then
        -- hn.dest = nsib; hn.sib = n; n, nsib = n.niece[lr^1], n.niece[lr]
        (p, .ok ((nn.niece (lr ^^^ 1)).map Ptr.cell, (nn.niece lr).map Ptr.cell,
          some ⟨nsib, some n⟩))
      else
        -- if n.niece[lr^1] == nil { n.niece[lr^1] = new(polNode) }
        let p1 := match nn.niece (lr ^^^ 1) with
          | none => (p.alloc polNode.zero).1.setNieceAt n (lr ^^^ 1) (some p.heap.length)
          | some _ => p
        -- n, nsib = n.niece[lr], n.niece[lr^1]
        match p1.nieceAt n lr with
        | none => (p1, .error .grabNilNiece)
        | some n2 => grabPosLoop bits h p1 (.cell n2) ((p1.nieceAt n (lr ^^^ 1)).map Ptr.cell)

/-- Transcription of `grabPos`: the node at `pos`, its sibling and a hashable node. -/
def grabPos (L : Layout) (p : Pollard) (pos : Nat) :
    Pollard × Except WalkErr (Option Ptr × Option Ptr × Option hashableNode) :=
  match L.detectOffset pos p.numLeaves with
  | (tree, branchLen, bits) =>
    if tree ≥ p.tops.length then (p, .error .panicIndex)      -- &p.tops[tree]
    else grabPosLoop bits branchLen p (.top tree) (some (.top tree))

/-- The loop of `descendToPos` (`for h := branchLen - 1; h < 64; h--`); the first argument
is `h + 1` and `n` the node reached.  Returns the entries `proofs[0..h]` and `sibs[0..h]`. -/
def descendLoop (bits : Nat) :
    Nat → Pollard → Ptr → Except WalkErr (List (Option Ptr) × List (Option Ptr))
  | 0, _, _ => .ok ([], [])
  | h + 1, p, n =>
    let lr := (bits >>> h) % 2
    match p.read n with
    | none => .error .panicNil
    | some nn =>
      -- sib := n.niece[lr^1]; n = n.niece[lr]
      let sib := (nn.niece (lr ^^^ 1)).map Ptr.cell
      match nn.niece lr with
      | none =>
        if h ≠ 0 then .error .descendNilNiece
        else .ok ([none], [sib])                    -- proofs[0], sibs[0] = nil, sib
      | some c =>
        match descendLoop bits h p (.cell c) with
        | .error e => .error e
        | .ok (pr, sb) => .ok (pr ++ [some (.cell c)], sb ++ [sib])

/-- Transcription of `descendToPos`: the path to the target node and the sibling path, in
bottom-to-top order. -/
def descendToPos (L : Layout) (p : Pollard) (pos : Nat) :
    Except WalkErr (List (Option Ptr) × List (Option Ptr)) :=
  if !L.inForest pos p.numLeaves (L.height p.numLeaves) then .error .descendOOB
  else
    match L.detectOffset pos p.numLeaves with
    | (tNum, branchLen, bits) =>
      if tNum ≥ p.tops.length then .error .panicIndex         -- n := &p.tops[tNum]
      else if branchLen > 64 then .error .dtpTopNil
      else
        match descendLoop bits branchLen p (.top tNum) with
        | .error e => .error e
        | .ok (pr, sb) => .ok (pr ++ [some (.top tNum)], sb ++ [some (.top tNum)])

/-! ## The clairvoyant schedule: `cmd/clair/new_clair.go` -/

/-- The struct `txoEnd`: which utxo (`uint32`), and when it dies (`int32` block height). -/
structure txoEnd where
  txoIdx : Nat
  end_ : Int
deriving DecidableEq, Repr

/-- The loop of `mergeSortedSlices` (`for j := 0; j < len(c); j++`): the first argument is
`len(c) - j`, the last the part `c[:j]` written so far.  `copy` copies as many elements as
fit into `c[j:]`. -/
def mergeLoop (a b : List txoEnd) : Nat → Nat → Nat → List txoEnd → List txoEnd
  | 0, _, _, c => c
  | fuel + 1, idxa, idxb, c =>
    if idxa ≥ a.length then c ++ (b.drop idxb).take (fuel + 1)
    else if idxb ≥ b.length then c ++ (a.drop idxa).take (fuel + 1)
    else
      match a.get? idxa, b.get? idxb with
      | some obja, some objb =>
        if obja.end_ < objb.end_ then mergeLoop a b fuel (idxa + 1) idxb (c ++ [obja])
        else mergeLoop a b fuel idxa (idxb + 1) (c ++ [objb])
      | _, _ => c

/-- Transcription of `mergeSortedSlices`. -/
def mergeSortedSlices (a b : List txoEnd) : List txoEnd :=
  mergeLoop a b (a.length + b.length) 0 0 []

/-- The loop of `SplitAfter` (`for i, c := range s`): the index `i`, the elements from `i`
on; returns `top` and `bottom`, `none` being the nil slice they are declared as. -/
def SplitAfterLoop (s : List txoEnd) (h : Int) :
    Nat → List txoEnd → Option (List txoEnd) × Option (List txoEnd)
  | _, [] => (none, none)
  | i, c :: rest =>
    if c.end_ > h then (some (s.take i), some (s.drop i))
    else SplitAfterLoop s h (i + 1) rest

/-- Transcription of `SplitAfter`; a nil result slice is the empty list. -/
def SplitAfter (s : List txoEnd) (h : Int) : List txoEnd × List txoEnd :=
  match SplitAfterLoop s h 0 s with
  | (none, _) => ([], s)                              -- if top == nil { bottom = s }
  | (some top, bottom) => (top, bottom.getD [])

/-- Transcription of `assertBitInRam`: `scheduleSlice[txoIdx/8] |= 1 << (7 - txoIdx%8)` on
a slice of bytes; `none` is the index-out-of-range panic. -/
def assertBitInRam (txoIdx : Nat) (scheduleSlice : List Nat) : Option (List Nat) :=
  let offset := txoIdx / 8
  match scheduleSlice.get? offset with
  | none => none
  | some b => some (scheduleSlice.set offset ((b ||| (1 <<< (7 - txoIdx % 8))) % 256))

/-! ## The offset file: `bridgenode/offsetfile.go` -/

/-- The header record `RawHeaderData`.  Its declaration is not under `src/`; the fields
are the ones `offsetfile.go` reads and writes: two 32-byte hashes (compared only for
equality), the byte arrays `FileNum` and `Offset`, and the `uint32` `UndoPos`. -/
structure RawHeaderData where
  CurrentHeaderHash : Hash
  Prevhash : Hash
  FileNum : List Nat
  Offset : List Nat
  UndoPos : Nat
deriving DecidableEq, Repr

/-- The map `map[[32]byte]RawHeaderData` as an association list read by first match. -/
abbrev HeaderMap := List (Hash × RawHeaderData)

/-- Map read `m[k]`. -/
def HeaderMap.find (m : HeaderMap) (k : Hash) : Option RawHeaderData :=
  (List.find? (fun e => e.1 == k) m).map Prod.snd

/-- Map write `m[k] = v`. -/
def HeaderMap.insert (m : HeaderMap) (k : Hash) (v : RawHeaderData) : HeaderMap :=
  (k, v) :: m.filter (fun e => e.1 != k)

/-- Map delete `delete(m, k)`. -/
def HeaderMap.delete (m : HeaderMap) (k : Hash) : HeaderMap :=
  m.filter (fun e => e.1 != k)

/-- Number of keys `len(m)`. -/
def HeaderMap.len (m : HeaderMap) : Nat := (m.map Prod.fst).eraseDups.length

/-- `binary.BigEndian.PutUint32` on a 4-byte slice. -/
def putUint32BE (v : Nat) : List Nat :=
  [v / 2 ^ 24 % 256, v / 2 ^ 16 % 256, v / 2 ^ 8 % 256, v % 256]

/-- Wrap-around of an `int32`. -/
def wrapInt32 (x : Int) : Int := (x + 2 ^ 31) % 2 ^ 32 - 2 ^ 31

/-- The state `writeBlockOffset` works on: the stash map, the bytes written to `wr`, the
tip and its height; `written` lists the headers whose records were written, in order. -/
structure OffsetState where
  nextMap : HeaderMap
  out : List Nat
  written : List RawHeaderData
  tip : Hash
  tipnum : Int
deriving DecidableEq, Repr

/-- The three `wr.Write` calls for one header, then `tip = b.CurrentHeaderHash` and
`tipnum++`. -/
def OffsetState.emit (st : OffsetState) (b : RawHeaderData) : OffsetState :=
  { st with
    out := st.out ++ b.FileNum ++ b.Offset ++ putUint32BE b.UndoPos
    written := st.written ++ [b]
    tip := b.CurrentHeaderHash
    tipnum := wrapInt32 (st.tipnum + 1) }

/-- The loop `for ok { ... }` over the stashed blocks of `writeBlockOffset`, run for at
most `fuel` passes; `none` when the loop has not ended by then. -/
def drainStash : Nat → OffsetState → Option OffsetState
  | 0, st =>
    match st.nextMap.find st.tip with
    | none => some st
    | some _ => none
  | fuel + 1, st =>
    match st.nextMap.find st.tip with
    | none => some st
    | some stashedBlock =>
      let st1 := st.emit stashedBlock
      drainStash fuel { st1 with nextMap := st1.nextMap.delete stashedBlock.Prevhash }

/-- The loop `for _, b := range blockHeaders` of `writeBlockOffset`. -/
def offsetLoop (fuel : Nat) : List RawHeaderData → OffsetState → Option OffsetState
  | [], st => some st
  | b :: rest, st =>
    if st.nextMap.len > 10000 then some st                 -- "Dead end tip. Exiting..."
    else if b.Prevhash ≠ st.tip then
      offsetLoop fuel rest { st with nextMap := st.nextMap.insert b.Prevhash b }
    else
      match drainStash fuel (st.emit b) with
      | none => none
      | some st1 => offsetLoop fuel rest st1

/-- Transcription of `writeBlockOffset` on an in-memory writer; `fuel` bounds the passes of
each run of the stash loop.  The returned state holds the new tip and height. -/
def writeBlockOffset (fuel : Nat) (blockHeaders : List RawHeaderData) (nextMap : HeaderMap)
    (tipnum : Int) (tip : Hash) : Option OffsetState :=
  offsetLoop fuel blockHeaders ⟨nextMap, [], [], tip, tipnum⟩

/-- The 12-byte record of a header in the offset file. -/
def offsetRecord (b : RawHeaderData) : List Nat :=
  b.FileNum ++ b.Offset ++ putUint32BE b.UndoPos

/-- Whether `ws` is a hash chain from `t`: the first header has `Prevhash = t`, each later
one has as `Prevhash` the `CurrentHeaderHash` of the one before. -/
def isHashChain : Hash → List RawHeaderData → Bool
  | _, [] => true
  | t, w :: ws => w.Prevhash == t && isHashChain w.CurrentHeaderHash ws

/-- The hash at the end of the chain `ws` started at `t`. -/
def chainTip (t : Hash) : List RawHeaderData → Hash
  | [] => t
  | w :: ws => chainTip w.CurrentHeaderHash ws

/-- Every stashed header is stored under its own `Prevhash`. -/
def HeaderMap.keyed (m : HeaderMap) : Prop := ∀ e ∈ m, e.2.Prevhash = e.1

/-- What holds of the height, the bytes and the headers written, whatever the map: the
height has been incremented once per written header, the output is the records of the
written headers in order, and the written and stashed headers have 4-byte fields. -/
def OffsetState.counted (tn0 : Int) (st : OffsetState) : Prop :=
  st.tipnum = wrapInt32 (tn0 + st.written.length) ∧
  st.out = st.written.flatMap offsetRecord ∧
  (∀ w ∈ st.written, w.FileNum.length = 4 ∧ w.Offset.length = 4) ∧
  (∀ e ∈ st.nextMap, e.2.FileNum.length = 4 ∧ e.2.Offset.length = 4)

/-! ## Hash-level view of the add loop, and the Merkle forest it builds -/

/-- The loop of `addOne` seen on the list of top hashes only: while bit `h` of `m` is set,
pop the last hash `t` and replace the carried hash `x` by `Parent t x`.  `none` is the
out-of-range read of an empty list. -/
def carry (Parent : Hash → Hash → Hash) :
    Nat → Nat → Nat → List Hash → Hash → Option (List Hash × Hash)
  | 0, _, _, ts, x => some (ts, x)
  | k + 1, h, m, ts, x =>
    if (m >>> h) % 2 = 1 then
      match ts.getLast? with
      | none => none
      | some t => carry Parent k (h + 1) m ts.dropLast (Parent t x)
    else some (ts, x)

/-- Merkle root of a block of `2^r` leaves under the 2-to-1 hash `Parent`. -/
def merkleRoot (Parent : Hash → Hash → Hash) : Nat → List Hash → Hash
  | 0, l => l.headD empty
  | r + 1, l => Parent (merkleRoot Parent r (l.take (2 ^ r))) (merkleRoot Parent r (l.drop (2 ^ r)))

/-- Consecutive blocks of the leaf list `l`, largest first: one block of `2^(r+i)` leaves,
tagged with its row `r+i`, for each set bit `i < k` of `m`. -/
def blocks : Nat → Nat → Nat → List Hash → List (Nat × List Hash)
  | 0, _, _, _ => []
  | k + 1, r, m, l =>
    let hi := blocks k (r + 1) (m / 2) (l.take ((m / 2) * 2 ^ (r + 1)))
    if m % 2 = 1 then hi ++ [(r, l.drop ((m / 2) * 2 ^ (r + 1)))] else hi

/-- Number of leaves under each top, in slice order: the same `add` run with every leaf
hashed to `1` and `Parent` adding the two counts, so that the hash of a node is the number
of leaves below it (`2^row`). -/
def treeSizes (adds : List LeafTXO) : List Nat :=
  (add (fun a b => a + b) Pollard.empty (adds.map fun a => ⟨1, a.remember⟩)).1.topHashes

/-- Merkle roots of the blocks of `l`. -/
def blockRoots (Parent : Hash → Hash → Hash) (k r m : Nat) (l : List Hash) : List Hash :=
  (blocks k r m l).map fun b => merkleRoot Parent b.1 b.2


/-! ## Lemmas on the heap and on `prune` -/

theorem deref_store_same (heap : List polNode) (a : Nat) (n : polNode) (h : a < heap.length) :
    deref (store heap a n) a = some n := by
  simp [deref, store, List.getElem?_set, h]

theorem store_length (heap : List polNode) (a : Nat) (n : polNode) :
    (store heap a n).length = heap.length := by
  simp [store]

theorem prune_data (heap : List polNode) (a : Nat) (n : polNode) (h : deref heap a = some n) :
    ∃ n2, deref (prune heap a) a = some n2 ∧ n2.data = n.data := by
  have hlt : a < heap.length := by
    simp only [deref, List.get?_eq_getElem?] at h
    exact (List.getElem?_eq_some_iff.mp h).1
  unfold prune
  rw [h]
  simp only
  refine ⟨_, deref_store_same _ _ _ hlt, ?_⟩
  split <;> split <;> rfl

/-! ## The add loop on hashes -/

theorem deref_lt {heap : List polNode} {a : Nat} {n : polNode} (h : deref heap a = some n) :
    a < heap.length := by
  simp only [deref, List.get?_eq_getElem?] at h
  exact (List.getElem?_eq_some_iff.mp h).1

theorem combine_deref (Parent : Hash → Hash → Hash) (heap : List polNode) (n : Nat)
    (nNode leftTop : polNode) :
    ∃ n2, deref (combine Parent heap n nNode leftTop).1 (combine Parent heap n nNode leftTop).2
        = some n2 ∧ n2.data = Parent leftTop.data nNode.data := by
  unfold combine
  simp only
  have hpar : deref
      (store heap n ⟨nNode.data, leftTop.niece0, leftTop.niece1⟩ ++
        [(⟨leftTop.data, nNode.niece0, nNode.niece1⟩ : polNode)] ++
        [(⟨Parent leftTop.data nNode.data,
          some (store heap n ⟨nNode.data, leftTop.niece0, leftTop.niece1⟩).length,
          some n⟩ : polNode)])
      (store heap n ⟨nNode.data, leftTop.niece0, leftTop.niece1⟩ ++
        [(⟨leftTop.data, nNode.niece0, nNode.niece1⟩ : polNode)]).length =
      some ⟨Parent leftTop.data nNode.data,
          some (store heap n ⟨nNode.data, leftTop.niece0, leftTop.niece1⟩).length,
          some n⟩ := by
    simp only [deref, List.get?_eq_getElem?]
    rw [List.getElem?_append_right (le_refl _)]
    simp
  exact prune_data _ _ _ hpar

theorem addOneLoop_carry (Parent : Hash → Hash → Hash) :
    ∀ (k h : Nat) (p : Pollard) (n : Nat) (nNode : polNode),
      deref p.heap n = some nNode →
      (addOneLoop Parent k h p n).1.numLeaves = p.numLeaves ∧
      (addOneLoop Parent k h p n).1.rememberEver = p.rememberEver ∧
      match carry Parent k h p.numLeaves p.topHashes nNode.data with
      | none => (addOneLoop Parent k h p n).2 = .error .panicIndex
      | some (ts, x) =>
        (addOneLoop Parent k h p n).1.topHashes = ts ∧
        ∃ n2 node2, (addOneLoop Parent k h p n).2 = .ok n2 ∧
          deref (addOneLoop Parent k h p n).1.heap n2 = some node2 ∧ node2.data = x := by
  intro k
  induction k with
  | zero =>
    intro h p n nNode hn
    simp only [addOneLoop, carry, true_and]
    exact ⟨n, nNode, rfl, hn, rfl⟩
  | succ k ih =>
    intro h p n nNode hn
    unfold addOneLoop carry
    by_cases hb : (p.numLeaves >>> h) % 2 = 1
    · simp only [hb, if_true]
      cases hl : p.tops.getLast? with
      | none =>
        have : p.topHashes.getLast? = none := by
          simp [Pollard.topHashes, List.getLast?_map, hl]
        simp [this]
      | some leftTop =>
        have hl2 : p.topHashes.getLast? = some leftTop.data := by
          simp [Pollard.topHashes, List.getLast?_map, hl]
        simp only [hl2, hn]
        obtain ⟨n2, hn2, hd2⟩ := combine_deref Parent p.heap n nNode leftTop
        have := ih (h + 1)
          { p with
            tops := p.tops.dropLast
            heap := (combine Parent p.heap n nNode leftTop).1
            hashesEver := p.hashesEver + 1 }
          _ n2 hn2
        have htd : (Pollard.topHashes
            { p with
              tops := p.tops.dropLast
              heap := (combine Parent p.heap n nNode leftTop).1
              hashesEver := p.hashesEver + 1 }) = p.topHashes.dropLast := by
          simp [Pollard.topHashes, List.map_dropLast]
        rw [htd, hd2] at this
        exact this
    · simp only [hb, if_false, true_and]
      exact ⟨n, nNode, rfl, hn, rfl⟩

/-- What `addOne` does to `numLeaves` and to the hashes of the tops, by way of `carry`. -/
theorem addOne_carry (Parent : Hash → Hash → Hash) (p : Pollard) (x : Hash) (rem : Bool) :
    match carry Parent 64 0 p.numLeaves p.topHashes x with
    | none => (addOne Parent p x rem).2 = some .panicIndex
    | some (ts, y) =>
      (addOne Parent p x rem).2 = none ∧
      (addOne Parent p x rem).1.topHashes = ts ++ [y] ∧
      (addOne Parent p x rem).1.numLeaves = (p.numLeaves + 1) % u64 ∧
      (addOne Parent p x rem).1.rememberEver = p.rememberEver := by
  have hn : deref (p.heap ++ [(⟨x, if rem then some p.heap.length else none, none⟩ : polNode)])
      p.heap.length = some ⟨x, if rem then some p.heap.length else none, none⟩ := by
    simp [deref]
  have h := addOneLoop_carry Parent 64 0
    { p with heap := p.heap ++ [⟨x, if rem then some p.heap.length else none, none⟩] } _ _ hn
  have ht : (Pollard.topHashes
      { p with heap := p.heap ++ [⟨x, if rem then some p.heap.length else none, none⟩] })
      = p.topHashes := rfl
  rw [ht] at h
  simp only at h
  obtain ⟨h1, h2, h3⟩ := h
  unfold addOne
  simp only
  cases hc : carry Parent 64 0 p.numLeaves p.topHashes x with
  | none =>
    rw [hc] at h3
    simp only at h3
    generalize addOneLoop Parent 64 0
      { p with heap := p.heap ++ [⟨x, if rem then some p.heap.length else none, none⟩] }
      p.heap.length = r at h1 h2 h3
    obtain ⟨r1, r2⟩ := r
    simp only at h3
    subst h3
    rfl
  | some tsy =>
    obtain ⟨ts, y⟩ := tsy
    rw [hc] at h3
    simp only at h3
    obtain ⟨h4, n2, node2, h5, h6, h7⟩ := h3
    generalize addOneLoop Parent 64 0
      { p with heap := p.heap ++ [⟨x, if rem then some p.heap.length else none, none⟩] }
      p.heap.length = r at h1 h2 h4 h5 h6
    obtain ⟨r1, r2⟩ := r
    simp only at h1 h2 h4 h5 h6
    subst h5
    simp only [h6]
    refine ⟨trivial, ?_, ?_, h2⟩
    · simp [Pollard.topHashes, h7] at h4 ⊢
      exact h4
    · simp [h1]

theorem popcountAux_succ_odd (k q : Nat) (h : q % 2 = 1) :
    popcountAux (k + 1) (q + 1) = popcountAux k (q / 2 + 1) := by
  have h1 : (q + 1) % 2 = 0 := by omega
  have h2 : (q + 1) / 2 = q / 2 + 1 := by omega
  simp [popcountAux, h1, h2]

theorem popcountAux_succ_even (k q : Nat) (h : ¬ q % 2 = 1) :
    popcountAux (k + 1) (q + 1) = popcountAux (k + 1) q + 1 := by
  have h0 : q % 2 = 0 := by omega
  have h1 : (q + 1) % 2 = 1 := by omega
  have h2 : (q + 1) / 2 = q / 2 := by omega
  simp [popcountAux, h0, h1, h2]
  omega

/-- Length bookkeeping of the carry loop: with one top per set bit at and above bit `h`,
the loop never pops an empty list and leaves one top less than `popcount (q + 1)`. -/
theorem carry_length (Parent : Hash → Hash → Hash) :
    ∀ (k h m : Nat) (ts : List Hash) (x : Hash),
      m >>> h < 2 ^ k → ts.length = popcountAux k (m >>> h) →
      ∃ ts2 y, carry Parent k h m ts x = some (ts2, y) ∧
        (m >>> h + 1 < 2 ^ k → ts2.length + 1 = popcountAux k (m >>> h + 1)) := by
  intro k
  induction k with
  | zero =>
    intro h m ts x hq _
    refine ⟨ts, x, rfl, ?_⟩
    intro h1
    simp at h1
  | succ k ih =>
    intro h m ts x hq hlen
    unfold carry
    have hshift : m >>> (h + 1) = (m >>> h) / 2 := by
      rw [Nat.shiftRight_succ]
    by_cases hb : (m >>> h) % 2 = 1
    · simp only [hb, if_true]
      have hlen2 : ts.length = 1 + popcountAux k ((m >>> h) / 2) := by
        rw [hlen]; simp [popcountAux, hb]
      cases hl : ts.getLast? with
      | none =>
        rw [List.getLast?_eq_none_iff] at hl
        subst hl
        simp at hlen2
        omega
      | some t =>
        simp only
        have hq2 : m >>> (h + 1) < 2 ^ k := by
          rw [hshift]; rw [pow_succ] at hq; omega
        have hd : ts.dropLast.length = popcountAux k (m >>> (h + 1)) := by
          rw [hshift, List.length_dropLast]; omega
        obtain ⟨ts2, y, hc, hlen3⟩ := ih (h + 1) m ts.dropLast (Parent t x) hq2 hd
        refine ⟨ts2, y, hc, ?_⟩
        intro h1
        rw [popcountAux_succ_odd k _ hb, ← hshift]
        apply hlen3
        rw [hshift]; rw [pow_succ] at h1; omega
    · simp only [hb, if_false]
      refine ⟨ts, x, rfl, ?_⟩
      intro _
      rw [popcountAux_succ_even k _ hb, hlen]

/-! ## Count invariant under add -/

theorem addOne_count (Parent : Hash → Hash → Hash) (p : Pollard) (x : Hash) (rem : Bool)
    (hinv : p.tops.length = popcount p.numLeaves) (hlt : p.numLeaves + 1 < u64) :
    (addOne Parent p x rem).2 = none ∧
    (addOne Parent p x rem).1.tops.length = popcount (addOne Parent p x rem).1.numLeaves ∧
    (addOne Parent p x rem).1.numLeaves = p.numLeaves + 1 := by
  have hq : p.numLeaves >>> 0 < 2 ^ 64 := by
    simp only [Nat.shiftRight_zero]; unfold u64 at hlt; omega
  have hl : p.topHashes.length = popcountAux 64 (p.numLeaves >>> 0) := by
    simpa [Pollard.topHashes, popcount] using hinv
  obtain ⟨ts2, y, hc, hlen⟩ := carry_length Parent 64 0 p.numLeaves p.topHashes x hq hl
  have h := addOne_carry Parent p x rem
  rw [hc] at h
  simp only at h
  obtain ⟨h1, h2, h3, _⟩ := h
  have hmod : (p.numLeaves + 1) % u64 = p.numLeaves + 1 := Nat.mod_eq_of_lt hlt
  refine ⟨h1, ?_, by rw [h3, hmod]⟩
  have hlen2 := hlen (by simpa [u64] using hlt)
  have : (addOne Parent p x rem).1.tops.length = ts2.length + 1 := by
    have := congrArg List.length h2
    simpa [Pollard.topHashes] using this
  rw [this, h3, hmod, hlen2]
  simp [popcount]

theorem add_count (Parent : Hash → Hash → Hash) :
    ∀ (adds : List LeafTXO) (p : Pollard),
      p.tops.length = popcount p.numLeaves → p.numLeaves + adds.length < u64 →
      (add Parent p adds).2 = none ∧
      (add Parent p adds).1.tops.length = popcount (add Parent p adds).1.numLeaves ∧
      (add Parent p adds).1.numLeaves = p.numLeaves + adds.length := by
  intro adds
  induction adds with
  | nil => intro p hinv _; exact ⟨rfl, hinv, rfl⟩
  | cons a rest ih =>
    intro p hinv hlt
    simp only [List.length_cons] at hlt
    unfold add
    simp only
    have hp1 : ∀ q : Pollard, q.tops = p.tops → q.numLeaves = p.numLeaves →
        (match addOne Parent q a.hash a.remember with
          | (p2, some e) => (p2, some e)
          | (p2, none) => add Parent p2 rest).2 = none ∧
        (match addOne Parent q a.hash a.remember with
          | (p2, some e) => (p2, some e)
          | (p2, none) => add Parent p2 rest).1.tops.length =
          popcount (match addOne Parent q a.hash a.remember with
          | (p2, some e) => (p2, some e)
          | (p2, none) => add Parent p2 rest).1.numLeaves ∧
        (match addOne Parent q a.hash a.remember with
          | (p2, some e) => (p2, some e)
          | (p2, none) => add Parent p2 rest).1.numLeaves = p.numLeaves + (rest.length + 1) := by
      intro q hq1 hq2
      obtain ⟨h1, h2, h3⟩ := addOne_count Parent q a.hash a.remember
        (by rw [hq1, hq2]; exact hinv) (by rw [hq2]; omega)
      generalize addOne Parent q a.hash a.remember = r at h1 h2 h3
      obtain ⟨r1, r2⟩ := r
      simp only at h1 h2 h3
      subst h1
      simp only
      obtain ⟨i1, i2, i3⟩ := ih r1 h2 (by rw [h3, hq2]; omega)
      refine ⟨i1, i2, ?_⟩
      rw [i3, h3, hq2]; omega
    exact hp1 (if a.remember then { p with rememberEver := p.rememberEver + 1 } else p)
      (by split <;> rfl) (by split <;> rfl)

/-- C2 (as amended): for every pollard with `len(tops) = popcount(numLeaves)` whose leaf
count stays below `2^64`, `addOne` of any hash, and `add` of any list of leaves, return no
error (no top is read from an empty list) and `len(tops) = popcount(numLeaves)` holds
afterwards; in particular it holds for every pollard built from the empty one by `add`. -/
theorem count_invariant_add (Parent : Hash → Hash → Hash) (p : Pollard)
    (hinv : p.tops.length = popcount p.numLeaves) :
    (∀ (x : Hash) (rem : Bool), p.numLeaves + 1 < u64 →
      (addOne Parent p x rem).2 = none ∧
      (addOne Parent p x rem).1.tops.length = popcount (addOne Parent p x rem).1.numLeaves) ∧
    (∀ adds : List LeafTXO, p.numLeaves + adds.length < u64 →
      (add Parent p adds).2 = none ∧
      (add Parent p adds).1.tops.length = popcount (add Parent p adds).1.numLeaves) ∧
    (∀ adds : List LeafTXO, adds.length < u64 →
      (add Parent Pollard.empty adds).1.tops.length
        = popcount (add Parent Pollard.empty adds).1.numLeaves) := by
  refine ⟨?_, ?_, ?_⟩
  · intro x rem hlt
    obtain ⟨h1, h2, _⟩ := addOne_count Parent p x rem hinv hlt
    exact ⟨h1, h2⟩
  · intro adds hlt
    obtain ⟨h1, h2, _⟩ := add_count Parent adds p hinv hlt
    exact ⟨h1, h2⟩
  · intro adds hlt
    have h0 : Pollard.empty.tops.length = popcount Pollard.empty.numLeaves := by decide
    exact (add_count Parent adds Pollard.empty h0 (by simpa [Pollard.empty] using hlt)).2.1

/-- Witness for `count_invariant_add`: the pollard holding three leaves. -/
theorem count_invariant_add_witness :
    (add (fun a b => a + 2 * b + 1) Pollard.empty [⟨5, true⟩, ⟨6, false⟩, ⟨7, false⟩]).1.tops.length
      = popcount (add (fun a b => a + 2 * b + 1) Pollard.empty
          [⟨5, true⟩, ⟨6, false⟩, ⟨7, false⟩]).1.numLeaves ∧
    (addOne (fun a b => a + 2 * b + 1)
        (add (fun a b => a + 2 * b + 1) Pollard.empty [⟨5, true⟩, ⟨6, false⟩, ⟨7, false⟩]).1
        8 false).1.tops.length = 1 :=
  ⟨by decide,
   by
    have h := (count_invariant_add (fun a b => a + 2 * b + 1)
      (add (fun a b => a + 2 * b + 1) Pollard.empty [⟨5, true⟩, ⟨6, false⟩, ⟨7, false⟩]).1
      (by decide)).1 8 false (by decide)
    rw [h.2]
    decide⟩

set_option maxRecDepth 100000 in
/-- C2 (as stated) fails at the last `uint64`: with `numLeaves = 2^64 - 1` and its 64 tops,
`addOne` pops all 64 tops, appends one, and `numLeaves++` wraps to 0, so one top stands
against `popcount 0 = 0`. -/
theorem count_invariant_add_counterexample :
    ¬ (∀ (Parent : Hash → Hash → Hash) (p : Pollard) (x : Hash) (rem : Bool),
        p.numLeaves < u64 → p.tops.length = popcount p.numLeaves →
        (addOne Parent p x rem).2 = none ∧
        (addOne Parent p x rem).1.tops.length
          = popcount (addOne Parent p x rem).1.numLeaves) := by
  intro h
  have h1 := (h (fun a b => a + b) fullPollard 1 false (by decide) (by decide)).2
  revert h1
  decide

/-! ## Merkle roots after adds -/

theorem merkleRoot_append (Parent : Hash → Hash → Hash) (r : Nat) (xs ys : List Hash)
    (hx : xs.length = 2 ^ r) :
    merkleRoot Parent (r + 1) (xs ++ ys)
      = Parent (merkleRoot Parent r xs) (merkleRoot Parent r ys) := by
  simp only [merkleRoot]
  rw [← hx, List.take_left', List.drop_left']  <;> rfl

theorem blockRoots_odd (Parent : Hash → Hash → Hash) (k r m : Nat) (l : List Hash)
    (h : m % 2 = 1) :
    blockRoots Parent (k + 1) r m l
      = blockRoots Parent k (r + 1) (m / 2) (l.take ((m / 2) * 2 ^ (r + 1)))
        ++ [merkleRoot Parent r (l.drop ((m / 2) * 2 ^ (r + 1)))] := by
  simp [blockRoots, blocks, h]

theorem blockRoots_even (Parent : Hash → Hash → Hash) (k r m : Nat) (l : List Hash)
    (h : ¬ m % 2 = 1) :
    blockRoots Parent (k + 1) r m l
      = blockRoots Parent k (r + 1) (m / 2) (l.take ((m / 2) * 2 ^ (r + 1))) := by
  simp [blockRoots, blocks, h]

/-- The carry loop turns the roots of the first `q` blocks plus the root of a new block of
`2^h` leaves into the roots for `q + 1` blocks. -/
theorem carry_blockRoots (Parent : Hash → Hash → Hash) :
    ∀ (k h m : Nat) (l xs : List Hash),
      m >>> h + 1 < 2 ^ k → l.length = (m >>> h) * 2 ^ h → xs.length = 2 ^ h →
      ∃ ts2 y, carry Parent k h m (blockRoots Parent k h (m >>> h) l) (merkleRoot Parent h xs)
          = some (ts2, y) ∧
        ts2 ++ [y] = blockRoots Parent k h (m >>> h + 1) (l ++ xs) := by
  intro k
  induction k with
  | zero => intro h m l xs hq; simp at hq
  | succ k ih =>
    intro h m l xs hq hl hx
    have hshift : m >>> (h + 1) = (m >>> h) / 2 := by rw [Nat.shiftRight_succ]
    unfold carry
    by_cases hb : (m >>> h) % 2 = 1
    · simp only [hb, if_true]
      rw [blockRoots_odd Parent k h _ l hb]
      simp only [List.getLast?_concat, List.dropLast_concat]
      have hq2 : m >>> (h + 1) + 1 < 2 ^ k := by
        rw [hshift]; rw [pow_succ] at hq; omega
      have hmul : (m >>> h) * 2 ^ h = (m >>> h / 2) * 2 ^ (h + 1) + 2 ^ h := by
        have : m >>> h = 2 * (m >>> h / 2) + 1 := by omega
        conv_lhs => rw [this]
        rw [pow_succ]; ring
      have hl1 : (l.take ((m >>> h / 2) * 2 ^ (h + 1))).length = m >>> (h + 1) * 2 ^ (h + 1) := by
        rw [List.length_take, hl, hshift, hmul]; omega
      have hl2 : (l.drop ((m >>> h / 2) * 2 ^ (h + 1))).length = 2 ^ h := by
        rw [List.length_drop, hl, hmul]; omega
      have hx2 : (l.drop ((m >>> h / 2) * 2 ^ (h + 1)) ++ xs).length = 2 ^ (h + 1) := by
        rw [List.length_append, hl2, hx, pow_succ]; omega
      obtain ⟨ts2, y, hc, hr⟩ := ih (h + 1) m _ _ hq2 hl1 hx2
      rw [merkleRoot_append Parent h _ xs hl2] at hc
      rw [hshift] at hc
      refine ⟨ts2, y, hc, ?_⟩
      rw [hr]
      have hev : ¬ (m >>> h + 1) % 2 = 1 := by omega
      rw [blockRoots_even Parent k h _ _ hev]
      have hdiv : (m >>> h + 1) / 2 = m >>> (h + 1) + 1 := by rw [hshift]; omega
      rw [hdiv]
      have htake : (l ++ xs).take ((m >>> (h + 1) + 1) * 2 ^ (h + 1)) = l ++ xs := by
        apply List.take_of_length_le
        rw [List.length_append, hl, hx, hshift, hmul, pow_succ]
        have : (m >>> h / 2 + 1) * (2 ^ h * 2) = m >>> h / 2 * (2 ^ h * 2) + 2 ^ h + 2 ^ h := by
          ring
        omega
      rw [htake, ← List.append_assoc, List.take_append_drop]
    · simp only [hb, if_false]
      refine ⟨_, _, rfl, ?_⟩
      have hod : (m >>> h + 1) % 2 = 1 := by omega
      rw [blockRoots_odd Parent k h _ _ hod, blockRoots_even Parent k h _ _ hb]
      have hdiv : (m >>> h + 1) / 2 = m >>> h / 2 := by omega
      have hmul : (m >>> h) * 2 ^ h = (m >>> h / 2) * 2 ^ (h + 1) := by
        have : m >>> h = 2 * (m >>> h / 2) := by omega
        conv_lhs => rw [this]
        rw [pow_succ]; ring
      rw [hdiv, ← hmul, ← hl]
      simp

theorem blocks_zero : ∀ (k r : Nat) (l : List Hash), blocks k r 0 l = [] := by
  intro k
  induction k with
  | zero => intro r l; rfl
  | succ k ih => intro r l; simp [blocks, ih]

theorem addOne_blockRoots (Parent : Hash → Hash → Hash) (p : Pollard) (l : List Hash)
    (x : Hash) (rem : Bool) (hn : p.numLeaves = l.length)
    (ht : p.topHashes = blockRoots Parent 64 0 l.length l) (hlt : l.length + 1 < u64) :
    (addOne Parent p x rem).2 = none ∧
    (addOne Parent p x rem).1.numLeaves = (l ++ [x]).length ∧
    (addOne Parent p x rem).1.topHashes
      = blockRoots Parent 64 0 (l ++ [x]).length (l ++ [x]) := by
  have hc := carry_blockRoots Parent 64 0 p.numLeaves l [x]
    (by simpa [hn, u64] using hlt) (by simp [hn]) (by simp)
  obtain ⟨ts2, y, hc, hr⟩ := hc
  simp only [Nat.shiftRight_zero, merkleRoot, List.headD_cons] at hc hr
  have h := addOne_carry Parent p x rem
  rw [ht, ← hn, hc] at h
  simp only at h
  obtain ⟨h1, h2, h3, _⟩ := h
  have hmod : (p.numLeaves + 1) % u64 = p.numLeaves + 1 := by
    apply Nat.mod_eq_of_lt; rw [hn]; exact hlt
  refine ⟨h1, by rw [h3, hmod, hn]; simp, ?_⟩
  rw [h2, hr, List.length_append, List.length_singleton, hn]

theorem add_blockRoots (Parent : Hash → Hash → Hash) :
    ∀ (adds : List LeafTXO) (p : Pollard) (l : List Hash),
      p.numLeaves = l.length → p.topHashes = blockRoots Parent 64 0 l.length l →
      l.length + adds.length < u64 →
      (add Parent p adds).2 = none ∧
      (add Parent p adds).1.numLeaves = (l ++ adds.map LeafTXO.hash).length ∧
      (add Parent p adds).1.topHashes
        = blockRoots Parent 64 0 (l ++ adds.map LeafTXO.hash).length
            (l ++ adds.map LeafTXO.hash) := by
  intro adds
  induction adds with
  | nil => intro p l hn ht _; simpa [add] using ⟨hn, ht⟩
  | cons a rest ih =>
    intro p l hn ht hlt
    simp only [List.length_cons] at hlt
    have hstep := addOne_blockRoots Parent
      (if a.remember then { p with rememberEver := p.rememberEver + 1 } else p)
      l a.hash a.remember (by split <;> exact hn) (by split <;> exact ht) (by omega)
    unfold add
    simp only
    generalize addOne Parent
      (if a.remember then { p with rememberEver := p.rememberEver + 1 } else p)
      a.hash a.remember = r at hstep
    obtain ⟨r1, r2⟩ := r
    obtain ⟨h1, h2, h3⟩ := hstep
    simp only at h1 h2 h3
    subst h1
    simp only
    have := ih r1 (l ++ [a.hash]) h2 h3 (by simp; omega)
    simpa using this

/-! ### The blocks are the binary decomposition of the leaf list -/

theorem blocks_flatten : ∀ (k r m : Nat) (l : List Hash),
    m < 2 ^ k → l.length = m * 2 ^ r → ((blocks k r m l).map Prod.snd).flatten = l := by
  intro k
  induction k with
  | zero =>
    intro r m l hm hl
    simp at hm
    subst hm
    simp at hl
    subst hl
    rfl
  | succ k ih =>
    intro r m l hm hl
    have hm2 : m / 2 < 2 ^ k := by rw [pow_succ] at hm; omega
    have hlt : (l.take ((m / 2) * 2 ^ (r + 1))).length = (m / 2) * 2 ^ (r + 1) := by
      rw [List.length_take, hl, pow_succ]
      have : m / 2 * (2 ^ r * 2) = (2 * (m / 2)) * 2 ^ r := by ring
      rw [this]
      have : 2 * (m / 2) * 2 ^ r ≤ m * 2 ^ r := Nat.mul_le_mul_right _ (by omega)
      omega
    have h1 := ih (r + 1) (m / 2) _ hm2 hlt
    unfold blocks
    by_cases hb : m % 2 = 1
    · simp only [hb, if_true, List.map_append, List.flatten_append, h1, List.map_cons,
        List.map_nil, List.flatten_cons, List.flatten_nil, List.append_nil]
      exact List.take_append_drop _ _
    · simp only [hb, if_false, h1]
      apply List.take_of_length_le
      rw [hl, pow_succ]
      have : m = 2 * (m / 2) := by omega
      conv_lhs => rw [this]
      apply le_of_eq; ring

theorem blocks_mem : ∀ (k r m : Nat) (l : List Hash),
    m < 2 ^ k → l.length = m * 2 ^ r →
    ∀ b ∈ blocks k r m l, b.2.length = 2 ^ b.1 ∧ r ≤ b.1 ∧ m.testBit (b.1 - r) = true := by
  intro k
  induction k with
  | zero => intro r m l _ _ b hb; simp [blocks] at hb
  | succ k ih =>
    intro r m l hm hl b hb
    have hm2 : m / 2 < 2 ^ k := by rw [pow_succ] at hm; omega
    have hle : (m / 2) * 2 ^ (r + 1) ≤ l.length := by
      rw [hl, pow_succ]
      have : m / 2 * (2 ^ r * 2) = (2 * (m / 2)) * 2 ^ r := by ring
      rw [this]
      exact Nat.mul_le_mul_right _ (by omega)
    have hlt : (l.take ((m / 2) * 2 ^ (r + 1))).length = (m / 2) * 2 ^ (r + 1) := by
      rw [List.length_take]; omega
    have hhi : ∀ b ∈ blocks k (r + 1) (m / 2) (l.take ((m / 2) * 2 ^ (r + 1))),
        b.2.length = 2 ^ b.1 ∧ r ≤ b.1 ∧ m.testBit (b.1 - r) = true := by
      intro b hb
      obtain ⟨h1, h2, h3⟩ := ih (r + 1) (m / 2) _ hm2 hlt b hb
      refine ⟨h1, by omega, ?_⟩
      have : b.1 - r = (b.1 - (r + 1)).succ := by omega
      rw [this, Nat.testBit_succ]
      exact h3
    unfold blocks at hb
    by_cases hbit : m % 2 = 1
    · simp only [hbit, if_true, List.mem_append, List.mem_singleton] at hb
      rcases hb with hb | hb
      · exact hhi b hb
      · subst hb
        refine ⟨?_, le_refl _, ?_⟩
        · simp only
          have key : m * 2 ^ r = m / 2 * 2 ^ (r + 1) + 2 ^ r := by
            have h2 : m = 2 * (m / 2) + 1 := by omega
            nth_rewrite 1 [h2]
            rw [pow_succ]; ring
          rw [List.length_drop, hl, key]
          omega
        · simp [Nat.testBit_zero, hbit]
    · simp only [hbit, if_false] at hb
      exact hhi b hb

theorem blocks_rows : ∀ (k r m : Nat) (l : List Hash),
    (∀ b ∈ blocks k r m l, r ≤ b.1) ∧ ((blocks k r m l).map Prod.fst).Pairwise (· > ·) ∧
    (blocks k r m l).length = popcountAux k m := by
  intro k
  induction k with
  | zero => intro r m l; simp [blocks, popcountAux]
  | succ k ih =>
    intro r m l
    obtain ⟨h1, h2, h3⟩ := ih (r + 1) (m / 2) (l.take ((m / 2) * 2 ^ (r + 1)))
    unfold blocks popcountAux
    by_cases hbit : m % 2 = 1
    · simp only [hbit, if_true]
      refine ⟨?_, ?_, ?_⟩
      · intro b hb
        simp only [List.mem_append, List.mem_singleton] at hb
        rcases hb with hb | hb
        · have := h1 b hb; omega
        · subst hb; exact le_refl _
      · rw [List.map_append, List.pairwise_append]
        refine ⟨h2, by simp, ?_⟩
        intro a ha b hb
        simp only [List.map_cons, List.map_nil, List.mem_singleton] at hb
        obtain ⟨c, hc, hca⟩ := List.mem_map.mp ha
        have := h1 c hc
        rw [hb, ← hca]
        show c.1 > r
        omega
      · rw [List.length_append, h3]; simp; omega
    · have h0 : m % 2 = 0 := by omega
      simp only [hbit, if_false, h0, zero_add]
      refine ⟨?_, h2, h3⟩
      intro b hb
      have := h1 b hb; omega

theorem blocks_two_pow : ∀ (k r j : Nat) (l : List Hash),
    j < k → l.length = 2 ^ j * 2 ^ r → blocks k r (2 ^ j) l = [(r + j, l)] := by
  intro k
  induction k with
  | zero => intro r j l hj; omega
  | succ k ih =>
    intro r j l hj hl
    unfold blocks
    cases j with
    | zero => simp [blocks_zero]
    | succ j =>
      have hev : ¬ (2 ^ (j + 1)) % 2 = 1 := by rw [pow_succ]; omega
      have hdiv : 2 ^ (j + 1) / 2 = 2 ^ j := by rw [pow_succ]; omega
      have htake : l.take (2 ^ j * 2 ^ (r + 1)) = l := by
        apply List.take_of_length_le
        rw [hl]; apply le_of_eq; rw [pow_succ, pow_succ]; ring
      simp only [hev, if_false, hdiv, htake]
      rw [ih (r + 1) j l (by omega) (by rw [hl, pow_succ, pow_succ]; ring)]
      congr 2
      omega

/-- C3: for every list of `n < 2^64` leaves added by `add` to the empty pollard, `add`
returns no error and the hashes of the tops are the Merkle roots (under `Parent`) of
consecutive blocks of the leaf list: the blocks concatenate to the leaf list, a block of
row `r` has `2^r` leaves, the rows are distinct set bits of `n` (strictly decreasing along
the list) and there is one block per set bit; for `n = 2^j` there is exactly one top, the
Merkle root of all the leaves. -/
theorem merkle_roots_after_add (Parent : Hash → Hash → Hash) (adds : List LeafTXO)
    (hlen : adds.length < u64) :
    (add Parent Pollard.empty adds).2 = none ∧
    (add Parent Pollard.empty adds).1.numLeaves = adds.length ∧
    (add Parent Pollard.empty adds).1.topHashes
      = (blocks 64 0 adds.length (adds.map LeafTXO.hash)).map
          (fun b => merkleRoot Parent b.1 b.2) ∧
    ((blocks 64 0 adds.length (adds.map LeafTXO.hash)).map Prod.snd).flatten
      = adds.map LeafTXO.hash ∧
    (∀ b ∈ blocks 64 0 adds.length (adds.map LeafTXO.hash),
      b.2.length = 2 ^ b.1 ∧ adds.length.testBit b.1 = true) ∧
    ((blocks 64 0 adds.length (adds.map LeafTXO.hash)).map Prod.fst).Pairwise (· > ·) ∧
    (blocks 64 0 adds.length (adds.map LeafTXO.hash)).length = popcount adds.length ∧
    (∀ j, adds.length = 2 ^ j →
      (add Parent Pollard.empty adds).1.topHashes
        = [merkleRoot Parent j (adds.map LeafTXO.hash)]) := by
  have h0 : Pollard.empty.topHashes = blockRoots Parent 64 0 ([] : List Hash).length [] := by
    simp [blockRoots, blocks_zero, Pollard.topHashes, Pollard.empty]
  obtain ⟨h1, h2, h3⟩ := add_blockRoots Parent adds Pollard.empty [] rfl h0
    (by simpa using hlen)
  simp only [List.nil_append, List.length_map] at h2 h3
  have hlt : adds.length < 2 ^ 64 := hlen
  have hl : (adds.map LeafTXO.hash).length = adds.length * 2 ^ 0 := by simp
  refine ⟨h1, h2, h3, blocks_flatten 64 0 _ _ hlt hl, ?_, (blocks_rows 64 0 _ _).2.1,
    (blocks_rows 64 0 _ _).2.2, ?_⟩
  · intro b hb
    obtain ⟨g1, _, g3⟩ := blocks_mem 64 0 _ _ hlt hl b hb
    exact ⟨g1, by simpa using g3⟩
  · intro j hj
    have hj64 : j < 64 := by
      rw [hj] at hlt
      exact (Nat.pow_lt_pow_iff_right (by norm_num)).mp hlt
    rw [h3, blockRoots, hj, blocks_two_pow 64 0 j _ hj64 (by simp [hj])]
    simp

/-- Witness for `merkle_roots_after_add`: eight leaves give one top, their Merkle root. -/
theorem merkle_roots_after_add_witness :
    (add (fun a b => a + 2 * b + 1) Pollard.empty
        [⟨1, false⟩, ⟨2, false⟩, ⟨3, false⟩, ⟨4, false⟩,
         ⟨5, false⟩, ⟨6, false⟩, ⟨7, false⟩, ⟨8, false⟩]).1.topHashes
      = [merkleRoot (fun a b => a + 2 * b + 1) 3 [1, 2, 3, 4, 5, 6, 7, 8]] :=
  (merkle_roots_after_add (fun a b => a + 2 * b + 1)
    [⟨1, false⟩, ⟨2, false⟩, ⟨3, false⟩, ⟨4, false⟩,
     ⟨5, false⟩, ⟨6, false⟩, ⟨7, false⟩, ⟨8, false⟩] (by decide)).2.2.2.2.2.2.2 3 rfl

/-! ## Order of the tops -/

theorem merkleRoot_count : ∀ r : Nat,
    merkleRoot (fun a b => a + b) r (List.replicate (2 ^ r) 1) = 2 ^ r := by
  intro r
  induction r with
  | zero => rfl
  | succ r ih =>
    have h1 : (List.replicate (2 ^ (r + 1)) (1 : Hash)).take (2 ^ r) = List.replicate (2 ^ r) 1 := by
      rw [List.take_replicate]; congr 1; rw [pow_succ]; omega
    have h2 : (List.replicate (2 ^ (r + 1)) (1 : Hash)).drop (2 ^ r) = List.replicate (2 ^ r) 1 := by
      rw [List.drop_replicate]; congr 1; rw [pow_succ]; omega
    simp only [merkleRoot, h1, h2, ih]
    ring

theorem blockRoots_count : ∀ (k r m : Nat) (l : List Hash),
    m < 2 ^ k →
    blockRoots (fun a b => a + b) k r m (List.replicate (m * 2 ^ r) 1)
      = (blocks k r m l).map (fun b => 2 ^ b.1) := by
  intro k
  induction k with
  | zero => intro r m l _; rfl
  | succ k ih =>
    intro r m l hm
    have hm2 : m / 2 < 2 ^ k := by rw [pow_succ] at hm; omega
    have hle : (m / 2) * 2 ^ (r + 1) ≤ m * 2 ^ r := by
      rw [pow_succ]
      have : m / 2 * (2 ^ r * 2) = (2 * (m / 2)) * 2 ^ r := by ring
      rw [this]
      exact Nat.mul_le_mul_right _ (by omega)
    have ht : (List.replicate (m * 2 ^ r) (1 : Hash)).take ((m / 2) * 2 ^ (r + 1))
        = List.replicate ((m / 2) * 2 ^ (r + 1)) 1 := by
      rw [List.take_replicate]; congr 1; omega
    by_cases hb : m % 2 = 1
    · rw [blockRoots_odd _ k r m _ hb, ht, ih (r + 1) (m / 2) (l.take ((m / 2) * 2 ^ (r + 1))) hm2]
      have hd : (List.replicate (m * 2 ^ r) (1 : Hash)).drop ((m / 2) * 2 ^ (r + 1))
          = List.replicate (2 ^ r) 1 := by
        rw [List.drop_replicate]; congr 1
        have key : m * 2 ^ r = m / 2 * 2 ^ (r + 1) + 2 ^ r := by
          have h2 : m = 2 * (m / 2) + 1 := by omega
          nth_rewrite 1 [h2]
          rw [pow_succ]; ring
        omega
      rw [hd, merkleRoot_count]
      simp [blocks, hb]
    · rw [blockRoots_even _ k r m _ hb, ht, ih (r + 1) (m / 2) (l.take ((m / 2) * 2 ^ (r + 1))) hm2]
      simp [blocks, hb]

theorem treeSizes_eq (adds : List LeafTXO) (hlen : adds.length < u64) :
    treeSizes adds
      = (blocks 64 0 adds.length (adds.map LeafTXO.hash)).map (fun b => 2 ^ b.1) := by
  have h := (add_blockRoots (fun a b => a + b) (adds.map fun a => ⟨1, a.remember⟩)
    Pollard.empty [] rfl
    (by simp [blockRoots, blocks_zero, Pollard.topHashes, Pollard.empty])
    (by simpa using hlen)).2.2
  simp only [List.nil_append, List.length_map] at h
  have hrep : (adds.map fun a => (⟨1, a.remember⟩ : LeafTXO)).map LeafTXO.hash
      = List.replicate (adds.length * 2 ^ 0) 1 := by
    simp only [List.map_map, pow_zero, mul_one]
    apply List.eq_replicate_iff.mpr
    simp
  unfold treeSizes
  rw [h, hrep]
  exact blockRoots_count 64 0 adds.length _ hlen

/-- C10 (as amended): the root list is ordered high row first.  In every pollard built from
the empty pollard by `add` (fewer than `2^64` leaves), the top at index `i` is the Merkle
root of a block of `2^row` leaves whose row is strictly higher than the row of the top at
index `i + 1`, so the trees get strictly smaller along the list. -/
theorem root_order_high_first (Parent : Hash → Hash → Hash) (adds : List LeafTXO)
    (hlen : adds.length < u64) :
    (add Parent Pollard.empty adds).1.topHashes
      = (blocks 64 0 adds.length (adds.map LeafTXO.hash)).map
          (fun b => merkleRoot Parent b.1 b.2) ∧
    treeSizes adds
      = ((blocks 64 0 adds.length (adds.map LeafTXO.hash)).map Prod.fst).map (fun r => 2 ^ r) ∧
    ((blocks 64 0 adds.length (adds.map LeafTXO.hash)).map Prod.fst).Pairwise (· > ·) ∧
    (treeSizes adds).Pairwise (· > ·) := by
  have hrows := (blocks_rows 64 0 adds.length (adds.map LeafTXO.hash)).2.1
  have hsz := treeSizes_eq adds hlen
  have h3 := (add_blockRoots Parent adds Pollard.empty [] rfl
    (by simp [blockRoots, blocks_zero, Pollard.topHashes, Pollard.empty])
    (by simpa using hlen)).2.2
  simp only [List.nil_append, List.length_map] at h3
  refine ⟨h3, by rw [hsz, List.map_map]; rfl, hrows, ?_⟩
  rw [hsz]
  have : (blocks 64 0 adds.length (adds.map LeafTXO.hash)).map (fun b => 2 ^ b.1)
      = ((blocks 64 0 adds.length (adds.map LeafTXO.hash)).map Prod.fst).map (fun r => 2 ^ r) := by
    rw [List.map_map]; rfl
  rw [this]
  exact List.Pairwise.map _ (fun a b hab => Nat.pow_lt_pow_right (by norm_num) hab) hrows

/-- Witness for `root_order_high_first`: three leaves give a two-leaf tree, then a leaf. -/
theorem root_order_high_first_witness :
    treeSizes [⟨5, false⟩, ⟨6, false⟩, ⟨7, false⟩] = [2, 1] ∧
    (treeSizes [⟨5, false⟩, ⟨6, false⟩, ⟨7, false⟩]).Pairwise (· > ·) :=
  ⟨by decide,
   (root_order_high_first (fun a b => a + b) [⟨5, false⟩, ⟨6, false⟩, ⟨7, false⟩]
      (by decide)).2.2.2⟩

/-- C10 (as stated) fails: after three adds the root at index 0 is over two leaves (row 1)
and the root at index 1 over one leaf (row 0), so index 0 is not the lower row. -/
theorem root_order_counterexample :
    ¬ (∀ adds : List LeafTXO, adds.length < u64 →
        ∀ i, i + 1 < (treeSizes adds).length →
          (treeSizes adds).getD i 0 < (treeSizes adds).getD (i + 1) 0) := by
  intro h
  have h1 := h [⟨5, false⟩, ⟨6, false⟩, ⟨7, false⟩] (by decide) 0 (by decide)
  revert h1
  decide

/-! ## Removal keeps the shape of the pollard until it succeeds -/

theorem sameShape_refl (p : Pollard) : p.sameShape p := ⟨rfl, rfl, rfl, rfl, rfl⟩

theorem sameShape_trans {p q r : Pollard} (h1 : p.sameShape q) (h2 : q.sameShape r) :
    p.sameShape r := by
  obtain ⟨a1, a2, a3, a4, a5⟩ := h1
  obtain ⟨b1, b2, b3, b4, b5⟩ := h2
  exact ⟨b1.trans a1, b2.trans a2, b3.trans a3, b4.trans a4, b5.trans a5⟩

theorem sameShape_write (p : Pollard) (q : Ptr) (n : polNode) : p.sameShape (p.write q n) := by
  cases q <;> simp [Pollard.write, Pollard.sameShape]

theorem sameShape_alloc (p : Pollard) (n : polNode) : p.sameShape (p.alloc n).1 := by
  simp [Pollard.alloc, Pollard.sameShape]

theorem sameShape_setNieces (p : Pollard) (q : Ptr) (a b : Option Nat) :
    p.sameShape (p.setNieces q a b) := by
  unfold Pollard.setNieces
  split
  · exact sameShape_refl p
  · exact sameShape_write _ _ _

theorem sameShape_setNieceAt (p : Pollard) (q : Ptr) (lr : Nat) (v : Option Nat) :
    p.sameShape (p.setNieceAt q lr v) := by
  unfold Pollard.setNieceAt
  split
  · exact sameShape_refl p
  · exact sameShape_write _ _ _

theorem grabPos2Loop_sameShape (bits : Nat) :
    ∀ (h : Nat) (p : Pollard) (par parsib : Ptr),
      p.sameShape (grabPos2Loop bits h p par parsib).1 := by
  intro h
  induction h with
  | zero => intro p par parsib; exact sameShape_refl p
  | succ h ih =>
    intro p par parsib
    unfold grabPos2Loop
    simp only
    split
    · exact sameShape_refl p
    · rename_i ps _
      have hp1 : p.sameShape (match ps.niece ((bits >>> (h + 1)) % 2 ^^^ 1) with
          | none => (p.alloc polNode.zero).1.setNieceAt parsib ((bits >>> (h + 1)) % 2 ^^^ 1)
              (some p.heap.length)
          | some _ => p) := by
        split
        · exact sameShape_trans (sameShape_alloc _ _) (sameShape_setNieceAt _ _ _ _)
        · exact sameShape_refl p
      split
      · exact sameShape_trans hp1 (ih _ _ _)
      · exact hp1
      · exact hp1

theorem grabPos2_sameShape (L : Layout) (p : Pollard) (pos : Nat) :
    p.sameShape (grabPos2 L p pos).1 := by
  unfold grabPos2
  split
  rename_i tree branchLen bits _
  split
  · exact sameShape_refl p
  · split
    · exact sameShape_refl p
    · have := grabPos2Loop_sameShape bits (branchLen - 1) p (.top tree) (.top tree)
      split
      · rename_i h; rw [h] at this; exact this
      · rename_i h; rw [h] at this; exact this

theorem HnFromPos_sameShape (L : Layout) (p : Pollard) (pos : Nat) :
    p.sameShape (HnFromPos L p pos).1 := by
  unfold HnFromPos
  have := grabPos2_sameShape L p pos
  split
  · rename_i h; rw [h] at this; exact this
  · rename_i h; rw [h] at this; exact this

theorem run_sameShape (L : Layout) (p : Pollard) (hn : hashableNode) :
    p.sameShape (hn.run L p).1 := by
  unfold hashableNode.run
  split
  · split
    · exact sameShape_write _ _ _
    · exact sameShape_refl p
  · exact sameShape_refl p

theorem sameShape_setNieces3 (p : Pollard) (q1 q2 q3 : Ptr) (a b c d e f : Option Nat) :
    p.sameShape (((p.setNieces q1 a b).setNieces q2 c d).setNieces q3 e f) :=
  sameShape_trans (sameShape_trans (sameShape_setNieces p _ _ _)
    (sameShape_setNieces _ _ _ _)) (sameShape_setNieces _ _ _ _)

theorem topSwap_sameShape (p : Pollard) (alr : Nat) (bparsib : Ptr) (blr : Nat) :
    p.sameShape (topSwap p alr bparsib blr).1 := by
  unfold topSwap
  split
  · split
    · simp only
      split
      · split
        · exact sameShape_trans (sameShape_setNieces3 _ _ _ _ _ _ _ _ _ _)
            (sameShape_trans (sameShape_trans (sameShape_write _ _ _)
            (sameShape_alloc _ _)) (sameShape_setNieceAt _ _ _ _))
        · exact sameShape_setNieces3 _ _ _ _ _ _ _ _ _ _
      · exact sameShape_setNieces3 _ _ _ _ _ _ _ _ _ _
    · exact sameShape_refl p
  · exact sameShape_refl p

theorem normalSwap_sameShape (p : Pollard) (r : arrow) (aparsib : Ptr) (alr : Nat)
    (bparsib : Ptr) (blr : Nat) :
    p.sameShape (normalSwap p r aparsib alr bparsib blr).1 := by
  unfold normalSwap
  simp only
  have hstep : p.sameShape (if r.from_ ≠ r.to_ ^^^ 1 then
      match p.nieceAt aparsib (alr ^^^ 1), p.nieceAt bparsib (blr ^^^ 1) with
      | some x, some y =>
        match p.read (.cell x), p.read (.cell y) with
        | some xn, some yn =>
          ((p.setNieces (.cell x) yn.niece0 yn.niece1).setNieces (.cell y) xn.niece0 xn.niece1,
            (none : Option Err))
        | _, _ => (p, some .panicNil)
      | _, _ => (p, some .panicNil)
    else (p, none)).1 := by
    split
    · split
      · split
        · exact sameShape_trans (sameShape_setNieces _ _ _ _) (sameShape_setNieces _ _ _ _)
        · exact sameShape_refl p
      · exact sameShape_refl p
    · exact sameShape_refl p
  split
  · rename_i h; rw [h] at hstep; exact hstep
  · rename_i h; rw [h] at hstep
    exact sameShape_trans hstep
      (sameShape_trans (sameShape_setNieceAt _ _ _ _) (sameShape_setNieceAt _ _ _ _))

theorem swapNodes_sameShape (L : Layout) (p : Pollard) (r : arrow) :
    p.sameShape (swapNodes L p r).1 := by
  unfold swapNodes
  split
  · exact sameShape_refl p
  · have ha := grabPos2_sameShape L p r.from_
    split
    · rename_i h; rw [h] at ha; exact ha
    · rename_i p1 a h
      rw [h] at ha
      have hb := grabPos2_sameShape L p1 r.to_
      split
      · rename_i h2; rw [h2] at hb; exact sameShape_trans ha hb
      · rename_i p2 b h2
        rw [h2] at hb
        have hab := sameShape_trans ha hb
        split
        · exact hab
        · exact hab
        · rename_i bpar bparsib _ _
          simp only
          have hsw : p2.sameShape (match a.par, a.parsib with
              | none, _ => topSwap p2 a.lr bparsib b.lr
              | some _, none => (p2, some .panicNil)
              | some _, some aparsib => normalSwap p2 r aparsib a.lr bparsib b.lr).1 := by
            split
            · exact topSwap_sameShape _ _ _ _
            · exact sameShape_refl p2
            · exact normalSwap_sameShape _ _ _ _ _ _
          split
          · rename_i h3; rw [h3] at hsw; exact sameShape_trans hab hsw
          · rename_i h3; rw [h3] at hsw
            split
            · exact sameShape_trans hab hsw
            · exact sameShape_trans hab hsw

theorem swapLoop_sameShape (L : Layout) (swaprows : List (List arrow)) (nnl h ph : Nat) :
    ∀ (row : List arrow) (p : Pollard) (rowdirt hashdirt : List Nat),
      p.sameShape (swapLoop L swaprows nnl h ph row p rowdirt hashdirt).1 := by
  intro row
  induction row with
  | nil => intro p _ _; exact sameShape_refl p
  | cons s rest ih =>
    intro p rowdirt hashdirt
    unfold swapLoop
    split
    · exact ih _ _ _
    · have hs := swapNodes_sameShape L p s
      split
      · rename_i h1; rw [h1] at hs; exact hs
      · rename_i p1 hn h1
        rw [h1] at hs
        split
        · exact hs
        · split
          · split
            · exact sameShape_trans hs (ih _ _ _)
            · have hr := run_sameShape L p1 hn
              simp only
              split
              · rename_i h2; rw [h2] at hr; exact sameShape_trans hs hr
              · rename_i h2; rw [h2] at hr
                exact sameShape_trans hs (sameShape_trans hr (ih _ _ _))
          · exact hs

theorem dirtLoop_sameShape (L : Layout) (swaprows : List (List arrow)) (nnl h ph : Nat) :
    ∀ (rowdirt : List Nat) (p : Pollard) (hashdirt : List Nat),
      p.sameShape (dirtLoop L swaprows nnl h ph rowdirt p hashdirt).1 := by
  intro rowdirt
  induction rowdirt with
  | nil => intro p _; exact sameShape_refl p
  | cons d rest ih =>
    intro p hashdirt
    unfold dirtLoop
    have hs := HnFromPos_sameShape L p d
    split
    · rename_i h1; rw [h1] at hs; exact hs
    · rename_i p1 hn h1
      rw [h1] at hs
      split
      · exact hs
      · split
        · have hr := run_sameShape L p1 hn
          split
          · rename_i h2; rw [h2] at hr; exact sameShape_trans hs hr
          · rename_i h2; rw [h2] at hr
            exact sameShape_trans hs (sameShape_trans hr (ih _ _))
        · exact hs

theorem rowsLoop_sameShape (L : Layout) (swaprows : List (List arrow)) (nnl ph : Nat) :
    ∀ (c h : Nat) (p : Pollard) (hashdirt : List Nat),
      p.sameShape (rowsLoop L swaprows nnl ph c h p hashdirt).1 := by
  intro c
  induction c with
  | zero => intro h p _; exact sameShape_refl p
  | succ c ih =>
    intro h p hashdirt
    unfold rowsLoop
    split
    · exact sameShape_refl p
    · rename_i row _
      have hs := swapLoop_sameShape L swaprows nnl h ph row p hashdirt []
      split
      · rename_i h1; rw [h1] at hs; exact hs
      · rename_i p1 rowdirt hashdirt1 h1
        rw [h1] at hs
        have hd := dirtLoop_sameShape L swaprows nnl h ph rowdirt p1 hashdirt1
        split
        · rename_i h2; rw [h2] at hd; exact sameShape_trans hs hd
        · rename_i h2; rw [h2] at hd
          exact sameShape_trans hs (sameShape_trans hd (ih _ _ _))

theorem nexTopsLoop_sameShape (L : Layout) :
    ∀ (poss : List Nat) (p : Pollard) (acc : List polNode),
      p.sameShape (nexTopsLoop L poss p acc).1 ∧
      ∀ tops, (nexTopsLoop L poss p acc).2 = .ok tops →
        tops.length = acc.length + poss.length := by
  intro poss
  induction poss with
  | nil =>
    intro p acc
    refine ⟨sameShape_refl p, ?_⟩
    intro tops h
    simp only [nexTopsLoop, Except.ok.injEq] at h
    simp [← h]
  | cons pos rest ih =>
    intro p acc
    unfold nexTopsLoop
    have hg := grabPos2_sameShape L p pos
    split
    · rename_i h1; rw [h1] at hg
      exact ⟨hg, by intro tops h; simp at h⟩
    · rename_i p1 g h1
      rw [h1] at hg
      have step : ∀ t : polNode,
          p.sameShape (nexTopsLoop L rest p1 (acc ++ [t])).1 ∧
          ∀ tops, (nexTopsLoop L rest p1 (acc ++ [t])).2 = .ok tops →
            tops.length = acc.length + (pos :: rest).length := by
        intro t
        obtain ⟨i1, i2⟩ := ih p1 (acc ++ [t])
        refine ⟨sameShape_trans hg i1, ?_⟩
        intro tops h
        rw [i2 tops h]
        simp only [List.length_append, List.length_singleton, List.length_cons, List.length_nil]
        omega
      split
      · split
        · exact ⟨hg, by intro tops h; simp at h⟩
        · exact step _
      · split
        · exact ⟨hg, by intro tops h; simp at h⟩
        · split
          · exact ⟨hg, by intro tops h; simp at h⟩
          · split
            · exact ⟨hg, by intro tops h; simp at h⟩
            · exact step _

/-- Until it succeeds `rem2` changes neither the leaf count nor the number of tops nor a
counter; when it succeeds the leaf count is `numLeaves - len(dels)` in `uint64` arithmetic
and there is one top per position of `getTopsReverse`. -/
theorem rem2_shape (L : Layout) (p : Pollard) (dels : List Nat) :
    ((rem2 L p dels).2 ≠ none → p.sameShape (rem2 L p dels).1) ∧
    ((rem2 L p dels).2 = none → dels ≠ [] →
      (rem2 L p dels).1.numLeaves = (p.numLeaves + u64 - dels.length % u64) % u64 ∧
      (rem2 L p dels).1.tops.length
        = (L.getTopsReverse ((p.numLeaves + u64 - dels.length % u64) % u64)
            (L.height p.numLeaves)).length) := by
  unfold rem2
  split
  · exact ⟨fun h => absurd rfl h, fun _ hd => absurd (List.length_eq_zero.mp ‹_›) hd⟩
  · simp only
    have hr := rowsLoop_sameShape L (L.remTrans2 dels p.numLeaves (L.height p.numLeaves))
      ((p.numLeaves + u64 - dels.length % u64) % u64) (L.height p.numLeaves)
      (L.height p.numLeaves) 0 p []
    split
    · rename_i h1; rw [h1] at hr
      exact ⟨fun _ => hr, fun h => by simp at h⟩
    · rename_i p1 h1
      rw [h1] at hr
      obtain ⟨hn, hlen⟩ := nexTopsLoop_sameShape L
        (L.getTopsReverse ((p.numLeaves + u64 - dels.length % u64) % u64)
          (L.height p.numLeaves)) p1 []
      split
      · rename_i h2; rw [h2] at hn
        exact ⟨fun _ => sameShape_trans hr hn, fun h => by simp at h⟩
      · rename_i p2 nexTops h2
        rw [h2] at hlen
        refine ⟨fun h => absurd rfl h, fun _ _ => ⟨rfl, ?_⟩⟩
        simp only [List.length_reverse]
        rw [hlen nexTops rfl]
        simp

/-! ## Modify -/

theorem addOneLoop_error_isPanic (Parent : Hash → Hash → Hash) :
    ∀ (k h : Nat) (p : Pollard) (n : Nat) (e : Err),
      (addOneLoop Parent k h p n).2 = .error e → e.isPanic = true := by
  intro k
  induction k with
  | zero => intro h p n e he; simp [addOneLoop] at he
  | succ k ih =>
    intro h p n e he
    unfold addOneLoop at he
    split at he
    · split at he
      · simp only [Except.error.injEq] at he; subst he; rfl
      · split at he
        · simp only [Except.error.injEq] at he; subst he; rfl
        · exact ih _ _ _ _ he
    · simp at he

theorem addOne_error_isPanic (Parent : Hash → Hash → Hash) (p : Pollard) (x : Hash)
    (rem : Bool) (e : Err) (he : (addOne Parent p x rem).2 = some e) : e.isPanic = true := by
  unfold addOne at he
  simp only at he
  split at he
  · rename_i h1
    simp only [Option.some.injEq] at he
    subst he
    exact addOneLoop_error_isPanic Parent _ _ _ _ _ (by rw [h1])
  · split at he
    · simp only [Option.some.injEq] at he; subst he; rfl
    · simp at he

theorem add_error_isPanic (Parent : Hash → Hash → Hash) :
    ∀ (adds : List LeafTXO) (p : Pollard) (e : Err),
      (add Parent p adds).2 = some e → e.isPanic = true := by
  intro adds
  induction adds with
  | nil => intro p e he; simp [add] at he
  | cons a rest ih =>
    intro p e he
    unfold add at he
    simp only at he
    split at he
    · rename_i h1
      simp only [Option.some.injEq] at he
      subst he
      exact addOne_error_isPanic Parent _ _ _ _ (by rw [h1])
    · exact ih _ _ he

/-- C4: `Modify` deletes then adds.  If `rem2(dels)` succeeds on `p` giving `p'`, `Modify`
returns exactly the result of `add(adds)` on `p'`; if `rem2` fails, `Modify` returns that
error with the pollard as `rem2` left it, and no leaf of `adds` is added (the leaf count is
still that of `p`). -/
theorem modify_deletes_then_adds (L : Layout) (p : Pollard) (adds : List LeafTXO)
    (dels : List Nat) :
    ((rem2 L p dels).2 = none →
      Modify L p adds dels = add L.Parent (rem2 L p dels).1 adds) ∧
    (∀ e, (rem2 L p dels).2 = some e →
      Modify L p adds dels = ((rem2 L p dels).1, some e) ∧
      (Modify L p adds dels).1.numLeaves = p.numLeaves) := by
  have hshape := (rem2_shape L p dels).1
  unfold Modify
  generalize rem2 L p dels = r at hshape
  obtain ⟨p1, e1⟩ := r
  constructor
  · intro h
    simp only at h
    subst h
    simp only
    generalize add L.Parent p1 adds = r2
    obtain ⟨p2, e2⟩ := r2
    cases e2 <;> rfl
  · intro e h
    simp only at h
    subst h
    exact ⟨rfl, (hshape (by simp)).1⟩

/-- Witness for `modify_deletes_then_adds`: a removal that succeeds (the leaves 2, 5 and 6
of the eight-leaf pollard), followed by one add, and a removal that fails. -/
theorem modify_deletes_then_adds_witness :
    Modify (specLayout exParent) exEight [⟨9, false⟩] [2, 5, 6]
      = add exParent (rem2 (specLayout exParent) exEight [2, 5, 6]).1 [⟨9, false⟩] ∧
    Modify (specLayout exParent) exTwo [⟨9, false⟩] [0]
      = ((rem2 (specLayout exParent) exTwo [0]).1, some .bparsibNilNiece) :=
  ⟨(modify_deletes_then_adds (specLayout exParent) exEight [⟨9, false⟩] [2, 5, 6]).1
      (by decide),
   ((modify_deletes_then_adds (specLayout exParent) exTwo [⟨9, false⟩] [0]).2
      .bparsibNilNiece (by decide)).1⟩

/-- C5 (as amended): whenever `Modify` returns an error, the error is the one `rem2`
returned, no leaf has been added, and the leaf count, the number of tops and the counters
are the same as before the call; the nodes below the tops may already have been swapped
or created. -/
theorem modify_error_keeps_shape (L : Layout) (p : Pollard) (adds : List LeafTXO)
    (dels : List Nat) (e : Err) (herr : (Modify L p adds dels).2 = some e)
    (hret : e.isPanic = false) :
    (rem2 L p dels).2 = some e ∧ Modify L p adds dels = rem2 L p dels ∧
    p.sameShape (Modify L p adds dels).1 := by
  have hshape := (rem2_shape L p dels).1
  unfold Modify at herr ⊢
  generalize rem2 L p dels = r at hshape herr
  obtain ⟨p1, e1⟩ := r
  cases e1 with
  | some e0 =>
    simp only [Option.some.injEq] at herr
    subst herr
    exact ⟨rfl, rfl, hshape (by simp)⟩
  | none =>
    simp only at herr
    have hadd := add_error_isPanic L.Parent adds p1 e
    generalize add L.Parent p1 adds = r2 at herr hadd
    obtain ⟨p2, e2⟩ := r2
    cases e2 with
    | none => simp at herr
    | some e3 =>
      simp only [Option.some.injEq] at herr
      subst herr
      rw [hadd rfl] at hret
      exact absurd hret (by simp)

/-- Witness for `modify_error_keeps_shape`: deleting leaf 0 of `exTwo` fails. -/
theorem modify_error_keeps_shape_witness :
    Modify (specLayout exParent) exTwo [] [0] = rem2 (specLayout exParent) exTwo [0] :=
  (modify_error_keeps_shape (specLayout exParent) exTwo [] [0] .bparsibNilNiece
    (by decide) (by decide)).2.1

/-- C5 (as stated) fails: on `exTwo`, `Modify(nil, [0])` swaps the two nieces of the top and
then returns the error "bparsib nil niece", so the pollard is not the one before the
call. -/
theorem modify_atomic_counterexample :
    ¬ (∀ (p : Pollard) (adds : List LeafTXO) (dels : List Nat) (e : Err),
        (Modify (specLayout exParent) p adds dels).2 = some e → e.isPanic = false →
        (Modify (specLayout exParent) p adds dels).1 = p) := by
  intro h
  have h1 := h exTwo [] [0] .bparsibNilNiece (by decide) (by decide)
  revert h1
  decide

/-! ## The bounds check of a removal -/

theorem swapLoop_skip_self (L : Layout) (swaprows : List (List arrow)) (nnl h ph : Nat) :
    ∀ (pre rest : List arrow) (p : Pollard) (rowdirt hashdirt : List Nat),
      (∀ a ∈ pre, a.from_ = a.to_) →
      swapLoop L swaprows nnl h ph (pre ++ rest) p rowdirt hashdirt
        = swapLoop L swaprows nnl h ph rest p rowdirt hashdirt := by
  intro pre
  induction pre with
  | nil => intro rest p rd hd _; rfl
  | cons a pre ih =>
    intro rest p rd hd hall
    have ha : a.from_ = a.to_ := hall a (List.mem_cons_self _ _)
    rw [List.cons_append, swapLoop]
    simp only [ha, if_true]
    exact ih rest p rd hd (fun b hb => hall b (List.mem_cons_of_mem _ hb))

theorem swapNodes_out_of_bounds (L : Layout) (p : Pollard) (s : arrow)
    (hout : L.inForest s.from_ p.numLeaves (L.height p.numLeaves) = false ∨
      L.inForest s.to_ p.numLeaves (L.height p.numLeaves) = false) :
    swapNodes L p s = (p, .error .swapOutOfBounds) := by
  unfold swapNodes
  rcases hout with h | h <;> simp [h]

/-- The bounds check of a removal: for every pollard and non-empty deletion list, when the
first arrow that `rem2` executes (the first arrow of row 0 that is not a self-arrow) has
`from` or `to` outside the forest, `rem2`, and therefore `Modify`, returns the
out-of-bounds error of `swapNodes` with the pollard unchanged.  `rem2` itself does not
compare the targets with `numLeaves`. -/
theorem rem2_rejects_out_of_forest_arrow (L : Layout) (p : Pollard) (adds : List LeafTXO)
    (dels : List Nat) (pre rest : List arrow) (s : arrow)
    (hd : dels ≠ []) (hph : 0 < L.height p.numLeaves)
    (hrow : (L.remTrans2 dels p.numLeaves (L.height p.numLeaves)).get? 0
      = some (pre ++ s :: rest))
    (hpre : ∀ a ∈ pre, a.from_ = a.to_) (hs : s.from_ ≠ s.to_)
    (hout : L.inForest s.from_ p.numLeaves (L.height p.numLeaves) = false ∨
      L.inForest s.to_ p.numLeaves (L.height p.numLeaves) = false) :
    rem2 L p dels = (p, some .swapOutOfBounds) ∧
    Modify L p adds dels = (p, some .swapOutOfBounds) := by
  have hrem : rem2 L p dels = (p, some .swapOutOfBounds) := by
    unfold rem2
    have hlen : ¬ dels.length = 0 := fun h => hd (List.length_eq_zero.mp h)
    simp only [hlen, if_false]
    obtain ⟨c, hc⟩ : ∃ c, L.height p.numLeaves = c + 1 := ⟨L.height p.numLeaves - 1, by omega⟩
    have hloop : rowsLoop L (L.remTrans2 dels p.numLeaves (L.height p.numLeaves))
        ((p.numLeaves + u64 - dels.length % u64) % u64) (L.height p.numLeaves)
        (L.height p.numLeaves) 0 p [] = (p, some .swapOutOfBounds) := by
      conv_lhs => arg 5; rw [hc]
      rw [rowsLoop, hrow]
      simp only
      rw [swapLoop_skip_self L _ _ _ _ pre (s :: rest) p [] [] hpre, swapLoop]
      simp only [hs, if_false, swapNodes_out_of_bounds L p s hout]
    rw [hloop]
  refine ⟨hrem, ?_⟩
  unfold Modify
  rw [hrem]

/-! ## The modelled transform keeps the invariants of the specification -/

/-- The modelled transform has one row per row of the forest below the top row. -/
theorem specRemTrans2_length (dels : List Nat) (numLeaves H : Nat) :
    (specRemTrans2 dels numLeaves H).length = H := by
  cases H with
  | zero => rfl
  | succ k => simp [specRemTrans2]

/-- The arrows of row 0 start at the surviving leaves, in increasing order. -/
theorem specRow0_from (dels : List Nat) (numLeaves : Nat) :
    (specRow0 dels numLeaves).map arrow.from_ = survivors dels numLeaves := by
  simp only [specRow0, List.map_map]
  exact List.enum_map_snd _

/-- Invariant (b): the `to` positions of row 0 are the first positions of the row, one per
survivor. -/
theorem specRow0_to (dels : List Nat) (numLeaves : Nat) :
    (specRow0 dels numLeaves).map arrow.to_ = List.range (survivors dels numLeaves).length := by
  simp only [specRow0, List.map_map]
  exact List.enum_map_fst _

/-- Invariant (c): when the targets are distinct leaf positions, the survivors are
`numLeaves - len(dels)` many. -/
theorem survivors_length (dels : List Nat) (numLeaves : Nat) (hnd : dels.Nodup)
    (hin : ∀ d ∈ dels, d < numLeaves) :
    (survivors dels numLeaves).length = numLeaves - dels.length := by
  have hperm : ((List.range numLeaves).filter fun s => decide (s ∈ dels)).Perm dels := by
    rw [List.perm_ext_iff_of_nodup ((List.nodup_range _).filter _) hnd]
    intro a
    simp only [List.mem_filter, List.mem_range, decide_eq_true_eq]
    exact ⟨fun h => h.2, fun h => ⟨hin a h, h⟩⟩
  have hsplit := List.length_eq_length_filter_add (l := List.range numLeaves)
    (fun s => decide (s ∈ dels))
  rw [List.length_range, hperm.length_eq] at hsplit
  have hsame : ((List.range numLeaves).filter fun s => !decide (s ∈ dels)) =
      survivors dels numLeaves := by
    unfold survivors
    congr 1
    funext s
    simp
  rw [hsame] at hsplit
  omega

theorem index_le_of_increasing :
    ∀ (l : List Nat), l.Pairwise (fun x y => x < y) → ∀ b, (∀ x ∈ l, b ≤ x) →
      ∀ i x, l[i]? = some x → b + i ≤ x := by
  intro l
  induction l with
  | nil => intro _ b _ i x h; simp at h
  | cons y l ih =>
    intro hp b hb i x h
    cases i with
    | zero =>
      simp only [List.getElem?_cons_zero, Option.some.injEq] at h
      subst h
      exact hb y (List.mem_cons_self _ _)
    | succ i =>
      simp only [List.getElem?_cons_succ] at h
      have hy := hb y (List.mem_cons_self _ _)
      have := ih (List.Pairwise.of_cons hp) (y + 1)
        (fun z hz => (List.rel_of_pairwise_cons hp hz)) i x h
      omega

/-- Invariant (a) and the direction of the moves: every arrow of row 0 starts at a leaf of
the forest that is not deleted and ends at or left of it, inside the forest of the
survivors. -/
theorem specRow0_arrows (dels : List Nat) (numLeaves : Nat) (a : arrow)
    (ha : a ∈ specRow0 dels numLeaves) :
    a.from_ < numLeaves ∧ a.from_ ∉ dels ∧ a.to_ ≤ a.from_ ∧
      a.to_ < (survivors dels numLeaves).length := by
  simp only [specRow0, List.mem_map, Prod.exists] at ha
  obtain ⟨i, s, hmem, rfl⟩ := ha
  have hget : (survivors dels numLeaves)[i]? = some s := List.mk_mem_enum_iff_getElem?.mp hmem
  have hs : s ∈ survivors dels numLeaves := List.getElem?_mem hget
  have hs2 := hs
  simp only [survivors, List.mem_filter, List.mem_range, decide_eq_true_eq] at hs2
  have hinc : (survivors dels numLeaves).Pairwise (fun x y => x < y) :=
    (List.pairwise_lt_range numLeaves).filter _
  have hle := index_le_of_increasing _ hinc 0 (fun _ _ => Nat.zero_le _) i s hget
  have hlt : i < (survivors dels numLeaves).length := by
    by_contra hcon
    rw [List.getElem?_eq_none (by omega)] at hget
    simp at hget
  exact ⟨hs2.1, hs2.2, by simpa using hle, hlt⟩

/-- The removal of scenario S2 of the specification, the leaves 2, 5 and 6 of the
eight-leaf pollard: the rows of the transform, and `rem2` returns without error with 5
leaves and the roots of the pollard that holds the five survivors in their order. -/
theorem rem2_repacks_example :
    specRemTrans2 [2, 5, 6] 8 4 = [[⟨0, 0⟩, ⟨1, 1⟩, ⟨3, 2⟩, ⟨4, 3⟩, ⟨7, 4⟩], [], [], []] ∧
    (rem2 (specLayout exParent) exEight [2, 5, 6]).2 = none ∧
    (rem2 (specLayout exParent) exEight [2, 5, 6]).1.numLeaves = 5 ∧
    (rem2 (specLayout exParent) exEight [2, 5, 6]).1.topHashes =
      (add exParent Pollard.empty
        [⟨5, true⟩, ⟨6, true⟩, ⟨8, true⟩, ⟨9, true⟩, ⟨12, true⟩]).1.topHashes := by
  decide

set_option maxRecDepth 100000 in
/-- Every removal of leaves from the four-leaf pollard returns without error, with the leaf
count reduced by the number of targets and the roots of the pollard that holds the
survivors in their order. -/
theorem rem2_removes_any_leaves_of_four :
    ∀ dels ∈ (List.range 4).sublists, dels ≠ [] →
      (rem2 (specLayout exParent) exFour dels).2 = none ∧
      (rem2 (specLayout exParent) exFour dels).1.numLeaves = 4 - dels.length ∧
      (rem2 (specLayout exParent) exFour dels).1.topHashes =
        (add exParent Pollard.empty
          ((survivors dels 4).map fun i => ⟨5 + i, true⟩)).1.topHashes := by
  decide

set_option maxRecDepth 100000 in
/-- Every removal of one leaf from the eight-leaf pollard returns without error, with 7
leaves and the roots of the pollard that holds the survivors in their order. -/
theorem rem2_removes_any_leaf_of_eight :
    ∀ d ∈ List.range 8,
      (rem2 (specLayout exParent) exEight [d]).2 = none ∧
      (rem2 (specLayout exParent) exEight [d]).1.numLeaves = 7 ∧
      (rem2 (specLayout exParent) exEight [d]).1.topHashes =
        (add exParent Pollard.empty
          ((survivors [d] 8).map fun i => ⟨5 + i, true⟩)).1.topHashes := by
  decide


/-! ## Leaf count and number of tops after a removal -/

/-- C7: whenever `rem2(dels)` returns without error the new `numLeaves` is the old one
minus `len(dels)`: the `uint64` difference in general, which is the plain difference when
`len(dels)` does not exceed the old `numLeaves`. -/
theorem rem2_numLeaves (L : Layout) (p : Pollard) (dels : List Nat)
    (hn : p.numLeaves < u64) (hl : dels.length < u64)
    (hok : (rem2 L p dels).2 = none) :
    (rem2 L p dels).1.numLeaves = (p.numLeaves + u64 - dels.length) % u64 ∧
    (dels.length ≤ p.numLeaves → (rem2 L p dels).1.numLeaves = p.numLeaves - dels.length) := by
  have hmod : dels.length % u64 = dels.length := Nat.mod_eq_of_lt hl
  have h1 : (rem2 L p dels).1.numLeaves = (p.numLeaves + u64 - dels.length) % u64 := by
    by_cases hd : dels = []
    · subst hd
      simp only [rem2, List.length_nil, if_true, Nat.sub_zero, Nat.add_mod_right]
      exact (Nat.mod_eq_of_lt hn).symm
    · have := ((rem2_shape L p dels).2 hok hd).1
      rw [hmod] at this
      exact this
  refine ⟨h1, ?_⟩
  intro hle
  rw [h1]
  have : p.numLeaves + u64 - dels.length = (p.numLeaves - dels.length) + u64 := by omega
  rw [this, Nat.add_mod_right]
  exact Nat.mod_eq_of_lt (by omega)

/-- Witness for `rem2_numLeaves`: the removal of the leaves 2, 5 and 6 from the eight-leaf
pollard returns without error and leaves 5 leaves. -/
theorem rem2_numLeaves_witness :
    (rem2 (specLayout exParent) exEight [2, 5, 6]).2 = none ∧
    (rem2 (specLayout exParent) exEight [2, 5, 6]).1.numLeaves = 5 :=
  ⟨by decide,
   (rem2_numLeaves (specLayout exParent) exEight [2, 5, 6] (by decide) (by decide)
      (by decide)).2 (by decide)⟩

theorem specGetTopsReverse_length_aux (numLeaves H : Nat) :
    ∀ (k s : Nat),
      ((List.range' s k).filterMap fun r =>
        if (numLeaves >>> r) % 2 = 1 then
          some (specUpMany ((numLeaves >>> (r + 1)) <<< (r + 1)) r H)
        else none).length = popcountAux k (numLeaves >>> s) := by
  intro k
  induction k with
  | zero => intro s; rfl
  | succ k ih =>
    intro s
    rw [List.range'_succ, popcountAux]
    have hshift : numLeaves >>> (s + 1) = (numLeaves >>> s) / 2 := by
      rw [Nat.shiftRight_succ]
    by_cases hb : (numLeaves >>> s) % 2 = 1
    · rw [List.filterMap_cons_some
        (b := specUpMany ((numLeaves >>> (s + 1)) <<< (s + 1)) s H)
        (by simp only [hb, if_true])]
      rw [List.length_cons, ih (s + 1), hshift, hb]
      omega
    · rw [List.filterMap_cons_none (by simp only [hb, if_false])]
      rw [ih (s + 1), hshift]
      omega

theorem specGetTopsReverse_length (numLeaves H : Nat) :
    (specGetTopsReverse numLeaves H).length = popcount numLeaves := by
  unfold specGetTopsReverse popcount
  rw [List.range_eq_range']
  simpa using specGetTopsReverse_length_aux numLeaves H 64 0

/-- C8: for every pollard and non-empty deletion list, whenever `rem2` returns without
error the new `numLeaves` is `numLeaves - len(dels)` and the new root list has exactly one
root per position that `getTopsReverse` gives for the new `numLeaves`; so it has one root
per set bit of the new `numLeaves` when `getTopsReverse` (not under `src/`) gives one
position per set bit, as the specification says of it. -/
theorem rem2_count (L : Layout) (p : Pollard) (dels : List Nat) (hd : dels ≠ [])
    (hok : (rem2 L p dels).2 = none) :
    (rem2 L p dels).1.numLeaves = (p.numLeaves + u64 - dels.length % u64) % u64 ∧
    (rem2 L p dels).1.tops.length =
      (L.getTopsReverse (rem2 L p dels).1.numLeaves (L.height p.numLeaves)).length ∧
    ((∀ n H, (L.getTopsReverse n H).length = popcount n) →
      (rem2 L p dels).1.tops.length = popcount (rem2 L p dels).1.numLeaves) := by
  obtain ⟨h1, h2⟩ := (rem2_shape L p dels).2 hok hd
  have h3 : (rem2 L p dels).1.tops.length =
      (L.getTopsReverse (rem2 L p dels).1.numLeaves (L.height p.numLeaves)).length := by
    rw [h2, h1]
  exact ⟨h1, h3, fun hroots => by rw [h3, hroots]⟩

/-- Witness for `rem2_count`: after the removal of the leaves 2, 5 and 6 from the
eight-leaf pollard there are 5 leaves and two roots. -/
theorem rem2_count_witness :
    (rem2 (specLayout exParent) exEight [2, 5, 6]).1.tops.length = 2 ∧
    popcount (rem2 (specLayout exParent) exEight [2, 5, 6]).1.numLeaves = 2 :=
  ⟨((rem2_count (specLayout exParent) exEight [2, 5, 6] (by decide) (by decide)).2.2
      (fun n H => specGetTopsReverse_length n H)).trans (by decide),
   by decide⟩

/-! ## `add` always succeeds -/

theorem popcountAux_mod : ∀ (k n : Nat), popcountAux k (n % 2 ^ k) = popcountAux k n := by
  intro k
  induction k with
  | zero => intro n; rfl
  | succ k ih =>
    intro n
    have h1 : n % 2 ^ (k + 1) % 2 = n % 2 := by
      rw [pow_succ]
      exact Nat.mod_mod_of_dvd n (Dvd.intro_left _ rfl)
    have h2 : n % 2 ^ (k + 1) / 2 = (n / 2) % 2 ^ k := by
      rw [pow_succ, Nat.mul_comm, Nat.mod_mul_right_div_self]
    simp only [popcountAux, h1, h2, ih]

/-- The carry loop never reads an empty list when there is at least one top per set bit,
and it keeps at least one top per set bit. -/
theorem carry_some (Parent : Hash → Hash → Hash) :
    ∀ (k h m : Nat) (ts : List Hash) (x : Hash),
      popcountAux k (m >>> h) ≤ ts.length →
      ∃ ts2 y, carry Parent k h m ts x = some (ts2, y) ∧
        popcountAux k (m >>> h + 1) ≤ ts2.length + 1 := by
  intro k
  induction k with
  | zero => intro h m ts x _; exact ⟨ts, x, rfl, by simp [popcountAux]⟩
  | succ k ih =>
    intro h m ts x hlen
    unfold carry
    have hshift : m >>> (h + 1) = (m >>> h) / 2 := by rw [Nat.shiftRight_succ]
    by_cases hb : (m >>> h) % 2 = 1
    · simp only [hb, if_true]
      have hlen2 : 1 + popcountAux k ((m >>> h) / 2) ≤ ts.length := by
        simpa [popcountAux, hb] using hlen
      cases hl : ts.getLast? with
      | none =>
        rw [List.getLast?_eq_none_iff] at hl
        subst hl
        simp at hlen2
      | some t =>
        simp only
        have hd : popcountAux k (m >>> (h + 1)) ≤ ts.dropLast.length := by
          rw [hshift, List.length_dropLast]; omega
        obtain ⟨ts2, y, hc, hl3⟩ := ih (h + 1) m ts.dropLast (Parent t x) hd
        refine ⟨ts2, y, hc, ?_⟩
        rw [popcountAux_succ_odd k _ hb, ← hshift]
        exact hl3
    · simp only [hb, if_false]
      refine ⟨ts, x, rfl, ?_⟩
      rw [popcountAux_succ_even k _ hb]
      omega

theorem addOne_succeeds (Parent : Hash → Hash → Hash) (p : Pollard) (x : Hash) (rem : Bool)
    (hinv : popcount p.numLeaves ≤ p.tops.length) :
    (addOne Parent p x rem).2 = none ∧
    popcount (addOne Parent p x rem).1.numLeaves ≤ (addOne Parent p x rem).1.tops.length ∧
    (addOne Parent p x rem).1.numLeaves = (p.numLeaves + 1) % u64 ∧
    (addOne Parent p x rem).1.rememberEver = p.rememberEver := by
  have hl : popcountAux 64 (p.numLeaves >>> 0) ≤ p.topHashes.length := by
    simpa [Pollard.topHashes, popcount] using hinv
  obtain ⟨ts2, y, hc, hlen⟩ := carry_some Parent 64 0 p.numLeaves p.topHashes x hl
  have h := addOne_carry Parent p x rem
  rw [hc] at h
  simp only at h
  obtain ⟨h1, h2, h3, h4⟩ := h
  refine ⟨h1, ?_, h3, h4⟩
  have hlen2 : (addOne Parent p x rem).1.tops.length = ts2.length + 1 := by
    have := congrArg List.length h2
    simpa [Pollard.topHashes] using this
  rw [hlen2, h3]
  unfold popcount u64
  rw [popcountAux_mod]
  simpa using hlen

theorem add_succeeds (Parent : Hash → Hash → Hash) :
    ∀ (adds : List LeafTXO) (p : Pollard),
      popcount p.numLeaves ≤ p.tops.length → p.numLeaves < u64 →
      (add Parent p adds).2 = none ∧
      popcount (add Parent p adds).1.numLeaves ≤ (add Parent p adds).1.tops.length ∧
      (add Parent p adds).1.numLeaves = (p.numLeaves + adds.length) % u64 ∧
      (add Parent p adds).1.rememberEver
        = p.rememberEver + (adds.filter fun a => a.remember).length := by
  intro adds
  induction adds with
  | nil =>
    intro p hinv hn
    exact ⟨rfl, hinv, by simp [add, Nat.mod_eq_of_lt hn], by simp [add]⟩
  | cons a rest ih =>
    intro p hinv hn
    have hstep := addOne_succeeds Parent
      (if a.remember then { p with rememberEver := p.rememberEver + 1 } else p)
      a.hash a.remember (by split <;> exact hinv)
    have hnl : (if a.remember then { p with rememberEver := p.rememberEver + 1 } else p).numLeaves
        = p.numLeaves := by split <;> rfl
    have hre : (if a.remember then { p with rememberEver := p.rememberEver + 1 } else p).rememberEver
        = p.rememberEver + (if a.remember then 1 else 0) := by split <;> rfl
    unfold add
    simp only
    generalize addOne Parent
      (if a.remember then { p with rememberEver := p.rememberEver + 1 } else p)
      a.hash a.remember = r at hstep
    obtain ⟨r1, r2⟩ := r
    obtain ⟨h1, h2, h3, h4⟩ := hstep
    simp only at h1 h2 h3 h4
    subst h1
    simp only
    have hlt : r1.numLeaves < u64 := by rw [h3]; exact Nat.mod_lt _ (by decide)
    obtain ⟨i1, i2, i3, i4⟩ := ih r1 h2 hlt
    refine ⟨i1, i2, ?_, ?_⟩
    · rw [i3, h3, hnl, List.length_cons, Nat.mod_add_mod]
      congr 1
      omega
    · rw [i4, h4, hre, List.filter_cons]
      cases a.remember
      · simp
      · simp; omega

/-- C11 (as amended): for every pollard with `len(tops) = popcount(numLeaves)` and every
list `adds`, `add(adds)` returns no error, `numLeaves` becomes `numLeaves + len(adds)`
in `uint64` arithmetic (an increase by exactly `len(adds)` whenever that sum stays below
`2^64`), and `rememberEver` increases by the number of leaves of `adds` whose `Remember`
flag is set. -/
theorem add_succeeds_and_counts (Parent : Hash → Hash → Hash) (p : Pollard)
    (adds : List LeafTXO) (hinv : p.tops.length = popcount p.numLeaves)
    (hn : p.numLeaves < u64) :
    (add Parent p adds).2 = none ∧
    (add Parent p adds).1.numLeaves = (p.numLeaves + adds.length) % u64 ∧
    (p.numLeaves + adds.length < u64 →
      (add Parent p adds).1.numLeaves = p.numLeaves + adds.length) ∧
    (add Parent p adds).1.rememberEver
      = p.rememberEver + (adds.filter fun a => a.remember).length := by
  obtain ⟨h1, _, h3, h4⟩ := add_succeeds Parent adds p (le_of_eq hinv.symm) hn
  exact ⟨h1, h3, fun hlt => by rw [h3, Nat.mod_eq_of_lt hlt], h4⟩

/-- Witness for `add_succeeds_and_counts`: three leaves, two of them remembered, added to
the one-leaf pollard. -/
theorem add_succeeds_and_counts_witness :
    (add exParent exOne [⟨6, true⟩, ⟨7, false⟩, ⟨8, true⟩]).2 = none ∧
    (add exParent exOne [⟨6, true⟩, ⟨7, false⟩, ⟨8, true⟩]).1.numLeaves = 4 ∧
    (add exParent exOne [⟨6, true⟩, ⟨7, false⟩, ⟨8, true⟩]).1.rememberEver = 3 := by
  obtain ⟨h1, _, h3, h4⟩ := add_succeeds_and_counts exParent exOne
    [⟨6, true⟩, ⟨7, false⟩, ⟨8, true⟩] (by decide) (by decide)
  exact ⟨h1, h3 (by decide), h4⟩

set_option maxRecDepth 100000 in
/-- C11 (as stated) fails at the last `uint64`: adding one leaf to the pollard with
`2^64 - 1` leaves returns no error but leaves `numLeaves = 0`, not `2^64`. -/
theorem add_counts_counterexample :
    ¬ (∀ (Parent : Hash → Hash → Hash) (p : Pollard) (adds : List LeafTXO),
        p.numLeaves < u64 → p.tops.length = popcount p.numLeaves →
        (add Parent p adds).2 = none ∧
        (add Parent p adds).1.numLeaves = p.numLeaves + adds.length) := by
  intro h
  have h1 := (h (fun a b => a + b) fullPollard [⟨1, false⟩] (by decide) (by decide)).2
  revert h1
  decide

/-! ## Pointers: reading after writing -/

theorem read_write_same (p : Pollard) (q : Ptr) (n m : polNode) (h : p.read q = some m) :
    (p.write q n).read q = some n := by
  cases q with
  | top i =>
    simp only [Pollard.read, List.get?_eq_getElem?] at h
    have hi := (List.getElem?_eq_some_iff.mp h).1
    simp [Pollard.read, Pollard.write, List.getElem?_set, hi]
  | cell a =>
    simp only [Pollard.read] at h
    simpa [Pollard.read, Pollard.write] using deref_store_same p.heap a n (deref_lt h)

theorem read_write_ne (p : Pollard) (q q2 : Ptr) (n : polNode) (h : q ≠ q2) :
    (p.write q n).read q2 = p.read q2 := by
  cases q with
  | top i =>
    cases q2 with
    | top j =>
      have hij : i ≠ j := fun e => h (by rw [e])
      simp [Pollard.read, Pollard.write, List.getElem?_set, hij]
    | cell b => simp [Pollard.read, Pollard.write]
  | cell a =>
    cases q2 with
    | top j => simp [Pollard.read, Pollard.write]
    | cell b =>
      have hab : a ≠ b := fun e => h (by rw [e])
      simp [Pollard.read, Pollard.write, deref, store, List.getElem?_set, hab]

theorem read_alloc (p : Pollard) (m : polNode) (q : Ptr) (n : polNode)
    (h : p.read q = some n) : (p.alloc m).1.read q = some n := by
  cases q with
  | top i => simpa [Pollard.read, Pollard.alloc] using h
  | cell a =>
    simp only [Pollard.read] at h
    have := deref_lt h
    simp only [Pollard.read, Pollard.alloc, deref, List.get?_eq_getElem?]
    rw [List.getElem?_append_left this]
    simpa [deref, List.get?_eq_getElem?] using h

theorem read_alloc_new (p : Pollard) (m : polNode) :
    (p.alloc m).1.read (.cell p.heap.length) = some m := by
  simp [Pollard.read, Pollard.alloc, deref]

theorem read_cell_lt (p : Pollard) (a : Nat) (n : polNode) (h : p.read (.cell a) = some n) :
    a < p.heap.length := deref_lt h

theorem niece_setNiece_same (n : polNode) (lr : Nat) (v : Option Nat) :
    (n.setNiece lr v).niece lr = v := by
  unfold polNode.setNiece polNode.niece
  split <;> simp [*]

theorem niece_setNiece_other (n : polNode) (lr : Nat) (v : Option Nat) (h : lr < 2) :
    (n.setNiece (lr ^^^ 1) v).niece lr = n.niece lr := by
  have h2 : lr = 0 ∨ lr = 1 := by omega
  rcases h2 with rfl | rfl <;> simp [polNode.setNiece, polNode.niece]

theorem setNiece_data (n : polNode) (lr : Nat) (v : Option Nat) :
    (n.setNiece lr v).data = n.data := by
  unfold polNode.setNiece
  split <;> rfl

/-! ## Descents: what `grabPos2` keeps and what it creates -/

theorem grows_refl (p : Pollard) : p.grows p :=
  ⟨sameShape_refl p, fun _ n h => ⟨n, h, rfl, fun _ hv => hv, fun _ hv => hv⟩⟩

theorem grows_trans {p q r : Pollard} (h1 : p.grows q) (h2 : q.grows r) : p.grows r := by
  refine ⟨sameShape_trans h1.1 h2.1, ?_⟩
  intro x n hn
  obtain ⟨n1, a1, a2, a3, a4⟩ := h1.2 x n hn
  obtain ⟨n2, b1, b2, b3, b4⟩ := h2.2 x n1 a1
  exact ⟨n2, b1, b2.trans a2, fun v hv => b3 v (a3 v hv), fun v hv => b4 v (a4 v hv)⟩

theorem unchangedOff_refl (path : List Ptr) (p : Pollard) : unchangedOff path p p :=
  fun _ _ _ h => h

theorem unchangedOff_trans {path1 path2 : List Ptr} {p q r : Pollard}
    (h1 : unchangedOff path1 p q) (h2 : unchangedOff path2 q r) :
    unchangedOff (path1 ++ path2) p r := by
  intro x hx n hn
  simp only [List.mem_append, not_or] at hx
  exact h2 x hx.2 n (h1 x hx.1 n hn)

theorem unchangedOff_mono {path1 path2 : List Ptr} {p q : Pollard}
    (h : unchangedOff path1 p q) (hsub : ∀ x ∈ path1, x ∈ path2) : unchangedOff path2 p q :=
  fun x hx n hn => h x (fun hmem => hx (hsub x hmem)) n hn

theorem grows_alloc (p : Pollard) (m : polNode) : p.grows (p.alloc m).1 :=
  ⟨sameShape_alloc p m, fun q n h => ⟨n, read_alloc p m q n h, rfl, fun _ hv => hv, fun _ hv => hv⟩⟩

theorem nieceAt_grows {p p1 : Pollard} (h : p.grows p1) (q : Ptr) (lr v : Nat)
    (hv : p.nieceAt q lr = some v) : p1.nieceAt q lr = some v := by
  unfold Pollard.nieceAt at hv ⊢
  cases hr : p.read q with
  | none => rw [hr] at hv; simp at hv
  | some n =>
    rw [hr] at hv
    simp only at hv
    obtain ⟨n1, a1, _, a3, a4⟩ := h.2 q n hr
    rw [a1]
    simp only
    unfold polNode.niece at hv ⊢
    split at hv
    · rename_i h0; simp only [h0, if_true]; exact a3 v hv
    · rename_i h0; simp only [h0, if_false]; exact a4 v hv

theorem descendSib_grows (bits : Nat) {p p1 : Pollard} (hg : p.grows p1) :
    ∀ (h : Nat) (x : Ptr) (r : List Ptr × Ptr),
      descendSib bits h p x = some r → descendSib bits h p1 x = some r := by
  intro h
  induction h with
  | zero => intro x r hr; simpa [descendSib] using hr
  | succ h ih =>
    intro x r hr
    unfold descendSib at hr ⊢
    cases hn : p.nieceAt x ((bits >>> (h + 1)) % 2) with
    | none => rw [hn] at hr; simp at hr
    | some b =>
      rw [hn] at hr
      rw [nieceAt_grows hg x _ b hn]
      simp only at hr ⊢
      cases hd : descendSib bits h p (.cell b) with
      | none => rw [hd] at hr; simp at hr
      | some r2 =>
        rw [hd] at hr
        rw [ih (.cell b) r2 hd]
        exact hr

theorem descendSib_readable (bits : Nat) :
    ∀ (h : Nat) (p : Pollard) (x : Ptr) (path : List Ptr) (q : Ptr),
      descendSib bits h p x = some (path, q) → ∀ y ∈ path, (p.read y).isSome := by
  intro h
  induction h with
  | zero =>
    intro p x path q hr y hy
    simp only [descendSib, Option.some.injEq, Prod.mk.injEq] at hr
    rw [← hr.1] at hy
    simp at hy
  | succ h ih =>
    intro p x path q hr y hy
    unfold descendSib at hr
    cases hn : p.nieceAt x ((bits >>> (h + 1)) % 2) with
    | none => rw [hn] at hr; simp at hr
    | some b =>
      rw [hn] at hr
      simp only at hr
      cases hd : descendSib bits h p (.cell b) with
      | none => rw [hd] at hr; simp at hr
      | some r2 =>
        obtain ⟨path2, q2⟩ := r2
        rw [hd] at hr
        simp only [Option.some.injEq, Prod.mk.injEq] at hr
        rw [← hr.1] at hy
        rcases List.mem_cons.mp hy with rfl | hy2
        · unfold Pollard.nieceAt at hn
          cases hx : p.read y with
          | none => rw [hx] at hn; simp at hn
          | some _ => rfl
        · exact ih p (.cell b) path2 q2 hd y hy2

theorem grows_setNieceAt_nil (p : Pollard) (q : Ptr) (k : Nat) (v : Option Nat)
    (h : p.nieceAt q k = none) : p.grows (p.setNieceAt q k v) := by
  unfold Pollard.setNieceAt
  cases hr : p.read q with
  | none => exact grows_refl p
  | some n =>
    simp only
    refine ⟨sameShape_write _ _ _, ?_⟩
    intro x m hm
    by_cases hx : q = x
    · subst hx
      rw [hr] at hm
      simp only [Option.some.injEq] at hm
      subst hm
      refine ⟨_, read_write_same p q _ n hr, setNiece_data _ _ _, ?_, ?_⟩
      · intro w hw
        unfold Pollard.nieceAt at h
        rw [hr] at h
        simp only at h
        unfold polNode.niece at h
        unfold polNode.setNiece
        split
        · rename_i h0; simp only [h0, if_true] at h; rw [h] at hw; simp at hw
        · exact hw
      · intro w hw
        unfold Pollard.nieceAt at h
        rw [hr] at h
        simp only at h
        unfold polNode.niece at h
        unfold polNode.setNiece
        split
        · exact hw
        · rename_i h0; simp only [h0, if_false] at h; rw [h] at hw; simp at hw
    · rw [read_write_ne p q x _ hx]
      exact ⟨m, hm, rfl, fun _ hv => hv, fun _ hv => hv⟩

theorem unchangedOff_setNieceAt (p : Pollard) (q : Ptr) (k : Nat) (v : Option Nat) :
    unchangedOff [q] p (p.setNieceAt q k v) := by
  intro x hx n hn
  unfold Pollard.setNieceAt
  cases hr : p.read q with
  | none => exact hn
  | some m =>
    simp only
    have hne : q ≠ x := fun e => hx (by simp [e])
    rw [read_write_ne p q x _ hne]
    exact hn

theorem heap_length_write (p : Pollard) (q : Ptr) (n : polNode) :
    (p.write q n).heap.length = p.heap.length := by
  cases q <;> simp [Pollard.write, store]

theorem heap_length_setNieceAt (p : Pollard) (q : Ptr) (k : Nat) (v : Option Nat) :
    (p.setNieceAt q k v).heap.length = p.heap.length := by
  unfold Pollard.setNieceAt
  split
  · rfl
  · exact heap_length_write _ _ _

theorem heap_length_setNieces (p : Pollard) (q : Ptr) (a b : Option Nat) :
    (p.setNieces q a b).heap.length = p.heap.length := by
  unfold Pollard.setNieces
  split
  · rfl
  · exact heap_length_write _ _ _

theorem createdEmpty_refl (p : Pollard) : createdEmpty p p :=
  ⟨le_refl _, fun a h1 h2 => absurd h2 (by omega)⟩

/-- One step of the descent when the parent-side node is missing: it is created empty. -/
theorem materialize_none (p : Pollard) (parsib : Ptr) (ps : polNode) (lr b : Nat)
    (hlr : lr < 2) (hr : p.read parsib = some ps) (hb : ps.niece lr = some b)
    (hn : ps.niece (lr ^^^ 1) = none) :
    p.grows ((p.alloc polNode.zero).1.setNieceAt parsib (lr ^^^ 1) (some p.heap.length)) ∧
    unchangedOff [parsib] p
      ((p.alloc polNode.zero).1.setNieceAt parsib (lr ^^^ 1) (some p.heap.length)) ∧
    createdEmpty p
      ((p.alloc polNode.zero).1.setNieceAt parsib (lr ^^^ 1) (some p.heap.length)) ∧
    ((p.alloc polNode.zero).1.setNieceAt parsib (lr ^^^ 1) (some p.heap.length)).nieceAt
      parsib (lr ^^^ 1) = some p.heap.length ∧
    ((p.alloc polNode.zero).1.setNieceAt parsib (lr ^^^ 1) (some p.heap.length)).nieceAt
      parsib lr = some b := by
  have hra : (p.alloc polNode.zero).1.read parsib = some ps := read_alloc p _ parsib ps hr
  have hnil : (p.alloc polNode.zero).1.nieceAt parsib (lr ^^^ 1) = none := by
    simp [Pollard.nieceAt, hra, hn]
  have hrw : ((p.alloc polNode.zero).1.setNieceAt parsib (lr ^^^ 1) (some p.heap.length)).read
      parsib = some (ps.setNiece (lr ^^^ 1) (some p.heap.length)) := by
    unfold Pollard.setNieceAt
    rw [hra]
    exact read_write_same _ _ _ ps hra
  refine ⟨grows_trans (grows_alloc p _) (grows_setNieceAt_nil _ _ _ _ hnil), ?_, ?_, ?_, ?_⟩
  · intro x hx n hxn
    exact unchangedOff_setNieceAt _ parsib _ _ x hx n (read_alloc p _ x n hxn)
  · refine ⟨?_, ?_⟩
    · rw [heap_length_setNieceAt]; simp [Pollard.alloc]
    · intro a h1 h2
      rw [heap_length_setNieceAt] at h2
      simp only [Pollard.alloc, List.length_append, List.length_singleton] at h2
      have ha : a = p.heap.length := by omega
      subst ha
      have hne : parsib ∉ [Ptr.cell p.heap.length] := by
        intro hmem
        simp only [List.mem_singleton] at hmem
        rw [hmem] at hr
        have := read_cell_lt p _ _ hr
        omega
      have := unchangedOff_setNieceAt (p.alloc polNode.zero).1 parsib (lr ^^^ 1)
        (some p.heap.length) (.cell p.heap.length)
        (by simpa [eq_comm] using hne) polNode.zero (read_alloc_new p _)
      exact this
  · simp [Pollard.nieceAt, hrw, niece_setNiece_same]
  · simp [Pollard.nieceAt, hrw, niece_setNiece_other _ _ _ hlr, hb]

/-- One step of the loop of `grabPos2` when the parent-sibling side is present. -/
theorem grabPos2Loop_step (bits h : Nat) (p : Pollard) (par parsib : Ptr) (ps : polNode)
    (b : Nat) (hr : p.read parsib = some ps)
    (hb : ps.niece ((bits >>> (h + 1)) % 2) = some b) :
    ∃ p1 par2, grabPos2Loop bits (h + 1) p par parsib
        = grabPos2Loop bits h p1 (.cell par2) (.cell b) ∧
      p.grows p1 ∧ unchangedOff [parsib] p p1 ∧ createdEmpty p p1 := by
  have hlr : (bits >>> (h + 1)) % 2 < 2 := Nat.mod_lt _ (by decide)
  rw [grabPos2Loop]
  simp only [hr]
  cases hn : ps.niece ((bits >>> (h + 1)) % 2 ^^^ 1) with
  | some w =>
    simp only
    have h1 : p.nieceAt parsib ((bits >>> (h + 1)) % 2 ^^^ 1) = some w := by
      simp [Pollard.nieceAt, hr, hn]
    have h2 : p.nieceAt parsib ((bits >>> (h + 1)) % 2) = some b := by
      simp [Pollard.nieceAt, hr, hb]
    rw [h1, h2]
    exact ⟨p, w, rfl, grows_refl p, unchangedOff_refl _ p, createdEmpty_refl p⟩
  | none =>
    simp only
    obtain ⟨g, u, c, h1, h2⟩ := materialize_none p parsib ps _ b hlr hr hb hn
    rw [h1, h2]
    exact ⟨_, _, rfl, g, u, c⟩

theorem createdEmpty_trans {p q r : Pollard} {path : List Ptr}
    (h1 : createdEmpty p q) (h2 : createdEmpty q r) (hu : unchangedOff path q r)
    (hp : ∀ y ∈ path, (p.read y).isSome) : createdEmpty p r := by
  refine ⟨le_trans h1.1 h2.1, ?_⟩
  intro a ha1 ha2
  by_cases hq : a < q.heap.length
  · have hz := h1.2 a ha1 hq
    have hmem : Ptr.cell a ∉ path := by
      intro hm
      have := hp _ hm
      rw [Option.isSome_iff_exists] at this
      obtain ⟨n, hn⟩ := this
      have := read_cell_lt p a n hn
      omega
    exact hu (.cell a) hmem _ hz
  · exact h2.2 a (by omega) ha2

/-- When the parent-sibling chain to the target is present, the loop of `grabPos2` reaches
the same parent-sibling, keeps every node and pointer, writes only into nodes of the chain,
and the nodes it creates are empty. -/
theorem grabPos2Loop_descend (bits : Nat) :
    ∀ (h : Nat) (p : Pollard) (par parsib : Ptr) (path : List Ptr) (q : Ptr),
      descendSib bits h p parsib = some (path, q) →
      ∃ p1 par1, grabPos2Loop bits h p par parsib = (p1, .ok (par1, q)) ∧
        p.grows p1 ∧ unchangedOff path p p1 ∧ createdEmpty p p1 := by
  intro h
  induction h with
  | zero =>
    intro p par parsib path q hd
    simp only [descendSib, Option.some.injEq, Prod.mk.injEq] at hd
    obtain ⟨_, rfl⟩ := hd
    exact ⟨p, par, rfl, grows_refl p, unchangedOff_refl _ p, createdEmpty_refl p⟩
  | succ h ih =>
    intro p par parsib path q hd
    have hd0 := hd
    unfold descendSib at hd
    cases hn : p.nieceAt parsib ((bits >>> (h + 1)) % 2) with
    | none => rw [hn] at hd; simp at hd
    | some b =>
      rw [hn] at hd
      simp only at hd
      cases hd2 : descendSib bits h p (.cell b) with
      | none => rw [hd2] at hd; simp at hd
      | some r2 =>
        obtain ⟨path2, q2⟩ := r2
        rw [hd2] at hd
        simp only [Option.some.injEq, Prod.mk.injEq] at hd
        obtain ⟨hpath, hq⟩ := hd
        subst hq
        -- the node read at this step
        have hread : ∃ ps, p.read parsib = some ps ∧
            ps.niece ((bits >>> (h + 1)) % 2) = some b := by
          unfold Pollard.nieceAt at hn
          cases hx : p.read parsib with
          | none => rw [hx] at hn; simp at hn
          | some ps => rw [hx] at hn; exact ⟨ps, rfl, hn⟩
        obtain ⟨ps, hps, hpsb⟩ := hread
        obtain ⟨p1, par2, hstep, g1, u1, c1⟩ :=
          grabPos2Loop_step bits h p par parsib ps b hps hpsb
        have hd3 := descendSib_grows bits g1 h (.cell b) (path2, q2) hd2
        obtain ⟨p2, par1, hloop, g2, u2, c2⟩ := ih p1 (.cell par2) (.cell b) path2 q2 hd3
        refine ⟨p2, par1, ?_, grows_trans g1 g2, ?_, ?_⟩
        · rw [hstep]; exact hloop
        · rw [← hpath]
          exact unchangedOff_trans u1 u2
        · exact createdEmpty_trans c1 c2 u2
            (descendSib_readable bits h p (.cell b) path2 q2 hd2)

theorem locate_readable (L : Layout) (p : Pollard) (pos : Nat) (path : List Ptr) (q : Ptr)
    (lr : Nat) (h : locate L p pos = some (path, q, lr)) : ∀ y ∈ path, (p.read y).isSome := by
  unfold locate at h
  split at h
  rename_i tree branchLen bits _
  split at h
  · simp at h
  · split at h
    · simp at h
    · cases hd : descendSib bits (branchLen - 1) p (.top tree) with
      | none => rw [hd] at h; simp at h
      | some r =>
        obtain ⟨path2, q2⟩ := r
        rw [hd] at h
        simp only [Option.some.injEq, Prod.mk.injEq] at h
        rw [← h.1]
        exact descendSib_readable bits _ p _ path2 q2 hd

/-- `grabPos2` on a position whose parent-sibling chain is present: it returns a parent and
the located parent-sibling with `lr = pos & 1`, keeps every node and non-nil pointer,
writes only into nodes of the chain, and creates only empty nodes. -/
theorem grabPos2_locate (L : Layout) (p : Pollard) (pos : Nat) (path : List Ptr) (q : Ptr)
    (lr : Nat) (h : locate L p pos = some (path, q, lr)) :
    ∃ p1 par, grabPos2 L p pos = (p1, .ok ⟨some par, some q, lr⟩) ∧
      p.grows p1 ∧ unchangedOff path p p1 ∧ createdEmpty p p1 := by
  unfold locate at h
  unfold grabPos2
  split at h
  rename_i tree branchLen bits hdo
  split at h
  · simp at h
  · rename_i h1
    split at h
    · simp at h
    · rename_i h2
      simp only [h1, h2, if_false]
      cases hd : descendSib bits (branchLen - 1) p (.top tree) with
      | none => rw [hd] at h; simp at h
      | some r =>
        obtain ⟨path2, q2⟩ := r
        rw [hd] at h
        simp only [Option.some.injEq, Prod.mk.injEq] at h
        obtain ⟨rfl, rfl, rfl⟩ := h
        obtain ⟨p1, par1, hloop, g, u, c⟩ :=
          grabPos2Loop_descend bits _ p (.top tree) (.top tree) path2 q2 hd
        exact ⟨p1, par1, by rw [hloop], g, u, c⟩

theorem locate_grows (L : Layout) {p p1 : Pollard} (hg : p.grows p1) (pos : Nat)
    (r : List Ptr × Ptr × Nat) (h : locate L p pos = some r) : locate L p1 pos = some r := by
  unfold locate at h ⊢
  rw [hg.1.1, hg.1.2.1]
  split at h
  rename_i tree branchLen bits hdo
  split at h
  · simp at h
  · rename_i h1
    split at h
    · simp at h
    · rename_i h2
      simp only [h1, h2, if_false]
      cases hd : descendSib bits (branchLen - 1) p (.top tree) with
      | none => rw [hd] at h; simp at h
      | some r2 =>
        rw [hd] at h
        rw [descendSib_grows bits hg _ _ r2 hd]
        exact h

/-! ## What a swap does to the slots -/

theorem keepsData_refl (p : Pollard) : p.keepsData p :=
  ⟨sameShape_refl p, fun _ n h => ⟨n, h, rfl⟩⟩

theorem keepsData_trans {p q r : Pollard} (h1 : p.keepsData q) (h2 : q.keepsData r) :
    p.keepsData r := by
  refine ⟨sameShape_trans h1.1 h2.1, ?_⟩
  intro x n hn
  obtain ⟨n1, a1, a2⟩ := h1.2 x n hn
  obtain ⟨n2, b1, b2⟩ := h2.2 x n1 a1
  exact ⟨n2, b1, b2.trans a2⟩

theorem keepsData_of_grows {p q : Pollard} (h : p.grows q) : p.keepsData q :=
  ⟨h.1, fun x n hn => by
    obtain ⟨n1, a1, a2, _⟩ := h.2 x n hn
    exact ⟨n1, a1, a2⟩⟩

theorem keepsData_write (p : Pollard) (q : Ptr) (n m : polNode) (hr : p.read q = some m)
    (hd : n.data = m.data) : p.keepsData (p.write q n) := by
  refine ⟨sameShape_write _ _ _, ?_⟩
  intro x k hk
  by_cases hx : q = x
  · subst hx
    rw [hr] at hk
    simp only [Option.some.injEq] at hk
    subst hk
    exact ⟨n, read_write_same p q n m hr, hd⟩
  · rw [read_write_ne p q x n hx]
    exact ⟨k, hk, rfl⟩

theorem keepsData_setNieces (p : Pollard) (q : Ptr) (a b : Option Nat) :
    p.keepsData (p.setNieces q a b) := by
  unfold Pollard.setNieces
  cases hr : p.read q with
  | none => exact keepsData_refl p
  | some m => exact keepsData_write p q _ m hr rfl

theorem keepsData_setNieceAt (p : Pollard) (q : Ptr) (k : Nat) (v : Option Nat) :
    p.keepsData (p.setNieceAt q k v) := by
  unfold Pollard.setNieceAt
  cases hr : p.read q with
  | none => exact keepsData_refl p
  | some m => exact keepsData_write p q _ m hr (setNiece_data _ _ _)

theorem unchangedOff_setNieces (p : Pollard) (q : Ptr) (a b : Option Nat) :
    unchangedOff [q] p (p.setNieces q a b) := by
  intro x hx n hn
  unfold Pollard.setNieces
  cases hr : p.read q with
  | none => exact hn
  | some m =>
    simp only
    have hne : q ≠ x := fun e => hx (by simp [e])
    rw [read_write_ne p q x _ hne]
    exact hn

theorem read_setNieces_same (p : Pollard) (q : Ptr) (a b : Option Nat) (m : polNode)
    (hr : p.read q = some m) : (p.setNieces q a b).read q = some ⟨m.data, a, b⟩ := by
  unfold Pollard.setNieces
  rw [hr]
  exact read_write_same p q _ m hr

theorem read_setNieceAt_same (p : Pollard) (q : Ptr) (k : Nat) (v : Option Nat) (m : polNode)
    (hr : p.read q = some m) : (p.setNieceAt q k v).read q = some (m.setNiece k v) := by
  unfold Pollard.setNieceAt
  rw [hr]
  exact read_write_same p q _ m hr

theorem read_setNieceAt_ne (p : Pollard) (q x : Ptr) (k : Nat) (v : Option Nat) (h : q ≠ x) :
    (p.setNieceAt q k v).read x = p.read x := by
  unfold Pollard.setNieceAt
  cases hr : p.read q with
  | none => rfl
  | some m => exact read_write_ne p q x _ h

theorem read_setNieces_ne (p : Pollard) (q x : Ptr) (a b : Option Nat) (h : q ≠ x) :
    (p.setNieces q a b).read x = p.read x := by
  unfold Pollard.setNieces
  cases hr : p.read q with
  | none => rfl
  | some m => exact read_write_ne p q x _ h

theorem nieceAt_setNieceAt_same (p : Pollard) (q : Ptr) (k : Nat) (v : Option Nat)
    (m : polNode) (hr : p.read q = some m) : (p.setNieceAt q k v).nieceAt q k = v := by
  simp [Pollard.nieceAt, read_setNieceAt_same p q k v m hr, niece_setNiece_same]

theorem nieceAt_setNieceAt_other (p : Pollard) (q : Ptr) (k : Nat) (v : Option Nat)
    (hk : k < 2) : (p.setNieceAt q (k ^^^ 1) v).nieceAt q k = p.nieceAt q k := by
  cases hr : p.read q with
  | none => simp [Pollard.nieceAt, Pollard.setNieceAt, hr]
  | some m =>
    simp [Pollard.nieceAt, read_setNieceAt_same p q _ v m hr, hr, niece_setNiece_other _ _ _ hk]

theorem nieceAt_setNieceAt_ne (p : Pollard) (q x : Ptr) (k j : Nat) (v : Option Nat)
    (h : q ≠ x) : (p.setNieceAt q k v).nieceAt x j = p.nieceAt x j := by
  simp [Pollard.nieceAt, read_setNieceAt_ne p q x k v h]

theorem nieceAt_setNieces_ne (p : Pollard) (q x : Ptr) (j : Nat) (a b : Option Nat)
    (h : q ≠ x) : (p.setNieces q a b).nieceAt x j = p.nieceAt x j := by
  simp [Pollard.nieceAt, read_setNieces_ne p q x a b h]

/-- The pointer exchange `qa.niece[la], qb.niece[lb] = qb.niece[lb], qa.niece[la]`. -/
theorem exchange_effect (p : Pollard) (qa qb : Ptr) (la lb : Nat) (na nb : polNode)
    (hla : la < 2) (hlb : lb < 2) (hra : p.read qa = some na) (hrb : p.read qb = some nb)
    (hslot : qa ≠ qb ∨ la ≠ lb) :
    ((p.setNieceAt qa la (p.nieceAt qb lb)).setNieceAt qb lb (p.nieceAt qa la)).nieceAt qb lb
      = p.nieceAt qa la ∧
    ((p.setNieceAt qa la (p.nieceAt qb lb)).setNieceAt qb lb (p.nieceAt qa la)).nieceAt qa la
      = p.nieceAt qb lb ∧
    (qa ≠ qb →
      ((p.setNieceAt qa la (p.nieceAt qb lb)).setNieceAt qb lb (p.nieceAt qa la)).nieceAt
          qa (la ^^^ 1) = p.nieceAt qa (la ^^^ 1) ∧
      ((p.setNieceAt qa la (p.nieceAt qb lb)).setNieceAt qb lb (p.nieceAt qa la)).nieceAt
          qb (lb ^^^ 1) = p.nieceAt qb (lb ^^^ 1)) ∧
    unchangedOff [qa, qb] p
      ((p.setNieceAt qa la (p.nieceAt qb lb)).setNieceAt qb lb (p.nieceAt qa la)) ∧
    p.keepsData ((p.setNieceAt qa la (p.nieceAt qb lb)).setNieceAt qb lb (p.nieceAt qa la)) := by
  have hx1 : ∀ k, k < 2 → (k ^^^ 1) ^^^ 1 = k := by
    intro k hk
    have : k = 0 ∨ k = 1 := by omega
    rcases this with rfl | rfl <;> rfl
  have hx2 : ∀ k, k < 2 → k ^^^ 1 < 2 := by
    intro k hk
    have : k = 0 ∨ k = 1 := by omega
    rcases this with rfl | rfl <;> decide
  -- the node at qb after the first write
  have hrb1 : ∃ m, (p.setNieceAt qa la (p.nieceAt qb lb)).read qb = some m := by
    by_cases h : qa = qb
    · subst h; exact ⟨_, read_setNieceAt_same p qa la _ na hra⟩
    · rw [read_setNieceAt_ne p qa qb la _ h]; exact ⟨nb, hrb⟩
  obtain ⟨mb, hmb⟩ := hrb1
  refine ⟨nieceAt_setNieceAt_same _ qb lb _ mb hmb, ?_, ?_, ?_, ?_⟩
  · by_cases h : qa = qb
    · subst h
      have hne : la ≠ lb := by
        rcases hslot with h1 | h1
        · exact absurd rfl h1
        · exact h1
      have hlb2 : lb = la ^^^ 1 := by
        have : (la = 0 ∨ la = 1) ∧ (lb = 0 ∨ lb = 1) := by omega
        rcases this with ⟨rfl | rfl, rfl | rfl⟩ <;> first | rfl | exact absurd rfl hne
      rw [hlb2, nieceAt_setNieceAt_other _ qa la _ hla,
        nieceAt_setNieceAt_same p qa la _ na hra]
    · rw [nieceAt_setNieceAt_ne _ qb qa lb la _ (Ne.symm h),
        nieceAt_setNieceAt_same p qa la _ na hra]
  · intro h
    constructor
    · rw [nieceAt_setNieceAt_ne _ qb qa lb _ _ (Ne.symm h)]
      have := nieceAt_setNieceAt_other p qa (la ^^^ 1) (p.nieceAt qb lb) (hx2 la hla)
      rw [hx1 la hla] at this
      exact this
    · have := nieceAt_setNieceAt_other (p.setNieceAt qa la (p.nieceAt qb lb)) qb (lb ^^^ 1)
        (p.nieceAt qa la) (hx2 lb hlb)
      rw [hx1 lb hlb] at this
      rw [this, nieceAt_setNieceAt_ne p qa qb la _ _ h]
  · intro x hx n hn
    simp only [List.mem_cons, List.mem_singleton, not_or, List.not_mem_nil, or_false] at hx
    rw [read_setNieceAt_ne _ qb x lb _ (Ne.symm hx.2),
      read_setNieceAt_ne _ qa x la _ (Ne.symm hx.1)]
    exact hn
  · exact keepsData_trans (keepsData_setNieceAt _ _ _ _) (keepsData_setNieceAt _ _ _ _)

/-- The exchange of the niece arrays of two distinct nodes. -/
theorem nieceSwap_effect (p : Pollard) (x y : Nat) (xn yn : polNode)
    (hx : p.read (.cell x) = some xn) (hy : p.read (.cell y) = some yn) (hxy : x ≠ y) :
    ((p.setNieces (.cell x) yn.niece0 yn.niece1).setNieces (.cell y) xn.niece0 xn.niece1).read
        (.cell x) = some ⟨xn.data, yn.niece0, yn.niece1⟩ ∧
    ((p.setNieces (.cell x) yn.niece0 yn.niece1).setNieces (.cell y) xn.niece0 xn.niece1).read
        (.cell y) = some ⟨yn.data, xn.niece0, xn.niece1⟩ ∧
    unchangedOff [.cell x, .cell y] p
      ((p.setNieces (.cell x) yn.niece0 yn.niece1).setNieces (.cell y) xn.niece0 xn.niece1) ∧
    p.keepsData
      ((p.setNieces (.cell x) yn.niece0 yn.niece1).setNieces (.cell y) xn.niece0 xn.niece1) := by
  have hne : Ptr.cell y ≠ Ptr.cell x := fun e => hxy (by injection e with e; exact e.symm)
  have hy1 : (p.setNieces (.cell x) yn.niece0 yn.niece1).read (.cell y) = some yn := by
    rw [read_setNieces_ne p _ _ _ _ (Ne.symm hne)]; exact hy
  refine ⟨?_, read_setNieces_same _ _ _ _ yn hy1, ?_, ?_⟩
  · rw [read_setNieces_ne _ _ _ _ _ hne]
    exact read_setNieces_same p _ _ _ xn hx
  · intro q hq n hn
    simp only [List.mem_cons, List.mem_singleton, not_or, List.not_mem_nil, or_false] at hq
    rw [read_setNieces_ne _ _ q _ _ (Ne.symm hq.2), read_setNieces_ne _ _ q _ _ (Ne.symm hq.1)]
    exact hn
  · exact keepsData_trans (keepsData_setNieces _ _ _ _) (keepsData_setNieces _ _ _ _)

/-! ## `swapNodes` in terms of its two branches -/

theorem swapNodes_normal_ok (L : Layout) (p p1 p2 p3 : Pollard) (r : arrow)
    (apar aparsib bpar bparsib : Ptr) (alr blr : Nat) (hn : hashableNode)
    (hga : grabPos2 L p r.from_ = (p1, .ok ⟨some apar, some aparsib, alr⟩))
    (hgb : grabPos2 L p1 r.to_ = (p2, .ok ⟨some bpar, some bparsib, blr⟩))
    (hs : swapNodes L p r = (p3, .ok hn)) :
    normalSwap p2 r aparsib alr bparsib blr = (p3, none) ∧
    hn = ⟨some bpar, some bparsib⟩ ∧
    (p3.nieceAt bparsib 0).isSome ∧ (p3.nieceAt bparsib 1).isSome := by
  unfold swapNodes at hs
  split at hs
  · simp at hs
  · rw [hga] at hs
    simp only [hgb] at hs
    generalize normalSwap p2 r aparsib alr bparsib blr = res at hs ⊢
    obtain ⟨p4, e⟩ := res
    cases e with
    | some e => simp at hs
    | none =>
      simp only at hs
      split at hs
      · simp at hs
      · rename_i hnil
        simp only [Prod.mk.injEq, Except.ok.injEq] at hs
        obtain ⟨rfl, rfl⟩ := hs
        simp only [Bool.or_eq_true, not_or, Bool.not_eq_true, Option.isNone_eq_false_iff] at hnil
        exact ⟨rfl, rfl, hnil.1, hnil.2⟩

theorem swapNodes_top_ok (L : Layout) (p p1 p2 p3 : Pollard) (r : arrow)
    (bpar bparsib : Ptr) (alr blr : Nat) (hn : hashableNode)
    (hga : grabPos2 L p r.from_ = (p1, .ok ⟨none, none, alr⟩))
    (hgb : grabPos2 L p1 r.to_ = (p2, .ok ⟨some bpar, some bparsib, blr⟩))
    (hs : swapNodes L p r = (p3, .ok hn)) :
    topSwap p2 alr bparsib blr = (p3, none) ∧
    hn = ⟨some bpar, some bparsib⟩ ∧
    (p3.nieceAt bparsib 0).isSome ∧ (p3.nieceAt bparsib 1).isSome := by
  unfold swapNodes at hs
  split at hs
  · simp at hs
  · rw [hga] at hs
    simp only [hgb] at hs
    generalize topSwap p2 alr bparsib blr = res at hs ⊢
    obtain ⟨p4, e⟩ := res
    cases e with
    | some e => simp at hs
    | none =>
      simp only at hs
      split at hs
      · simp at hs
      · rename_i hnil
        simp only [Prod.mk.injEq, Except.ok.injEq] at hs
        obtain ⟨rfl, rfl⟩ := hs
        simp only [Bool.or_eq_true, not_or, Bool.not_eq_true, Option.isNone_eq_false_iff] at hnil
        exact ⟨rfl, rfl, hnil.1, hnil.2⟩

/-- A descent reads only the nodes on its path. -/
theorem descendSib_congr (bits : Nat) (p p1 : Pollard) :
    ∀ (h : Nat) (x : Ptr) (path : List Ptr) (q : Ptr),
      descendSib bits h p x = some (path, q) → (∀ y ∈ path, p1.read y = p.read y) →
      descendSib bits h p1 x = some (path, q) := by
  intro h
  induction h with
  | zero => intro x path q hd _; simpa [descendSib] using hd
  | succ h ih =>
    intro x path q hd hsame
    unfold descendSib at hd ⊢
    cases hn : p.nieceAt x ((bits >>> (h + 1)) % 2) with
    | none => rw [hn] at hd; simp at hd
    | some b =>
      rw [hn] at hd
      simp only at hd
      cases hd2 : descendSib bits h p (.cell b) with
      | none => rw [hd2] at hd; simp at hd
      | some r2 =>
        obtain ⟨path2, q2⟩ := r2
        rw [hd2] at hd
        simp only [Option.some.injEq, Prod.mk.injEq] at hd
        obtain ⟨rfl, rfl⟩ := hd
        have hx : p1.read x = p.read x := hsame x (List.mem_cons_self _ _)
        have hn1 : p1.nieceAt x ((bits >>> (h + 1)) % 2) = some b := by
          unfold Pollard.nieceAt at hn ⊢
          rw [hx]; exact hn
        rw [hn1]
        simp only
        rw [ih (.cell b) path2 q2 hd2 (fun y hy => hsame y (List.mem_cons_of_mem _ hy))]

theorem locate_congr (L : Layout) (p p1 : Pollard) (pos : Nat) (path : List Ptr) (q : Ptr)
    (lr : Nat) (hshape : p.sameShape p1) (h : locate L p pos = some (path, q, lr))
    (hsame : ∀ y ∈ path, p1.read y = p.read y) : locate L p1 pos = some (path, q, lr) := by
  unfold locate at h ⊢
  rw [hshape.1, hshape.2.1]
  split at h
  rename_i tree branchLen bits hdo
  split at h
  · simp at h
  · rename_i h1
    split at h
    · simp at h
    · rename_i h2
      simp only [h1, h2, if_false]
      cases hd : descendSib bits (branchLen - 1) p (.top tree) with
      | none => rw [hd] at h; simp at h
      | some r2 =>
        obtain ⟨path2, q2⟩ := r2
        rw [hd] at h
        simp only [Option.some.injEq, Prod.mk.injEq] at h
        obtain ⟨rfl, rfl, rfl⟩ := h
        rw [descendSib_congr bits p p1 _ _ path2 q2 hd hsame]

theorem locate_lr (L : Layout) (p : Pollard) (pos : Nat) (path : List Ptr) (q : Ptr)
    (lr : Nat) (h : locate L p pos = some (path, q, lr)) : lr = pos % 2 := by
  unfold locate at h
  split at h
  split at h
  · simp at h
  · split at h
    · simp at h
    · split at h
      · simp at h
      · simp only [Option.some.injEq, Prod.mk.injEq] at h
        exact h.2.2.symm

theorem nieceAt_congr (p p1 : Pollard) (q : Ptr) (k : Nat) (h : p1.read q = p.read q) :
    p1.nieceAt q k = p.nieceAt q k := by
  simp [Pollard.nieceAt, h]

/-- The effect of the normal-swap branch on the slots of `from` and `to`, when the
parent-siblings and (for positions that are not siblings) the sibling nodes are distinct
nodes. -/
theorem normalSwap_effect (p : Pollard) (r : arrow) (aparsib bparsib : Ptr) (alr blr : Nat)
    (pa pb : polNode) (hla : alr < 2) (hlb : blr < 2)
    (hra : p.read aparsib = some pa) (hrb : p.read bparsib = some pb)
    (hslot : aparsib ≠ bparsib ∨ alr ≠ blr)
    (hsib : r.from_ ≠ r.to_ ^^^ 1 →
      ∃ x y xn yn, p.nieceAt aparsib (alr ^^^ 1) = some x ∧
        p.nieceAt bparsib (blr ^^^ 1) = some y ∧
        p.read (.cell x) = some xn ∧ p.read (.cell y) = some yn ∧ x ≠ y ∧
        aparsib ≠ .cell x ∧ aparsib ≠ .cell y ∧ bparsib ≠ .cell x ∧ bparsib ≠ .cell y ∧
        aparsib ≠ bparsib) :
    ∃ p3, normalSwap p r aparsib alr bparsib blr = (p3, none) ∧ p.keepsData p3 ∧
      p3.nieceAt bparsib blr = p.nieceAt aparsib alr ∧
      p3.nieceAt aparsib alr = p.nieceAt bparsib blr ∧
      (∀ q, q ≠ aparsib → q ≠ bparsib →
        (r.from_ ≠ r.to_ ^^^ 1 → ∀ x, (p.nieceAt aparsib (alr ^^^ 1) = some x ∨
          p.nieceAt bparsib (blr ^^^ 1) = some x) → q ≠ .cell x) →
        ∀ n, p.read q = some n → p3.read q = some n) ∧
      (r.from_ ≠ r.to_ ^^^ 1 →
        ∀ x y xn yn, p.nieceAt aparsib (alr ^^^ 1) = some x →
          p.nieceAt bparsib (blr ^^^ 1) = some y →
          p.read (.cell x) = some xn → p.read (.cell y) = some yn →
          p3.nieceAt aparsib (alr ^^^ 1) = some x ∧ p3.nieceAt bparsib (blr ^^^ 1) = some y ∧
          p3.read (.cell x) = some ⟨xn.data, yn.niece0, yn.niece1⟩ ∧
          p3.read (.cell y) = some ⟨yn.data, xn.niece0, xn.niece1⟩) := by
  by_cases hne : r.from_ ≠ r.to_ ^^^ 1
  · obtain ⟨x, y, xn, yn, hx, hy, hxn, hyn, hxy, hax, hay, hbx, hby, hab⟩ := hsib hne
    obtain ⟨s1, s2, s3, s4⟩ := nieceSwap_effect p x y xn yn hxn hyn hxy
    -- the state after the exchange of the niece arrays
    have hra2 : ((p.setNieces (.cell x) yn.niece0 yn.niece1).setNieces (.cell y)
        xn.niece0 xn.niece1).read aparsib = some pa :=
      s3 aparsib (by simp [hax, hay]) pa hra
    have hrb2 : ((p.setNieces (.cell x) yn.niece0 yn.niece1).setNieces (.cell y)
        xn.niece0 xn.niece1).read bparsib = some pb :=
      s3 bparsib (by simp [hbx, hby]) pb hrb
    have hna : ∀ k, ((p.setNieces (.cell x) yn.niece0 yn.niece1).setNieces (.cell y)
        xn.niece0 xn.niece1).nieceAt aparsib k = p.nieceAt aparsib k :=
      fun k => nieceAt_congr _ _ _ _ (by rw [hra2, hra])
    have hnb : ∀ k, ((p.setNieces (.cell x) yn.niece0 yn.niece1).setNieces (.cell y)
        xn.niece0 xn.niece1).nieceAt bparsib k = p.nieceAt bparsib k :=
      fun k => nieceAt_congr _ _ _ _ (by rw [hrb2, hrb])
    obtain ⟨e1, e2, e3, e4, e5⟩ := exchange_effect _ aparsib bparsib alr blr pa pb hla hlb
      hra2 hrb2 (Or.inl hab)
    refine ⟨_, ?_, keepsData_trans s4 e5, ?_, ?_, ?_, ?_⟩
    · unfold normalSwap
      simp only [hne, ne_eq, not_false_eq_true, if_true, hx, hy, hxn, hyn]
    · rw [e1, hna]
    · rw [e2, hnb]
    · intro q hqa hqb hq n hn
      have hqx : q ≠ .cell x := hq hne x (Or.inl hx)
      have hqy : q ≠ .cell y := hq hne y (Or.inr hy)
      exact e4 q (by simp [hqa, hqb]) n (s3 q (by simp [hqx, hqy]) n hn)
    · intro _ x2 y2 xn2 yn2 hx2 hy2 hxn2 hyn2
      rw [hx] at hx2; rw [hy] at hy2
      simp only [Option.some.injEq] at hx2 hy2
      subst hx2; subst hy2
      rw [hxn] at hxn2; rw [hyn] at hyn2
      simp only [Option.some.injEq] at hxn2 hyn2
      subst hxn2; subst hyn2
      obtain ⟨e3a, e3b⟩ := e3 hab
      refine ⟨by rw [e3a, hna, hx], by rw [e3b, hnb, hy], ?_, ?_⟩
      · exact e4 (.cell x) (by simp [Ne.symm hax, Ne.symm hbx]) _ s1
      · exact e4 (.cell y) (by simp [Ne.symm hay, Ne.symm hby]) _ s2
  · obtain ⟨e1, e2, _, e4, e5⟩ := exchange_effect p aparsib bparsib alr blr pa pb hla hlb
      hra hrb hslot
    refine ⟨_, ?_, e5, e1, e2, ?_, ?_⟩
    · unfold normalSwap
      simp only [hne, if_false]
    · intro q hqa hqb _ n hn
      exact e4 q (by simp [hqa, hqb]) n hn
    · intro h; exact absurd h hne

/-! ## The normal swap exchanges the hashes -/

theorem read_of_nieceAt (p : Pollard) (q : Ptr) (k a : Nat) (h : p.nieceAt q k = some a) :
    ∃ n, p.read q = some n := by
  unfold Pollard.nieceAt at h
  cases hr : p.read q with
  | none => rw [hr] at h; simp at h
  | some n => exact ⟨n, rfl⟩

theorem nodeAt_of_locate (L : Layout) (p : Pollard) (pos : Nat) (path : List Ptr) (q : Ptr)
    (lr a : Nat) (n : polNode) (h : locate L p pos = some (path, q, lr))
    (ha : p.nieceAt q lr = some a) (hn : p.read (.cell a) = some n) :
    nodeAt L p pos = some n := by
  unfold nodeAt
  rw [h]
  simp only [ha]
  exact hn

theorem sibNodeAt_of_locate (L : Layout) (p : Pollard) (pos : Nat) (path : List Ptr) (q : Ptr)
    (lr a : Nat) (n : polNode) (h : locate L p pos = some (path, q, lr))
    (ha : p.nieceAt q (lr ^^^ 1) = some a) (hn : p.read (.cell a) = some n) :
    sibNodeAt L p pos = some n := by
  unfold sibNodeAt
  rw [h]
  simp only [ha]
  exact hn

theorem xor_one_mod_two_ne (t : Nat) : (t ^^^ 1) % 2 ≠ t % 2 := by
  rw [Nat.xor_mod_two_eq]
  omega

/-- The states around a successful normal swap: the pollard `p2` after the two `grabPos2`
calls, in which the two parent-siblings and every node off the two descent paths are as in
`p`, and the swap on `p2`. -/
theorem swapNodes_normal_core (L : Layout) (p p3 : Pollard) (r : arrow) (hn : hashableNode)
    (pathA pathB : List Ptr) (aparsib bparsib : Ptr) (alr blr : Nat)
    (hfrom : locate L p r.from_ = some (pathA, aparsib, alr))
    (hto : locate L p r.to_ = some (pathB, bparsib, blr))
    (hs : swapNodes L p r = (p3, .ok hn)) :
    ∃ p2, p.grows p2 ∧ unchangedOff (pathA ++ pathB) p p2 ∧
      normalSwap p2 r aparsib alr bparsib blr = (p3, none) ∧
      locate L p2 r.from_ = some (pathA, aparsib, alr) ∧
      locate L p2 r.to_ = some (pathB, bparsib, blr) := by
  obtain ⟨p1, apar, hga, g1, u1, _⟩ := grabPos2_locate L p r.from_ pathA aparsib alr hfrom
  have hto1 := locate_grows L g1 r.to_ _ hto
  obtain ⟨p2, bpar, hgb, g2, u2, _⟩ := grabPos2_locate L p1 r.to_ pathB bparsib blr hto1
  obtain ⟨hnorm, _⟩ := swapNodes_normal_ok L p p1 p2 p3 r apar aparsib bpar bparsib alr blr hn
    hga hgb hs
  exact ⟨p2, grows_trans g1 g2, unchangedOff_trans u1 u2, hnorm,
    locate_grows L (grows_trans g1 g2) _ _ hfrom, locate_grows L g2 _ _ hto1⟩

/-- C12 (as amended): for every pollard and arrow `(from, to)` with neither position a root
and both nodes present, the two slots being slots of distinct nodes that lie off the two
descent paths (as in every tree-shaped pollard), after `swapNodes` returns without error
the node found at `to` carries the hash that was at `from`, the node found at `from`
carries the hash that was at `to`, and, when `from` and `to` are not siblings, the hashes
at the siblings of `from` and `to` are unchanged. -/
theorem swapNodes_exchanges_hashes (L : Layout) (p p3 : Pollard) (r : arrow)
    (hn : hashableNode) (pathA pathB : List Ptr) (aparsib bparsib : Ptr) (alr blr a b : Nat)
    (na nb : polNode)
    (hfrom : locate L p r.from_ = some (pathA, aparsib, alr))
    (hto : locate L p r.to_ = some (pathB, bparsib, blr))
    (ha : p.nieceAt aparsib alr = some a) (hna : p.read (.cell a) = some na)
    (hb : p.nieceAt bparsib blr = some b) (hnb : p.read (.cell b) = some nb)
    (hsepA : aparsib ∉ pathA ++ pathB) (hsepB : bparsib ∉ pathA ++ pathB)
    (hslot : r.from_ = r.to_ ^^^ 1 ∨ aparsib ≠ bparsib)
    (hsib : r.from_ ≠ r.to_ ^^^ 1 →
      ∃ x y xn yn, p.nieceAt aparsib (alr ^^^ 1) = some x ∧
        p.nieceAt bparsib (blr ^^^ 1) = some y ∧
        p.read (.cell x) = some xn ∧ p.read (.cell y) = some yn ∧ x ≠ y ∧
        Ptr.cell x ∉ aparsib :: bparsib :: (pathA ++ pathB) ∧
        Ptr.cell y ∉ aparsib :: bparsib :: (pathA ++ pathB))
    (hs : swapNodes L p r = (p3, .ok hn)) :
    hashAt L p r.from_ = some na.data ∧ hashAt L p r.to_ = some nb.data ∧
    hashAt L p3 r.to_ = some na.data ∧ hashAt L p3 r.from_ = some nb.data ∧
    (r.from_ ≠ r.to_ ^^^ 1 →
      (sibHashAt L p r.from_).isSome ∧ (sibHashAt L p r.to_).isSome ∧
      sibHashAt L p3 r.from_ = sibHashAt L p r.from_ ∧
      sibHashAt L p3 r.to_ = sibHashAt L p r.to_) := by
  have hla : alr < 2 := by
    rw [locate_lr L p _ _ _ _ hfrom]; exact Nat.mod_lt _ (by decide)
  have hlb : blr < 2 := by
    rw [locate_lr L p _ _ _ _ hto]; exact Nat.mod_lt _ (by decide)
  obtain ⟨p2, g, u, hnorm, hlocA2, hlocB2⟩ :=
    swapNodes_normal_core L p p3 r hn pathA pathB aparsib bparsib alr blr hfrom hto hs
  obtain ⟨pa, hra⟩ := read_of_nieceAt p aparsib alr a ha
  obtain ⟨pb, hrb⟩ := read_of_nieceAt p bparsib blr b hb
  have hra2 : p2.read aparsib = some pa := u aparsib hsepA pa hra
  have hrb2 : p2.read bparsib = some pb := u bparsib hsepB pb hrb
  have hnA : ∀ k, p2.nieceAt aparsib k = p.nieceAt aparsib k :=
    fun k => nieceAt_congr _ _ _ _ (by rw [hra2, hra])
  have hnB : ∀ k, p2.nieceAt bparsib k = p.nieceAt bparsib k :=
    fun k => nieceAt_congr _ _ _ _ (by rw [hrb2, hrb])
  have hslot2 : aparsib ≠ bparsib ∨ alr ≠ blr := by
    rcases hslot with h | h
    · right
      rw [locate_lr L p _ _ _ _ hfrom, locate_lr L p _ _ _ _ hto, h]
      exact xor_one_mod_two_ne _
    · exact Or.inl h
  have hsib2 : r.from_ ≠ r.to_ ^^^ 1 →
      ∃ x y xn yn, p2.nieceAt aparsib (alr ^^^ 1) = some x ∧
        p2.nieceAt bparsib (blr ^^^ 1) = some y ∧
        p2.read (.cell x) = some xn ∧ p2.read (.cell y) = some yn ∧ x ≠ y ∧
        aparsib ≠ .cell x ∧ aparsib ≠ .cell y ∧ bparsib ≠ .cell x ∧ bparsib ≠ .cell y ∧
        aparsib ≠ bparsib := by
    intro hne
    obtain ⟨x, y, xn, yn, hx, hy, hxn, hyn, hxy, hxs, hys⟩ := hsib hne
    simp only [List.mem_cons, not_or] at hxs hys
    refine ⟨x, y, xn, yn, by rw [hnA, hx], by rw [hnB, hy], u _ hxs.2.2 _ hxn,
      u _ hys.2.2 _ hyn, hxy, Ne.symm hxs.1, Ne.symm hys.1, Ne.symm hxs.2.1,
      Ne.symm hys.2.1, ?_⟩
    rcases hslot with h | h
    · exact absurd h hne
    · exact h
  obtain ⟨p3', hnorm', kd, f1, f2, f5, f6⟩ :=
    normalSwap_effect p2 r aparsib bparsib alr blr pa pb hla hlb hra2 hrb2 hslot2 hsib2
  rw [hnorm] at hnorm'
  simp only [Prod.mk.injEq, and_true] at hnorm'
  subst hnorm'
  have kd3 : p.keepsData p3 := keepsData_trans (keepsData_of_grows g) kd
  -- the two descents find the same slots after the swap
  have hstable : ∀ y ∈ pathA ++ pathB, p3.read y = p2.read y := by
    intro y hy
    have hyr : (p.read y).isSome := by
      rcases List.mem_append.mp hy with h | h
      · exact locate_readable L p _ _ _ _ hfrom y h
      · exact locate_readable L p _ _ _ _ hto y h
    obtain ⟨n, hn0⟩ := Option.isSome_iff_exists.mp hyr
    obtain ⟨n2, hn2, _⟩ := g.2 y n hn0
    rw [hn2]
    refine f5 y (fun e => hsepA (e ▸ hy)) (fun e => hsepB (e ▸ hy)) ?_ n2 hn2
    intro hne x hx e
    obtain ⟨x0, y0, _, _, hx0, hy0, _, _, _, hxs, hys⟩ := hsib hne
    simp only [List.mem_cons, not_or] at hxs hys
    rw [hnA, hnB, hx0, hy0] at hx
    rcases hx with h | h
    · simp only [Option.some.injEq] at h
      subst h; exact hxs.2.2 (e ▸ hy)
    · simp only [Option.some.injEq] at h
      subst h; exact hys.2.2 (e ▸ hy)
  have hlocA3 : locate L p3 r.from_ = some (pathA, aparsib, alr) :=
    locate_congr L p2 p3 _ _ _ _ kd.1 hlocA2
      (fun y hy => hstable y (List.mem_append_left _ hy))
  have hlocB3 : locate L p3 r.to_ = some (pathB, bparsib, blr) :=
    locate_congr L p2 p3 _ _ _ _ kd.1 hlocB2
      (fun y hy => hstable y (List.mem_append_right _ hy))
  obtain ⟨na3, hna3, hda3⟩ := kd3.2 (.cell a) na hna
  obtain ⟨nb3, hnb3, hdb3⟩ := kd3.2 (.cell b) nb hnb
  refine ⟨?_, ?_, ?_, ?_, ?_⟩
  · simp [hashAt, nodeAt_of_locate L p _ _ _ _ a na hfrom ha hna]
  · simp [hashAt, nodeAt_of_locate L p _ _ _ _ b nb hto hb hnb]
  · have : p3.nieceAt bparsib blr = some a := by rw [f1, hnA, ha]
    simp [hashAt, nodeAt_of_locate L p3 _ _ _ _ a na3 hlocB3 this hna3, hda3]
  · have : p3.nieceAt aparsib alr = some b := by rw [f2, hnB, hb]
    simp [hashAt, nodeAt_of_locate L p3 _ _ _ _ b nb3 hlocA3 this hnb3, hdb3]
  · intro hne
    obtain ⟨x, y, xn, yn, hx, hy, hxn, hyn, hxy, hxs, hys⟩ := hsib hne
    simp only [List.mem_cons, not_or] at hxs hys
    obtain ⟨g1, g2, g3, g4⟩ := f6 hne x y xn yn (by rw [hnA, hx]) (by rw [hnB, hy])
      (u _ hxs.2.2 _ hxn) (u _ hys.2.2 _ hyn)
    have sA := sibNodeAt_of_locate L p _ _ _ _ x xn hfrom hx hxn
    have sB := sibNodeAt_of_locate L p _ _ _ _ y yn hto hy hyn
    have sA3 := sibNodeAt_of_locate L p3 _ _ _ _ x _ hlocA3 g1 g3
    have sB3 := sibNodeAt_of_locate L p3 _ _ _ _ y _ hlocB3 g2 g4
    simp [sibHashAt, sA, sB, sA3, sB3]

/-- Witness for `swapNodes_exchanges_hashes`: the arrow `(2, 0)` on the four-leaf pollard
exchanges the leaf hashes 7 and 5 and leaves the sibling hashes 8 and 6 in place. -/
theorem swapNodes_exchanges_hashes_witness :
    hashAt (specLayout exParent) exFour 2 = some 7 ∧
    hashAt (specLayout exParent) exFour 0 = some 5 ∧
    hashAt (specLayout exParent) (swapNodes (specLayout exParent) exFour ⟨2, 0⟩).1 0 = some 7 ∧
    hashAt (specLayout exParent) (swapNodes (specLayout exParent) exFour ⟨2, 0⟩).1 2 = some 5 ∧
    sibHashAt (specLayout exParent) (swapNodes (specLayout exParent) exFour ⟨2, 0⟩).1 2 =
      sibHashAt (specLayout exParent) exFour 2 ∧
    sibHashAt (specLayout exParent) (swapNodes (specLayout exParent) exFour ⟨2, 0⟩).1 0 =
      sibHashAt (specLayout exParent) exFour 0 := by
  have h := swapNodes_exchanges_hashes (specLayout exParent) exFour
    (swapNodes (specLayout exParent) exFour ⟨2, 0⟩).1 ⟨2, 0⟩
    ⟨some (.cell 8), some (.cell 7)⟩ [.top 0] [.top 0] (.cell 8) (.cell 7) 0 0 6 2
    ⟨7, some 5, none⟩ ⟨5, some 1, none⟩
    (by decide) (by decide) (by decide) (by decide) (by decide) (by decide)
    (by decide) (by decide) (Or.inr (by decide))
    (fun _ => ⟨5, 1, ⟨8, some 4, none⟩, ⟨6, some 0, none⟩, by decide, by decide, by decide,
      by decide, by decide, by decide, by decide⟩)
    rfl
  exact ⟨h.1, h.2.1, h.2.2.1, h.2.2.2.1, (h.2.2.2.2 (by decide)).2.2.1,
    (h.2.2.2.2 (by decide)).2.2.2⟩

/-- C12 (as stated) fails for an arrow between siblings: on the two-leaf pollard the arrow
`(1, 0)` succeeds, and the hash at the sibling of `from` (position 0) changes from 5
to 6. -/
theorem swap_siblings_counterexample :
    ¬ (∀ (p : Pollard) (r : arrow) (p3 : Pollard) (hn : hashableNode),
        swapNodes (specLayout exParent) p r = (p3, .ok hn) →
        hashAt (specLayout exParent) p3 r.to_ = hashAt (specLayout exParent) p r.from_ ∧
        hashAt (specLayout exParent) p3 r.from_ = hashAt (specLayout exParent) p r.to_ ∧
        sibHashAt (specLayout exParent) p3 r.from_ = sibHashAt (specLayout exParent) p r.from_ ∧
        sibHashAt (specLayout exParent) p3 r.to_ = sibHashAt (specLayout exParent) p r.to_) := by
  intro h
  have h1 := h exTwoR ⟨1, 0⟩ (swapNodes (specLayout exParent) exTwoR ⟨1, 0⟩).1
    ⟨some (.top 0), some (.top 0)⟩ rfl
  exact absurd h1.2.2.1 (by decide)

/-! ## The normal swap moves the two nodes together with their niece arrays -/

/-- C13 (fails in the code): on the eight-leaf pollard, whose row-1 nodes at positions
16, 17, 18, 19 carry the hashes 35, 47, 59, 71 of the leaf pairs (5,6), (7,8), (9,10),
(11,12), the arrow `(18, 16)` (neither a root, not siblings) succeeds and exchanges the
hashes at 16 and 18, but the leaves found below the siblings 17 and 19 have changed
places as well: position 17 still carries `47 = Parent 7 8` while the leaves found at its
children 2 and 3 are now 11 and 12, and the node now at 18 keeps the niece array it had
at 16 (the children of 17) although its sibling is now 19. -/
theorem normal_swap_misplaces_sibling_subtrees :
    (∃ hn, swapNodes (specLayout exParent) exEight ⟨18, 16⟩ =
      ((swapNodes (specLayout exParent) exEight ⟨18, 16⟩).1, .ok hn)) ∧
    [16, 17, 18, 19].map (hashAt (specLayout exParent) exEight) =
      [some 35, some 47, some 59, some 71] ∧
    (List.range 8).map (hashAt (specLayout exParent) exEight) =
      [some 5, some 6, some 7, some 8, some 9, some 10, some 11, some 12] ∧
    [16, 17, 18, 19].map
        (hashAt (specLayout exParent) (swapNodes (specLayout exParent) exEight ⟨18, 16⟩).1) =
      [some 59, some 47, some 35, some 71] ∧
    (List.range 8).map
        (hashAt (specLayout exParent) (swapNodes (specLayout exParent) exEight ⟨18, 16⟩).1) =
      [some 9, some 10, some 11, some 12, some 5, some 6, some 7, some 8] ∧
    exParent 7 8 = 47 ∧ exParent 11 12 = 71 ∧
    (nodeAt (specLayout exParent) (swapNodes (specLayout exParent) exEight ⟨18, 16⟩).1 18).map
        (fun n => (n.niece0, n.niece1)) =
      (nodeAt (specLayout exParent) exEight 16).map (fun n => (n.niece0, n.niece1)) := by
  refine ⟨⟨⟨some (.cell 20), some (.cell 19)⟩, rfl⟩, ?_, ?_, ?_, ?_, ?_, ?_, ?_⟩ <;> decide

/-! ## The top swap -/

theorem xor_one_xor_one (k : Nat) : k ^^^ 1 ^^^ 1 = k := by
  rw [Nat.xor_assoc]; simp

theorem xor_one_lt_two (k : Nat) (hk : k < 2) : k ^^^ 1 < 2 := by
  interval_cases k <;> decide

theorem read_ne_new_cell (p : Pollard) (q : Ptr) (n : polNode) (h : p.read q = some n) :
    q ≠ .cell p.heap.length := by
  intro e
  rw [e] at h
  exact absurd (read_cell_lt p _ n h) (Nat.lt_irrefl _)

/-- The effect of the top-swap branch when the top, the parent-sibling of `to` and the
two nodes below it are four distinct nodes. -/
theorem topSwap_effect (p : Pollard) (t : Nat) (bparsib : Ptr) (blr x y : Nat)
    (xn yn tn : polNode) (hlb : blr < 2)
    (hx : p.nieceAt bparsib blr = some x) (hy : p.nieceAt bparsib (blr ^^^ 1) = some y)
    (hxn : p.read (.cell x) = some xn) (hyn : p.read (.cell y) = some yn)
    (htn : p.read (.top t) = some tn)
    (hxy : x ≠ y) (hbx : bparsib ≠ .cell x) (hby : bparsib ≠ .cell y)
    (hbt : bparsib ≠ .top t) :
    ∃ p3, topSwap p t bparsib blr = (p3, none) ∧
      p3.read (.top t) = some ⟨xn.data, yn.niece0, yn.niece1⟩ ∧
      p3.nieceAt bparsib blr = some p.heap.length ∧
      p3.read (.cell p.heap.length) = some ⟨tn.data, xn.niece0, xn.niece1⟩ ∧
      p3.nieceAt bparsib (blr ^^^ 1) = some y ∧
      p3.read (.cell y) = some ⟨yn.data, tn.niece0, tn.niece1⟩ ∧
      (∀ q, q ≠ bparsib → q ≠ .cell x → q ≠ .cell y → q ≠ .top t →
        ∀ n, p.read q = some n → p3.read q = some n) := by
  obtain ⟨bn, hbn⟩ := read_of_nieceAt p bparsib blr x hx
  have hcxy : Ptr.cell x ≠ Ptr.cell y := fun e => hxy (by injection e)
  have hcxt : Ptr.cell x ≠ Ptr.top t := fun e => by injection e
  have hcyt : Ptr.cell y ≠ Ptr.top t := fun e => by injection e
  -- the three niece assignments
  have a1x := read_setNieces_same p (.cell x) yn.niece0 yn.niece1 xn hxn
  have a1y : (p.setNieces (.cell x) yn.niece0 yn.niece1).read (.cell y) = some yn := by
    rw [read_setNieces_ne p _ _ _ _ hcxy]; exact hyn
  have a1t : (p.setNieces (.cell x) yn.niece0 yn.niece1).read (.top t) = some tn := by
    rw [read_setNieces_ne p _ _ _ _ hcxt]; exact htn
  have a2y := read_setNieces_same _ (.cell y) tn.niece0 tn.niece1 yn a1y
  have a2x : ((p.setNieces (.cell x) yn.niece0 yn.niece1).setNieces (.cell y) tn.niece0
      tn.niece1).read (.cell x) = some ⟨xn.data, yn.niece0, yn.niece1⟩ := by
    rw [read_setNieces_ne _ _ _ _ _ (Ne.symm hcxy)]; exact a1x
  have a2t : ((p.setNieces (.cell x) yn.niece0 yn.niece1).setNieces (.cell y) tn.niece0
      tn.niece1).read (.top t) = some tn := by
    rw [read_setNieces_ne _ _ _ _ _ hcyt]; exact a1t
  generalize hq2 : (p.setNieces (.cell x) yn.niece0 yn.niece1).setNieces (.cell y) tn.niece0
      tn.niece1 = p2 at a2y a2x a2t
  have hframe2 : ∀ q, q ≠ .cell x → q ≠ .cell y → p2.read q = p.read q := by
    intro q h1 h2
    rw [← hq2, read_setNieces_ne _ _ _ _ _ (Ne.symm h2), read_setNieces_ne _ _ _ _ _ (Ne.symm h1)]
  have hlen2 : p2.heap.length = p.heap.length := by
    rw [← hq2, heap_length_setNieces, heap_length_setNieces]
  have a3t := read_setNieces_same p2 (.top t) xn.niece0 xn.niece1 tn a2t
  have a3x : (p2.setNieces (.top t) xn.niece0 xn.niece1).read (.cell x)
      = some ⟨xn.data, yn.niece0, yn.niece1⟩ := by
    rw [read_setNieces_ne _ _ _ _ _ (Ne.symm hcxt)]; exact a2x
  have a3y : (p2.setNieces (.top t) xn.niece0 xn.niece1).read (.cell y)
      = some ⟨yn.data, tn.niece0, tn.niece1⟩ := by
    rw [read_setNieces_ne _ _ _ _ _ (Ne.symm hcyt)]; exact a2y
  generalize hq3 : p2.setNieces (.top t) xn.niece0 xn.niece1 = p3 at a3t a3x a3y
  have hframe3 : ∀ q, q ≠ .cell x → q ≠ .cell y → q ≠ .top t → p3.read q = p.read q := by
    intro q h1 h2 h3
    rw [← hq3, read_setNieces_ne _ _ _ _ _ (Ne.symm h3)]
    exact hframe2 q h1 h2
  have hlen3 : p3.heap.length = p.heap.length := by
    rw [← hq3, heap_length_setNieces, hlen2]
  have hb3 : p3.read bparsib = p.read bparsib := hframe3 _ hbx hby hbt
  have hn3 : ∀ k, p3.nieceAt bparsib k = p.nieceAt bparsib k :=
    fun k => nieceAt_congr _ _ _ _ hb3
  -- the exchange through the stash
  have b4t := read_write_same p3 (.top t) ⟨xn.data, yn.niece0, yn.niece1⟩ _ a3t
  have hframe4 : ∀ q, q ≠ .top t →
      (p3.write (.top t) ⟨xn.data, yn.niece0, yn.niece1⟩).read q = p3.read q :=
    fun q h => read_write_ne p3 _ q _ (Ne.symm h)
  have hlen4 : (p3.write (.top t) ⟨xn.data, yn.niece0, yn.niece1⟩).heap.length
      = p.heap.length := by rw [heap_length_write, hlen3]
  generalize hq4 : p3.write (.top t) ⟨xn.data, yn.niece0, yn.niece1⟩ = p4
    at b4t hframe4 hlen4
  have hb4 : p4.read bparsib = some bn := by rw [hframe4 _ hbt, hb3, hbn]
  have hb5 : (p4.alloc ⟨tn.data, xn.niece0, xn.niece1⟩).1.read bparsib = some bn :=
    read_alloc p4 _ _ _ hb4
  have hnew : bparsib ≠ .cell p4.heap.length := read_ne_new_cell p4 _ _ hb4
  have hfin : topSwap p t bparsib blr =
      ((p4.alloc ⟨tn.data, xn.niece0, xn.niece1⟩).1.setNieceAt bparsib blr
        (some p4.heap.length), none) := by
    unfold topSwap
    rw [hy, hx]
    simp only [hxn, hyn, htn, hq2, hq3, a3t, hn3, hx, a3x, hq4]
    rfl
  refine ⟨_, hfin, ?_, ?_, ?_, ?_, ?_, ?_⟩
  · rw [read_setNieceAt_ne _ _ _ _ _ hbt]
    exact read_alloc p4 _ _ _ b4t
  · rw [nieceAt_setNieceAt_same _ _ _ _ bn hb5, hlen4]
  · rw [read_setNieceAt_ne _ _ _ _ _ (hlen4 ▸ hnew), ← hlen4]
    exact read_alloc_new p4 _
  · have := nieceAt_setNieceAt_other (p4.alloc ⟨tn.data, xn.niece0, xn.niece1⟩).1 bparsib
      (blr ^^^ 1) (some p4.heap.length) (xor_one_lt_two blr hlb)
    rw [xor_one_xor_one] at this
    rw [this]
    have e5 : (p4.alloc ⟨tn.data, xn.niece0, xn.niece1⟩).1.read bparsib = p.read bparsib := by
      rw [hb5, hbn]
    rw [nieceAt_congr _ _ _ _ e5, hy]
  · rw [read_setNieceAt_ne _ _ _ _ _ hby]
    refine read_alloc p4 _ _ _ ?_
    rw [hframe4 _ hcyt]; exact a3y
  · intro q h1 h2 h3 h4 n hn
    rw [read_setNieceAt_ne _ _ _ _ _ (Ne.symm h1)]
    refine read_alloc p4 _ _ _ ?_
    rw [hframe4 _ h4, hframe3 _ h2 h3 h4]; exact hn

theorem grabPos2_at_root (L : Layout) (p : Pollard) (pos t bits : Nat)
    (hdo : L.detectOffset pos p.numLeaves = (t, 0, bits)) (ht : t < p.tops.length % 256) :
    grabPos2 L p pos = (p, .ok ⟨none, none, t⟩) := by
  unfold grabPos2
  rw [hdo]
  simp [Nat.not_le.mpr ht]

/-- C14: for every arrow whose `from` is a root (the top `t`) and whose `to` is a non-root
position of another tree, with both nieces of the parent-sibling of `to` present (the
four nodes involved being distinct nodes off the descent path of `to`), `swapNodes`
succeeds and afterwards the root slot holds the former hash of `to` with the former nieces
of the sibling of `to` (the former children of `to`), position `to` holds the former
root's hash with the nieces formerly held by the node at `to`, and the sibling of `to`
holds the former nieces of the root (the root's children). -/
theorem top_swap_exchanges (L : Layout) (p : Pollard) (r : arrow) (t bitsA : Nat)
    (pathB : List Ptr) (bparsib : Ptr) (blr x y : Nat) (xn yn tn : polNode)
    (hinA : L.inForest r.from_ p.numLeaves (L.height p.numLeaves) = true)
    (hinB : L.inForest r.to_ p.numLeaves (L.height p.numLeaves) = true)
    (hfrom : L.detectOffset r.from_ p.numLeaves = (t, 0, bitsA))
    (ht : t < p.tops.length % 256)
    (hto : locate L p r.to_ = some (pathB, bparsib, blr))
    (hx : p.nieceAt bparsib blr = some x) (hy : p.nieceAt bparsib (blr ^^^ 1) = some y)
    (hxn : p.read (.cell x) = some xn) (hyn : p.read (.cell y) = some yn)
    (htn : p.read (.top t) = some tn)
    (hxy : x ≠ y) (hbx : bparsib ≠ .cell x) (hby : bparsib ≠ .cell y)
    (hbt : bparsib ≠ .top t)
    (hoff : ∀ q ∈ pathB, q ≠ bparsib ∧ q ≠ .cell x ∧ q ≠ .cell y ∧ q ≠ .top t) :
    nodeAt L p r.to_ = some xn ∧ sibNodeAt L p r.to_ = some yn ∧
    ∃ p3 bpar, swapNodes L p r = (p3, .ok ⟨some bpar, some bparsib⟩) ∧
      p3.read (.top t) = some ⟨xn.data, yn.niece0, yn.niece1⟩ ∧
      nodeAt L p3 r.to_ = some ⟨tn.data, xn.niece0, xn.niece1⟩ ∧
      sibNodeAt L p3 r.to_ = some ⟨yn.data, tn.niece0, tn.niece1⟩ := by
  have hlb : blr < 2 := by
    rw [locate_lr L p _ _ _ _ hto]; exact Nat.mod_lt _ (by decide)
  have hga := grabPos2_at_root L p r.from_ t bitsA hfrom ht
  obtain ⟨p2, bpar, hgb, g2, u2, _⟩ := grabPos2_locate L p r.to_ pathB bparsib blr hto
  have hnot : ∀ q, (q ≠ bparsib ∧ q ≠ .cell x ∧ q ≠ .cell y ∧ q ≠ .top t → False) →
      q ∉ pathB := fun q hq hmem => hq (hoff q hmem)
  obtain ⟨bn, hbn⟩ := read_of_nieceAt p bparsib blr x hx
  have hb2 : p2.read bparsib = p.read bparsib := by
    rw [hbn]; exact u2 _ (hnot _ (fun h => h.1 rfl)) _ hbn
  have hxn2 : p2.read (.cell x) = some xn := u2 _ (hnot _ (fun h => h.2.1 rfl)) _ hxn
  have hyn2 : p2.read (.cell y) = some yn := u2 _ (hnot _ (fun h => h.2.2.1 rfl)) _ hyn
  have htn2 : p2.read (.top t) = some tn := u2 _ (hnot _ (fun h => h.2.2.2 rfl)) _ htn
  have hx2 : p2.nieceAt bparsib blr = some x := by rw [nieceAt_congr _ _ _ _ hb2, hx]
  have hy2 : p2.nieceAt bparsib (blr ^^^ 1) = some y := by rw [nieceAt_congr _ _ _ _ hb2, hy]
  obtain ⟨p3, htop, e1, e2, e3, e4, e5, e6⟩ :=
    topSwap_effect p2 t bparsib blr x y xn yn tn hlb hx2 hy2 hxn2 hyn2 htn2 hxy hbx hby hbt
  have hboth : (p3.nieceAt bparsib 0).isSome ∧ (p3.nieceAt bparsib 1).isSome := by
    have h1 : (p3.nieceAt bparsib blr).isSome := by rw [e2]; rfl
    have h2 : (p3.nieceAt bparsib (blr ^^^ 1)).isSome := by rw [e4]; rfl
    interval_cases blr
    · exact ⟨h1, h2⟩
    · exact ⟨h2, h1⟩
  have hswap : swapNodes L p r = (p3, .ok ⟨some bpar, some bparsib⟩) := by
    unfold swapNodes
    simp only [hinA, hinB, Bool.not_true, Bool.or_self, Bool.false_eq_true, ↓reduceIte, hga,
      hgb, htop]
    have n0 : p3.nieceAt bparsib 0 ≠ none := Option.isSome_iff_ne_none.mp hboth.1
    have n1 : p3.nieceAt bparsib 1 ≠ none := Option.isSome_iff_ne_none.mp hboth.2
    simp [n0, n1]
  have hloc2 : locate L p2 r.to_ = some (pathB, bparsib, blr) := locate_grows L g2 _ _ hto
  have hshape : p2.sameShape p3 := by
    have := topSwap_sameShape p2 t bparsib blr
    rw [htop] at this
    exact this
  have hloc3 : locate L p3 r.to_ = some (pathB, bparsib, blr) := by
    refine locate_congr L p2 p3 _ _ _ _ hshape hloc2 ?_
    intro q hq
    obtain ⟨n, hn0⟩ := Option.isSome_iff_exists.mp (locate_readable L p2 _ _ _ _ hloc2 q hq)
    obtain ⟨h1, h2, h3, h4⟩ := hoff q hq
    rw [hn0]
    exact e6 q h1 h2 h3 h4 n hn0
  refine ⟨nodeAt_of_locate L p _ _ _ _ x xn hto hx hxn,
    sibNodeAt_of_locate L p _ _ _ _ y yn hto hy hyn, p3, bpar, hswap, e1, ?_, ?_⟩
  · exact nodeAt_of_locate L p3 _ _ _ _ _ _ hloc3 e2 e3
  · exact sibNodeAt_of_locate L p3 _ _ _ _ _ _ hloc3 e4 e5

/-- Witness for `top_swap_exchanges`: on the three-leaf pollard (tops 35 and 7) the arrow
`(2, 0)` moves the single-leaf root 7 to position 0 and the leaf 5 into the root slot. -/
theorem top_swap_exchanges_witness :
    ∃ p3 bpar, swapNodes (specLayout exParent) exThree ⟨2, 0⟩ =
        (p3, .ok ⟨some bpar, some (.top 0)⟩) ∧
      p3.read (.top 1) = some ⟨5, some 0, none⟩ ∧
      nodeAt (specLayout exParent) p3 0 = some ⟨7, some 1, none⟩ ∧
      sibNodeAt (specLayout exParent) p3 0 = some ⟨6, some 4, none⟩ :=
  (top_swap_exchanges (specLayout exParent) exThree ⟨2, 0⟩ 1 (u64 - 1) [] (.top 0) 0 2 1
    ⟨5, some 1, none⟩ ⟨6, some 0, none⟩ ⟨7, some 4, none⟩
    (by decide) (by decide) (by decide) (by decide) (by decide) (by decide) (by decide)
    (by decide) (by decide) (by decide) (by decide) (by decide) (by decide) (by decide)
    (by simp)).2.2

/-! ## A swap into a root -/

theorem grabPos2_numLeaves_tops (L : Layout) (p : Pollard) (pos : Nat) :
    (grabPos2 L p pos).1.numLeaves = p.numLeaves ∧
    (grabPos2 L p pos).1.tops.length = p.tops.length := by
  have h := grabPos2_sameShape L p pos
  exact ⟨h.1, h.2.1⟩

/-- C15 (as amended): a swap whose destination is a root is not supported.  For every
pollard and arrow `(from, to)` with `to` a root (its branch length is 0), `swapNodes`
never returns a hashable node; when both positions are inside the forest, the descent to
`from` succeeds and the tree index of `to` is below the number of tops, it panics with
"why yes it can" and leaves the pollard as the descent to `from` left it. -/
theorem swapNodes_root_destination_fails (L : Layout) (p : Pollard) (r : arrow)
    (t bits : Nat) (hto : L.detectOffset r.to_ p.numLeaves = (t, 0, bits)) :
    (∀ p3 hn, swapNodes L p r ≠ (p3, .ok hn)) ∧
    (L.inForest r.from_ p.numLeaves (L.height p.numLeaves) = true →
      L.inForest r.to_ p.numLeaves (L.height p.numLeaves) = true →
      t < p.tops.length % 256 →
      ∀ p1 a, grabPos2 L p r.from_ = (p1, .ok a) →
        swapNodes L p r = (p1, .error .panicWhyYes)) := by
  have hgrab : ∀ p1 : Pollard, p1.numLeaves = p.numLeaves →
      p1.tops.length = p.tops.length →
      grabPos2 L p1 r.to_ = (p1, .error .grab2NotInForest) ∨
      grabPos2 L p1 r.to_ = (p1, .ok ⟨none, none, t⟩) := by
    intro p1 h1 h2
    unfold grabPos2
    rw [h1, hto, h2]
    by_cases hc : t ≥ p.tops.length % 256
    · left; simp [hc]
    · right; simp [hc]
  constructor
  · intro p3 hn hs
    unfold swapNodes at hs
    split at hs
    · simp at hs
    · cases hga : grabPos2 L p r.from_ with
      | mk p1 ra =>
        have hsh := grabPos2_numLeaves_tops L p r.from_
        rw [hga] at hsh hs
        cases ra with
        | error e => simp at hs
        | ok a =>
          simp only at hs
          rcases hgrab p1 hsh.1 hsh.2 with h | h
          · rw [h] at hs; simp at hs
          · rw [h] at hs; simp at hs
  · intro hinA hinB ht p1 a hga
    have hsh := grabPos2_numLeaves_tops L p r.from_
    rw [hga] at hsh
    have hgb : grabPos2 L p1 r.to_ = (p1, .ok ⟨none, none, t⟩) := by
      apply grabPos2_at_root L p1 r.to_ t bits
      · rw [hsh.1]; exact hto
      · rw [hsh.2]; exact ht
    unfold swapNodes
    simp only [hinA, hinB, Bool.not_true, Bool.or_self, Bool.false_eq_true, ↓reduceIte, hga, hgb]

/-- Witness for `swapNodes_root_destination_fails`: the arrow `(1, 2)` on the three-leaf
pollard, whose position 2 is the root of the single-leaf tree. -/
theorem swapNodes_root_destination_fails_witness :
    swapNodes (specLayout exParent) exThree ⟨1, 2⟩ = (exThree, .error .panicWhyYes) :=
  (swapNodes_root_destination_fails (specLayout exParent) exThree ⟨1, 2⟩ 1 (u64 - 1)
    (by decide)).2 (by decide) (by decide) (by decide) exThree
    ⟨some (.top 0), some (.top 0), 1⟩ rfl

/-- C15 (as stated) fails: on the three-leaf pollard both positions of the arrow `(1, 2)`
are inside the forest and `to = 2` is a root, and `swapNodes` does not return a hashable
node (it panics). -/
theorem swap_into_root_counterexample :
    ¬ (∀ (p : Pollard) (r : arrow) (t bits : Nat),
        specInForest r.from_ p.numLeaves (specHeight p.numLeaves) = true →
        specInForest r.to_ p.numLeaves (specHeight p.numLeaves) = true →
        specDetectOffset r.to_ p.numLeaves = (t, 0, bits) →
        ∃ p3 hn, swapNodes (specLayout exParent) p r = (p3, .ok hn)) := by
  intro h
  obtain ⟨p3, hn, hs⟩ := h exThree ⟨1, 2⟩ 1 (u64 - 1) (by decide) (by decide) (by decide)
  have hp : swapNodes (specLayout exParent) exThree ⟨1, 2⟩ = (exThree, .error .panicWhyYes) :=
    rfl
  rw [hp] at hs
  simp at hs

/-! ## Niece pointers never dangle -/

theorem niece_cases (n : polNode) (k v : Nat) (h : n.niece k = some v) :
    n.niece0 = some v ∨ n.niece1 = some v := by
  unfold polNode.niece at h
  split at h
  · exact Or.inl h
  · exact Or.inr h

theorem niece_mk (d : Hash) (a b : Option Nat) (k v : Nat)
    (h : (polNode.mk d a b).niece k = some v) : a = some v ∨ b = some v :=
  niece_cases _ k v h

theorem closed_bound (p : Pollard) (hc : p.closed) (q : Ptr) (n : polNode)
    (hr : p.read q = some n) :
    (∀ v, n.niece0 = some v → v < p.heap.length) ∧
    (∀ v, n.niece1 = some v → v < p.heap.length) :=
  ⟨fun v hv => hc q n 0 v hr (by simpa [polNode.niece] using hv),
   fun v hv => hc q n 1 v hr (by simpa [polNode.niece] using hv)⟩

theorem read_write_cases (p : Pollard) (q x : Ptr) (n m : polNode)
    (h : (p.write q n).read x = some m) : m = n ∨ p.read x = some m := by
  by_cases hx : q = x
  · subst hx
    cases hr : p.read q with
    | none =>
      exfalso
      cases q with
      | top i =>
        simp only [Pollard.read, Pollard.write, List.get?_eq_getElem?] at h hr
        rw [List.getElem?_eq_none_iff] at hr
        have := (List.getElem?_eq_some_iff.mp h).1
        simp at this
        omega
      | cell a =>
        simp only [Pollard.read, Pollard.write, deref, store, List.get?_eq_getElem?] at h hr
        rw [List.getElem?_eq_none_iff] at hr
        have := (List.getElem?_eq_some_iff.mp h).1
        simp at this
        omega
    | some m0 =>
      rw [read_write_same p q n m0 hr] at h
      simp only [Option.some.injEq] at h
      exact Or.inl h.symm
  · rw [read_write_ne p q x n hx] at h
    exact Or.inr h

theorem closed_write (p : Pollard) (hc : p.closed) (q : Ptr) (n : polNode)
    (hn : ∀ k v, n.niece k = some v → v < p.heap.length) : (p.write q n).closed := by
  intro x m k v hr hv
  rw [heap_length_write]
  rcases read_write_cases p q x n m hr with h | h
  · subst h; exact hn k v hv
  · exact hc x m k v h hv

theorem closed_setNieces (p : Pollard) (hc : p.closed) (q : Ptr) (a b : Option Nat)
    (ha : ∀ v, a = some v → v < p.heap.length) (hb : ∀ v, b = some v → v < p.heap.length) :
    (p.setNieces q a b).closed := by
  unfold Pollard.setNieces
  cases hr : p.read q with
  | none => exact hc
  | some m =>
    refine closed_write p hc q _ ?_
    intro k v hv
    rcases niece_mk _ _ _ k v hv with h | h
    · exact ha v h
    · exact hb v h

theorem niece_setNiece_cases (n : polNode) (lr : Nat) (w : Option Nat) (k v : Nat)
    (h : (n.setNiece lr w).niece k = some v) : w = some v ∨ n.niece0 = some v ∨
      n.niece1 = some v := by
  unfold polNode.setNiece at h
  split at h
  · rcases niece_cases _ k v h with h1 | h1
    · exact Or.inl h1
    · exact Or.inr (Or.inr h1)
  · rcases niece_cases _ k v h with h1 | h1
    · exact Or.inr (Or.inl h1)
    · exact Or.inl h1

theorem closed_setNieceAt (p : Pollard) (hc : p.closed) (q : Ptr) (lr : Nat) (w : Option Nat)
    (hw : ∀ v, w = some v → v < p.heap.length) : (p.setNieceAt q lr w).closed := by
  unfold Pollard.setNieceAt
  cases hr : p.read q with
  | none => exact hc
  | some m =>
    refine closed_write p hc q _ ?_
    intro k v hv
    have hb := closed_bound p hc q m hr
    rcases niece_setNiece_cases m lr w k v hv with h | h | h
    · exact hw v h
    · exact hb.1 v h
    · exact hb.2 v h

theorem read_alloc_cases (p : Pollard) (m : polNode) (x : Ptr) (n : polNode)
    (h : (p.alloc m).1.read x = some n) : n = m ∨ p.read x = some n := by
  cases x with
  | top i => right; simpa [Pollard.read, Pollard.alloc] using h
  | cell a =>
    simp only [Pollard.read, Pollard.alloc, deref, List.get?_eq_getElem?] at h ⊢
    by_cases ha : a < p.heap.length
    · right
      rw [List.getElem?_append_left ha] at h
      exact h
    · left
      rw [List.getElem?_append_right (Nat.le_of_not_lt ha)] at h
      have := List.getElem?_eq_some_iff.mp h
      obtain ⟨h1, h2⟩ := this
      simp at h1
      simpa [h1] using h2.symm

theorem closed_alloc (p : Pollard) (hc : p.closed) (m : polNode)
    (hm : ∀ k v, m.niece k = some v → v < p.heap.length + 1) : (p.alloc m).1.closed := by
  intro x n k v hr hv
  have hl : (p.alloc m).1.heap.length = p.heap.length + 1 := by simp [Pollard.alloc]
  rw [hl]
  rcases read_alloc_cases p m x n hr with h | h
  · subst h; exact hm k v hv
  · exact Nat.lt_succ_of_lt (hc x n k v h hv)

theorem nieceAt_bound (p : Pollard) (hc : p.closed) (q : Ptr) (k v : Nat)
    (h : p.nieceAt q k = some v) : v < p.heap.length := by
  unfold Pollard.nieceAt at h
  cases hr : p.read q with
  | none => rw [hr] at h; simp at h
  | some n => rw [hr] at h; exact hc q n k v hr h

theorem closed_materialize (p : Pollard) (hc : p.closed) (q : Ptr) (k : Nat) :
    ((p.alloc polNode.zero).1.setNieceAt q k (some p.heap.length)).closed := by
  have h1 : (p.alloc polNode.zero).1.closed :=
    closed_alloc p hc _ (fun k v hv => by simp [polNode.zero, polNode.niece] at hv)
  refine closed_setNieceAt _ h1 q k _ ?_
  intro v hv
  simp only [Option.some.injEq] at hv
  subst hv
  simp [Pollard.alloc]

theorem grabPos2Loop_closed (bits : Nat) :
    ∀ (h : Nat) (p : Pollard) (par parsib : Ptr), p.closed →
      (grabPos2Loop bits h p par parsib).1.closed := by
  intro h
  induction h with
  | zero => intro p par parsib hc; simpa [grabPos2Loop] using hc
  | succ h ih =>
    intro p par parsib hc
    unfold grabPos2Loop
    simp only
    split
    · exact hc
    · rename_i ps _
      have hc1 : (match ps.niece ((bits >>> (h + 1)) % 2 ^^^ 1) with
          | none => (p.alloc polNode.zero).1.setNieceAt parsib ((bits >>> (h + 1)) % 2 ^^^ 1)
              (some p.heap.length)
          | some _ => p).closed := by
        split
        · exact closed_materialize p hc _ _
        · exact hc
      split
      · exact ih _ _ _ hc1
      · exact hc1
      · exact hc1

theorem grabPos2_closed (L : Layout) (p : Pollard) (pos : Nat) (hc : p.closed) :
    (grabPos2 L p pos).1.closed := by
  unfold grabPos2
  split
  rename_i tree branchLen bits _
  split
  · exact hc
  · split
    · exact hc
    · have := grabPos2Loop_closed bits (branchLen - 1) p (.top tree) (.top tree) hc
      split
      · rename_i h; rw [h] at this; exact this
      · rename_i h; rw [h] at this; exact this

theorem normalSwap_closed (p : Pollard) (hc : p.closed) (r : arrow) (aparsib : Ptr)
    (alr : Nat) (bparsib : Ptr) (blr : Nat) :
    (normalSwap p r aparsib alr bparsib blr).1.closed := by
  unfold normalSwap
  simp only
  have hstep : (if r.from_ ≠ r.to_ ^^^ 1 then
      match p.nieceAt aparsib (alr ^^^ 1), p.nieceAt bparsib (blr ^^^ 1) with
      | some x, some y =>
        match p.read (.cell x), p.read (.cell y) with
        | some xn, some yn =>
          ((p.setNieces (.cell x) yn.niece0 yn.niece1).setNieces (.cell y) xn.niece0 xn.niece1,
            (none : Option Err))
        | _, _ => (p, some .panicNil)
      | _, _ => (p, some .panicNil)
    else (p, none)).1.closed := by
    split
    · split
      · split
        · rename_i x y _ _ _ _ xn yn hx hy
          have bx := closed_bound p hc _ xn hx
          have bY := closed_bound p hc _ yn hy
          have c1 := closed_setNieces p hc (.cell x) yn.niece0 yn.niece1 bY.1 bY.2
          refine closed_setNieces _ c1 (.cell y) _ _ ?_ ?_
          · intro v hv; rw [heap_length_setNieces]; exact bx.1 v hv
          · intro v hv; rw [heap_length_setNieces]; exact bx.2 v hv
        · exact hc
      · exact hc
    · exact hc
  split
  · rename_i p1 _ h
    have e := congrArg Prod.fst h
    simp only at e
    rw [← e]; exact hstep
  · rename_i p1 h
    have e := congrArg Prod.fst h
    simp only at e
    have hstep : p1.closed := by rw [← e]; exact hstep
    have c1 := closed_setNieceAt p1 hstep aparsib alr (p1.nieceAt bparsib blr)
      (fun v hv => nieceAt_bound p1 hstep _ _ v hv)
    refine closed_setNieceAt _ c1 bparsib blr _ ?_
    intro v hv
    rw [heap_length_setNieceAt]
    exact nieceAt_bound p1 hstep _ _ v hv

theorem topSwap_closed (p : Pollard) (hc : p.closed) (alr : Nat) (bparsib : Ptr)
    (blr : Nat) : (topSwap p alr bparsib blr).1.closed := by
  have h3 : ∀ (x y : Nat) (xn yn tn : polNode), p.read (.cell x) = some xn →
      p.read (.cell y) = some yn → p.read (.top alr) = some tn →
      (((p.setNieces (.cell x) yn.niece0 yn.niece1).setNieces (.cell y) tn.niece0
        tn.niece1).setNieces (.top alr) xn.niece0 xn.niece1).closed := by
    intro x y xn yn tn hx hy ht
    have bx := closed_bound p hc _ xn hx
    have bY := closed_bound p hc _ yn hy
    have bt := closed_bound p hc _ tn ht
    have c1 := closed_setNieces p hc (.cell x) yn.niece0 yn.niece1 bY.1 bY.2
    have c2 := closed_setNieces _ c1 (.cell y) tn.niece0 tn.niece1
      (fun v hv => by rw [heap_length_setNieces]; exact bt.1 v hv)
      (fun v hv => by rw [heap_length_setNieces]; exact bt.2 v hv)
    exact closed_setNieces _ c2 (.top alr) xn.niece0 xn.niece1
      (fun v hv => by rw [heap_length_setNieces, heap_length_setNieces]; exact bx.1 v hv)
      (fun v hv => by rw [heap_length_setNieces, heap_length_setNieces]; exact bx.2 v hv)
  unfold topSwap
  split
  · split
    · rename_i x y _ _ xn yn tn hx hy ht
      have c3 := h3 _ _ xn yn tn hx hy ht
      simp only
      split
      · rename_i stash x2 hst _
        split
        · rename_i x2n hx2
          have c4 : ((((p.setNieces (.cell _) yn.niece0 yn.niece1).setNieces (.cell _)
              tn.niece0 tn.niece1).setNieces (.top alr) xn.niece0 xn.niece1).write
              (.top alr) x2n).closed :=
            closed_write _ c3 _ _ (fun k v hv => c3 _ x2n k v hx2 hv)
          have c5 := closed_alloc _ c4 stash (fun k v hv => by
            rw [heap_length_write]
            exact Nat.lt_succ_of_lt (c3 _ stash k v hst hv))
          refine closed_setNieceAt _ c5 bparsib blr _ ?_
          intro v hv
          simp only [Option.some.injEq] at hv
          subst hv
          simp [Pollard.alloc]
        · exact c3
      · exact c3
    · exact hc
  · exact hc

theorem swapNodes_closed (L : Layout) (p : Pollard) (r : arrow) (hc : p.closed) :
    (swapNodes L p r).1.closed := by
  unfold swapNodes
  split
  · exact hc
  · have c1 := grabPos2_closed L p r.from_ hc
    split
    · rename_i h; rw [h] at c1; exact c1
    · rename_i p1 a h
      rw [h] at c1
      have c2 := grabPos2_closed L p1 r.to_ c1
      split
      · rename_i h2; rw [h2] at c2; exact c2
      · rename_i p2 b h2
        rw [h2] at c2
        split
        · exact c2
        · exact c2
        · rename_i bpar bparsib _ _
          simp only
          have c3 : (match a.par, a.parsib with
              | none, _ => topSwap p2 a.lr bparsib b.lr
              | some _, none => (p2, some .panicNil)
              | some _, some aparsib => normalSwap p2 r aparsib a.lr bparsib b.lr).1.closed := by
            split
            · exact topSwap_closed p2 c2 _ _ _
            · exact c2
            · exact normalSwap_closed p2 c2 _ _ _ _ _
          split
          · rename_i p3 _ h3
            have e := congrArg Prod.fst h3
            simp only at e
            show p3.closed
            rw [← e]; exact c3
          · rename_i p3 h3
            have e := congrArg Prod.fst h3
            simp only at e
            have c4 : p3.closed := by rw [← e]; exact c3
            split
            · exact c4
            · exact c4

/-- A check of `closed` that can be evaluated on a concrete pollard. -/
theorem closed_of_all (p : Pollard)
    (h : (p.tops ++ p.heap).all (fun n =>
      (n.niece0.all fun v => decide (v < p.heap.length)) &&
      (n.niece1.all fun v => decide (v < p.heap.length))) = true) : p.closed := by
  intro q n k v hr hv
  have hmem : n ∈ p.tops ++ p.heap := by
    cases q with
    | top i =>
      simp only [Pollard.read, List.get?_eq_getElem?] at hr
      exact List.mem_append_left _ (List.getElem?_mem hr)
    | cell a =>
      simp only [Pollard.read, deref, List.get?_eq_getElem?] at hr
      exact List.mem_append_right _ (List.getElem?_mem hr)
  have hn := List.all_eq_true.mp h n hmem
  simp only [Bool.and_eq_true] at hn
  rcases niece_cases n k v hv with h0 | h1
  · have := hn.1
    rw [h0] at this
    simpa using this
  · have := hn.2
    rw [h1] at this
    simpa using this

theorem nieceData_isSome (p : Pollard) (hc : p.closed) (q : Ptr) (k : Nat)
    (h : (p.nieceAt q k).isSome) : (p.nieceData q k).isSome := by
  obtain ⟨v, hv⟩ := Option.isSome_iff_exists.mp h
  have hb := nieceAt_bound p hc q k v hv
  unfold Pollard.nieceData
  rw [hv]
  simp [deref, List.get?_eq_getElem?, List.getElem?_eq_getElem hb]

/-- What a successful `swapNodes` went through: two descents, a branch that did not fail,
and the final check of both nieces of `bparsib`. -/
theorem swapNodes_ok_inv (L : Layout) (p p3 : Pollard) (r : arrow) (hn : hashableNode)
    (hs : swapNodes L p r = (p3, .ok hn)) :
    ∃ p1 p2 a bpar bparsib blr,
      grabPos2 L p r.from_ = (p1, .ok a) ∧
      grabPos2 L p1 r.to_ = (p2, .ok ⟨some bpar, some bparsib, blr⟩) ∧
      hn = ⟨some bpar, some bparsib⟩ ∧
      (p3.nieceAt bparsib 0).isSome ∧ (p3.nieceAt bparsib 1).isSome := by
  unfold swapNodes at hs
  split at hs
  · simp at hs
  · split at hs
    · simp at hs
    · rename_i p1 a hga
      split at hs
      · simp at hs
      · rename_i p2 b hgb
        split at hs
        · simp at hs
        · simp at hs
        · rename_i bpar bparsib hbp hbs
          simp only at hs
          split at hs
          · simp at hs
          · split at hs
            · simp at hs
            · rename_i hnil
              simp only [Prod.mk.injEq, Except.ok.injEq] at hs
              obtain ⟨rfl, rfl⟩ := hs
              simp only [Bool.or_eq_true, not_or, Bool.not_eq_true,
                Option.isNone_eq_false_iff] at hnil
              refine ⟨p1, p2, a, bpar, bparsib, b.lr, hga, ?_, rfl, hnil.1, hnil.2⟩
              rw [hgb]
              obtain ⟨bp, bs, bl⟩ := b
              simp only at hbp hbs
              rw [hbp, hbs]

/-- C16: whenever `swapNodes(from, to)` returns without error, the returned handle has as
`dest` the parent of `to` and as `sib` that parent's sibling, as located by `grabPos2(to)`
(run after the descent to `from`), both nieces of `sib` are non-nil, and, in a pollard
whose pointers do not dangle, the reads `hn.sib.niece[0].data` and `hn.sib.niece[1].data`
of `rem2` find a node. -/
theorem swapNodes_hashable_node_usable (L : Layout) (p p3 : Pollard) (r : arrow)
    (hn : hashableNode) (hc : p.closed) (hs : swapNodes L p r = (p3, .ok hn)) :
    ∃ p1 p2 a bpar bparsib blr,
      grabPos2 L p r.from_ = (p1, .ok a) ∧
      grabPos2 L p1 r.to_ = (p2, .ok ⟨some bpar, some bparsib, blr⟩) ∧
      hn.dest = some bpar ∧ hn.sib = some bparsib ∧
      (p3.nieceAt bparsib 0).isSome ∧ (p3.nieceAt bparsib 1).isSome ∧
      (p3.nieceData bparsib 0).isSome ∧ (p3.nieceData bparsib 1).isSome := by
  obtain ⟨p1, p2, a, bpar, bparsib, blr, hga, hgb, rfl, h0, h1⟩ :=
    swapNodes_ok_inv L p p3 r hn hs
  have hc3 : p3.closed := by
    have := swapNodes_closed L p r hc
    rw [hs] at this
    exact this
  exact ⟨p1, p2, a, bpar, bparsib, blr, hga, hgb, rfl, rfl, h0, h1,
    nieceData_isSome p3 hc3 _ _ h0, nieceData_isSome p3 hc3 _ _ h1⟩

/-- Witness for `swapNodes_hashable_node_usable`: the arrow `(2, 0)` on the four-leaf
pollard. -/
theorem swapNodes_hashable_node_usable_witness :
    ∃ p1 p2 a bpar bparsib blr,
      grabPos2 (specLayout exParent) exFour 2 = (p1, .ok a) ∧
      grabPos2 (specLayout exParent) p1 0 = (p2, .ok ⟨some bpar, some bparsib, blr⟩) ∧
      (hashableNode.mk (some (.cell 8)) (some (.cell 7))).dest = some bpar ∧
      (hashableNode.mk (some (.cell 8)) (some (.cell 7))).sib = some bparsib ∧
      ((swapNodes (specLayout exParent) exFour ⟨2, 0⟩).1.nieceAt bparsib 0).isSome ∧
      ((swapNodes (specLayout exParent) exFour ⟨2, 0⟩).1.nieceAt bparsib 1).isSome ∧
      ((swapNodes (specLayout exParent) exFour ⟨2, 0⟩).1.nieceData bparsib 0).isSome ∧
      ((swapNodes (specLayout exParent) exFour ⟨2, 0⟩).1.nieceData bparsib 1).isSome :=
  swapNodes_hashable_node_usable (specLayout exParent) exFour
    (swapNodes (specLayout exParent) exFour ⟨2, 0⟩).1 ⟨2, 0⟩
    ⟨some (.cell 8), some (.cell 7)⟩ (closed_of_all exFour (by decide)) rfl

/-! ## Deferred materialization in `grabPos2` -/

/-- C17 (as amended): for every pollard and every non-root position whose tree is one of
the tops, if every node on the parent-sibling side of the descent is present (the lookup
`locate` finds the slot of the position), `grabPos2` returns a parent and that
parent-sibling without failing; every node that was there keeps its hash and its non-nil
nieces, nodes off the descent path are unchanged, and every node it creates (the missing
parent-side nodes `parsib.niece[lr^1]`) is created empty. -/
theorem grabPos2_materializes_parent_side (L : Layout) (p : Pollard) (pos : Nat)
    (path : List Ptr) (parsib : Ptr) (lr : Nat)
    (h : locate L p pos = some (path, parsib, lr)) :
    ∃ p1 par, grabPos2 L p pos = (p1, .ok ⟨some par, some parsib, lr⟩) ∧
      lr = pos % 2 ∧ p.grows p1 ∧ unchangedOff path p p1 ∧ createdEmpty p p1 := by
  obtain ⟨p1, par, hg, g, u, c⟩ := grabPos2_locate L p pos path parsib lr h
  exact ⟨p1, par, hg, locate_lr L p pos path parsib lr h, g, u, c⟩

/-- Witness for `grabPos2_materializes_parent_side`: in the four-leaf pollard that only
remembers leaf 0 the parent of position 0 is missing; `grabPos2(0)` creates it (heap cell
10, empty) and returns it with the parent-sibling (cell 7). -/
theorem grabPos2_materializes_parent_side_witness :
    ∃ p1 par, grabPos2 (specLayout exParent) exFourFirst 0 =
        (p1, .ok ⟨some par, some (.cell 7), 0⟩) ∧
      0 = 0 % 2 ∧ exFourFirst.grows p1 ∧ unchangedOff [.top 0] exFourFirst p1 ∧
      createdEmpty exFourFirst p1 :=
  grabPos2_materializes_parent_side (specLayout exParent) exFourFirst 0 [.top 0] (.cell 7) 0
    (by decide)

/-- C17 (as stated) fails: in the four-leaf pollard with nothing remembered, position 0 is
inside the forest and not a root, and `grabPos2(0)` does not return: it creates the parent
(heap cell 10) and then dereferences the missing parent-sibling. -/
theorem grabPos2_pruned_counterexample :
    ¬ (∀ (p : Pollard) (pos : Nat),
        specInForest pos p.numLeaves (specHeight p.numLeaves) = true →
        (specDetectOffset pos p.numLeaves).2.1 ≠ 0 →
        ∃ p1 g, grabPos2 (specLayout exParent) p pos = (p1, .ok g)) := by
  intro h
  obtain ⟨p1, g, hg⟩ := h exFourPruned 0 (by decide) (by decide)
  have hp : (grabPos2 (specLayout exParent) exFourPruned 0).2 = .error .panicNil := rfl
  rw [hg] at hp
  simp at hp

/-! ## `grabPos2` on roots, the low bit, and positions outside the tops -/

theorem grabPos2_out (L : Layout) (p : Pollard) (pos t bl bits : Nat)
    (hdo : L.detectOffset pos p.numLeaves = (t, bl, bits)) (ht : p.tops.length % 256 ≤ t) :
    grabPos2 L p pos = (p, .error .grab2NotInForest) := by
  unfold grabPos2
  rw [hdo]
  simp [ht]

theorem grabPos2_ok_nonroot (L : Layout) (p p1 : Pollard) (pos t bl bits : Nat) (g : Grab)
    (hdo : L.detectOffset pos p.numLeaves = (t, bl, bits)) (hbl : bl ≠ 0)
    (hg : grabPos2 L p pos = (p1, .ok g)) :
    g.par.isSome ∧ g.parsib.isSome ∧ g.lr = pos % 2 := by
  unfold grabPos2 at hg
  rw [hdo] at hg
  simp only at hg
  split at hg
  · simp at hg
  · split at hg
    · simp at hg
    · simp only [Prod.mk.injEq, Except.ok.injEq] at hg
      obtain ⟨_, rfl⟩ := hg
      exact ⟨rfl, rfl, rfl⟩

/-- C18: for every position that is the root of tree `t` with `t < len(tops)`, `grabPos2`
returns a nil parent, a nil parent-sibling, no error and `lr = t`, without modifying the
pollard; on a non-root position on which it returns without error, parent and
parent-sibling are non-nil and `lr = pos & 1`; and whenever the tree index is not below
`len(tops)` it returns an error without modifying the pollard.  The first part is for
pollards with fewer than 256 tops, as the range check reads `uint8(len(p.tops))`: a
pollard has one top per set bit of the 64-bit `numLeaves`, at most 64. -/
theorem grabPos2_roots_and_low_bit (L : Layout) (p : Pollard) (pos t bl bits : Nat)
    (hdo : L.detectOffset pos p.numLeaves = (t, bl, bits)) :
    (p.tops.length < 256 → bl = 0 → t < p.tops.length →
      grabPos2 L p pos = (p, .ok ⟨none, none, t⟩)) ∧
    (bl ≠ 0 → ∀ p1 g, grabPos2 L p pos = (p1, .ok g) →
      g.par.isSome ∧ g.parsib.isSome ∧ g.lr = pos % 2) ∧
    (p.tops.length ≤ t → grabPos2 L p pos = (p, .error .grab2NotInForest)) := by
  refine ⟨?_, ?_, ?_⟩
  · intro hlen hbl ht
    subst hbl
    exact grabPos2_at_root L p pos t bits hdo (by rw [Nat.mod_eq_of_lt hlen]; exact ht)
  · intro hbl p1 g hg
    exact grabPos2_ok_nonroot L p p1 pos t bl bits g hdo hbl hg
  · intro ht
    exact grabPos2_out L p pos t bl bits hdo (Nat.le_trans (Nat.mod_le _ _) ht)

/-- Witness for `grabPos2_roots_and_low_bit`: position 2 of the three-leaf pollard is the
root of tree 1, and position 0 is a non-root position on which `grabPos2` succeeds. -/
theorem grabPos2_roots_and_low_bit_witness :
    grabPos2 (specLayout exParent) exThree 2 = (exThree, .ok ⟨none, none, 1⟩) ∧
    ((some (Ptr.top 0)).isSome ∧ (some (Ptr.top 0)).isSome ∧ 0 = 0 % 2) ∧
    grabPos2 (specLayout exParent) exThree 5 = (exThree, .error .grab2NotInForest) :=
  ⟨(grabPos2_roots_and_low_bit (specLayout exParent) exThree 2 1 0 (u64 - 1)
      (by decide)).1 (by decide) rfl (by decide),
    (grabPos2_roots_and_low_bit (specLayout exParent) exThree 0 0 1 (u64 - 1)
      (by decide)).2.1 (by decide) exThree ⟨some (.top 0), some (.top 0), 0⟩ rfl,
    (grabPos2_roots_and_low_bit (specLayout exParent) exThree 5 2 0 (u64 - 1 - 5)
      (by decide)).2.2 (by decide)⟩

/-! ## Self-arrows -/

theorem any_filter_self (L : Layout) (row : List arrow) (parpar nl ph : Nat)
    (hout : L.inForest parpar nl ph = false)
    (hself : ∀ a ∈ row, a.from_ = a.to_ → L.inForest a.from_ nl ph = true) :
    (row.filter fun a => decide (a.from_ ≠ a.to_)).any (fun a => parpar == a.from_) =
      row.any (fun a => parpar == a.from_) := by
  induction row with
  | nil => rfl
  | cons a rest ih =>
    have ih1 := ih (fun b hb => hself b (List.mem_cons_of_mem _ hb))
    by_cases hs : a.from_ = a.to_
    · have hne : (parpar == a.from_) = false := by
        have hin := hself a (List.mem_cons_self _ _) hs
        simp only [beq_eq_false_iff_ne, ne_eq]
        intro e
        rw [← e, hout] at hin
        exact absurd hin (by decide)
      rw [List.filter_cons_of_neg (by simp [hs]), List.any_cons, hne, Bool.false_or]
      exact ih1
    · rw [List.filter_cons_of_pos (by simp [hs]), List.any_cons, List.any_cons, ih1]

theorem dirtify_filter (L : Layout) (dirt : List Nat) (rows : List (List arrow))
    (pos nl up2h ph : Nat)
    (hself : ∀ row ∈ rows, ∀ a ∈ row, a.from_ = a.to_ → L.inForest a.from_ nl ph = true) :
    dirtify L dirt (rows.map (List.filter fun a => decide (a.from_ ≠ a.to_))) pos nl up2h ph =
      dirtify L dirt rows pos nl up2h ph := by
  unfold dirtify
  simp only [List.length_map]
  cases hin : L.inForest (L.upMany pos 2 ph) nl ph with
  | true => simp
  | false =>
    simp only [Bool.not_false, ↓reduceIte]
    by_cases hlen : up2h ≥ rows.length % 256
    · simp [hlen]
    · simp only [hlen, ↓reduceIte]
      have hlt : up2h < rows.length :=
        Nat.lt_of_lt_of_le (Nat.not_le.mp hlen) (Nat.mod_le _ _)
      have hget : (rows.map (List.filter fun a => decide (a.from_ ≠ a.to_))).getD up2h [] =
          (rows.getD up2h []).filter fun a => decide (a.from_ ≠ a.to_) := by
        simp [List.getD, List.getElem?_map, List.getElem?_eq_getElem hlt]
      rw [hget]
      have hmem : rows.getD up2h [] ∈ rows := by
        simp only [List.getD, List.get?_eq_getElem?, List.getElem?_eq_getElem hlt,
          Option.getD_some]
        exact List.getElem_mem _
      rw [any_filter_self L _ _ nl ph hin (hself _ hmem)]

theorem swapLoop_filter (L : Layout) (rows : List (List arrow)) (nnl h ph : Nat)
    (hself : ∀ row ∈ rows, ∀ a ∈ row, a.from_ = a.to_ → L.inForest a.from_ nnl ph = true) :
    ∀ (row : List arrow) (p : Pollard) (rowdirt hashdirt : List Nat),
      swapLoop L (rows.map (List.filter fun a => decide (a.from_ ≠ a.to_))) nnl h ph
          (row.filter fun a => decide (a.from_ ≠ a.to_)) p rowdirt hashdirt =
        swapLoop L rows nnl h ph row p rowdirt hashdirt := by
  intro row
  induction row with
  | nil => intro p rowdirt hashdirt; simp [swapLoop]
  | cons s rest ih =>
    intro p rowdirt hashdirt
    by_cases hs : s.from_ = s.to_
    · have : (s :: rest).filter (fun a => decide (a.from_ ≠ a.to_)) =
          rest.filter (fun a => decide (a.from_ ≠ a.to_)) := by simp [List.filter_cons, hs]
      rw [this, ih]
      conv_rhs => rw [swapLoop]
      simp [hs]
    · have : (s :: rest).filter (fun a => decide (a.from_ ≠ a.to_)) =
          s :: rest.filter (fun a => decide (a.from_ ≠ a.to_)) := by simp [List.filter_cons, hs]
      rw [this]
      conv_lhs => rw [swapLoop]
      conv_rhs => rw [swapLoop]
      simp only [hs, ↓reduceIte]
      cases hsw : swapNodes L p s with
      | mk p1 res =>
        cases res with
        | error e => rfl
        | ok hn =>
          simp only
          cases hsib : hn.sib with
          | none => rfl
          | some sib =>
            simp only
            cases hd0 : p1.nieceData sib 0 with
            | none => rfl
            | some d0 =>
              cases hd1 : p1.nieceData sib 1 with
              | none => rfl
              | some d1 =>
                simp only
                by_cases he : d0 = empty ∨ d1 = empty
                · simp only [he, ↓reduceIte]; exact ih _ _ _
                · simp only [he, ↓reduceIte]
                  cases hrun : hn.run L p1 with
                  | mk p2 e =>
                    cases e with
                    | some e => rfl
                    | none =>
                      simp only
                      rw [dirtify_filter L _ rows _ _ _ _ hself]
                      exact ih _ _ _

theorem dirtLoop_filter (L : Layout) (rows : List (List arrow)) (nnl h ph : Nat)
    (hself : ∀ row ∈ rows, ∀ a ∈ row, a.from_ = a.to_ → L.inForest a.from_ nnl ph = true) :
    ∀ (ds : List Nat) (p : Pollard) (hashdirt : List Nat),
      dirtLoop L (rows.map (List.filter fun a => decide (a.from_ ≠ a.to_))) nnl h ph ds p
          hashdirt = dirtLoop L rows nnl h ph ds p hashdirt := by
  intro ds
  induction ds with
  | nil => intro p hashdirt; simp [dirtLoop]
  | cons d rest ih =>
    intro p hashdirt
    conv_lhs => rw [dirtLoop]
    conv_rhs => rw [dirtLoop]
    cases hh : HnFromPos L p d with
    | mk p1 res =>
      cases res with
      | error e => rfl
      | ok hn =>
        simp only
        cases hsib : hn.sib with
        | none => rfl
        | some sib =>
          simp only
          cases hd0 : p1.nieceData sib 0 with
          | none => rfl
          | some d0 =>
            cases hd1 : p1.nieceData sib 1 with
            | none => rfl
            | some d1 =>
              simp only
              cases hrun : hn.run L p1 with
              | mk p2 e =>
                cases e with
                | some e => rfl
                | none =>
                  simp only
                  rw [dirtify_filter L _ rows _ _ _ _ hself]
                  exact ih _ _

/-- C19: for every pollard and every list of swap rows, applying the rows as `rem2` does
gives the same resulting pollard and the same error outcome as applying the rows with
every arrow whose `from` equals its `to` removed.  The rows are those of a transform:
every `to`, so every self-arrow, lies inside the forest of the next leaf count
(invariant (a) of §4.2 of the specification). -/
theorem self_arrows_are_skipped (L : Layout) (rows : List (List arrow)) (nnl ph : Nat)
    (hself : ∀ row ∈ rows, ∀ a ∈ row, a.from_ = a.to_ → L.inForest a.from_ nnl ph = true)
    (c h : Nat) (p : Pollard) (dirt : List Nat) :
    rowsLoop L (rows.map (List.filter fun a => decide (a.from_ ≠ a.to_))) nnl ph c h p dirt =
      rowsLoop L rows nnl ph c h p dirt := by
  revert c h p dirt
  intro c
  induction c with
  | zero => intro h p dirt; simp [rowsLoop]
  | succ c ih =>
    intro h p dirt
    conv_lhs => rw [rowsLoop]
    conv_rhs => rw [rowsLoop]
    simp only [List.get?_eq_getElem?, List.getElem?_map]
    cases hrow : rows[h]? with
    | none => rfl
    | some row =>
      simp only [Option.map_some']
      rw [swapLoop_filter L rows nnl h ph hself]
      cases hsl : swapLoop L rows nnl h ph row p dirt [] with
      | mk p1 res =>
        cases res with
        | error e => rfl
        | ok pr =>
          obtain ⟨rowdirt, hashdirt1⟩ := pr
          simp only
          rw [dirtLoop_filter L rows nnl h ph hself]
          cases hdl : dirtLoop L rows nnl h ph rowdirt p1 hashdirt1 with
          | mk p2 res2 =>
            cases res2 with
            | error e => rfl
            | ok hashdirt2 =>
              simp only
              exact ih _ _ _

/-- Witness for `self_arrows_are_skipped`: the rows of the removal of leaf 2 from the
four-leaf pollard, `[[(0, 0), (1, 1), (3, 2)], [], []]`, with two self-arrows inside the
forest of three leaves. -/
theorem self_arrows_are_skipped_witness :
    rowsLoop (specLayout exParent)
        ((specRemTrans2 [2] 4 3).map (List.filter fun a => decide (a.from_ ≠ a.to_)))
        3 3 3 0 exFour [] =
      rowsLoop (specLayout exParent) (specRemTrans2 [2] 4 3) 3 3 3 0 exFour [] :=
  self_arrows_are_skipped (specLayout exParent) (specRemTrans2 [2] 4 3) 3 3
    (by decide) 3 0 exFour []

/-! ## `descendToPos` and `grabPos` -/

/-- One pass of the loop of `descendToPos` that does not fail. -/
theorem descendLoop_succ_ok (bits h : Nat) (p : Pollard) (n : Ptr)
    (pr sb : List (Option Ptr)) (hd : descendLoop bits (h + 1) p n = .ok (pr, sb)) :
    ∃ nn, p.read n = some nn ∧
      ((nn.niece ((bits >>> h) % 2) = none ∧ h = 0 ∧ pr = [none] ∧
          sb = [(nn.niece ((bits >>> h) % 2 ^^^ 1)).map Ptr.cell]) ∨
       (∃ c pr1 sb1, nn.niece ((bits >>> h) % 2) = some c ∧
          descendLoop bits h p (.cell c) = .ok (pr1, sb1) ∧
          pr = pr1 ++ [some (.cell c)] ∧
          sb = sb1 ++ [(nn.niece ((bits >>> h) % 2 ^^^ 1)).map Ptr.cell])) := by
  rw [descendLoop] at hd
  cases hr : p.read n with
  | none => rw [hr] at hd; simp at hd
  | some nn =>
    rw [hr] at hd
    simp only at hd
    refine ⟨nn, rfl, ?_⟩
    cases hc : nn.niece ((bits >>> h) % 2) with
    | none =>
      rw [hc] at hd
      simp only at hd
      by_cases h0 : h = 0
      · subst h0
        simp only [ne_eq, not_true_eq_false, ↓reduceIte, Except.ok.injEq, Prod.mk.injEq] at hd
        exact Or.inl ⟨rfl, rfl, hd.1.symm, hd.2.symm⟩
      · simp [h0] at hd
    | some c =>
      rw [hc] at hd
      simp only at hd
      cases hrec : descendLoop bits h p (.cell c) with
      | error e => rw [hrec] at hd; simp at hd
      | ok r =>
        obtain ⟨pr1, sb1⟩ := r
        rw [hrec] at hd
        simp only [Except.ok.injEq, Prod.mk.injEq] at hd
        exact Or.inr ⟨c, pr1, sb1, rfl, hrec, hd.1.symm, hd.2.symm⟩

theorem descendLoop_length (bits : Nat) :
    ∀ (k : Nat) (p : Pollard) (n : Ptr) (pr sb : List (Option Ptr)),
      descendLoop bits k p n = .ok (pr, sb) → pr.length = k ∧ sb.length = k := by
  intro k
  induction k with
  | zero =>
    intro p n pr sb hd
    simp only [descendLoop, Except.ok.injEq, Prod.mk.injEq] at hd
    rw [← hd.1, ← hd.2]; exact ⟨rfl, rfl⟩
  | succ h ih =>
    intro p n pr sb hd
    obtain ⟨nn, _, hcase⟩ := descendLoop_succ_ok bits h p n pr sb hd
    rcases hcase with ⟨_, h0, hp, hs⟩ | ⟨c, pr1, sb1, _, hrec, hp, hs⟩
    · subst h0; rw [hp, hs]; exact ⟨rfl, rfl⟩
    · obtain ⟨l1, l2⟩ := ih p _ pr1 sb1 hrec
      rw [hp, hs]
      simp [l1, l2]

/-- The nodes whose nieces a successful descent reads are there. -/
theorem descendLoop_readable (bits : Nat) :
    ∀ (k : Nat) (p : Pollard) (n : Ptr) (pr sb : List (Option Ptr)),
      descendLoop bits k p n = .ok (pr, sb) →
      (1 ≤ k → (p.read n).isSome) ∧ ∀ q, some q ∈ pr.drop 1 → (p.read q).isSome := by
  intro k
  induction k with
  | zero =>
    intro p n pr sb hd
    simp only [descendLoop, Except.ok.injEq, Prod.mk.injEq] at hd
    rw [← hd.1]
    exact ⟨fun h => absurd h (by decide), fun q hq => by simp at hq⟩
  | succ h ih =>
    intro p n pr sb hd
    obtain ⟨nn, hr, hcase⟩ := descendLoop_succ_ok bits h p n pr sb hd
    refine ⟨fun _ => by rw [hr]; rfl, ?_⟩
    rcases hcase with ⟨_, h0, hp, hs⟩ | ⟨c, pr1, sb1, _, hrec, hp, hs⟩
    · intro q hq; rw [hp] at hq; simp at hq
    · obtain ⟨i1, i2⟩ := ih p _ pr1 sb1 hrec
      have hl := (descendLoop_length bits h p _ pr1 sb1 hrec).1
      intro q hq
      rw [hp] at hq
      cases h with
      | zero =>
        have : pr1 = [] := List.length_eq_zero.mp hl
        rw [this] at hq
        simp at hq
      | succ h1 =>
        rw [List.drop_append_of_le_length (by rw [hl]; omega)] at hq
        rcases List.mem_append.mp hq with hq | hq
        · exact i2 q hq
        · simp only [List.mem_singleton, Option.some.injEq] at hq
          rw [hq]; exact i1 (by omega)

/-- On a path of distinct nodes the loop of `grabPos` follows the descent of
`descendToPos` and ends on the node `sibs[0]`. -/
theorem grabPosLoop_descend (bits : Nat) :
    ∀ (k : Nat) (p p1 : Pollard) (n : Ptr) (nsib : Option Ptr) (pr sb : List (Option Ptr)),
      descendLoop bits (k + 1) p n = .ok (pr, sb) →
      (∀ q, q = n ∨ some q ∈ pr.drop 1 → p1.read q = p.read q) →
      (pr.drop 1 ++ [some n]).Nodup →
      ∃ p2 ns hn, grabPosLoop bits (k + 1) p1 n nsib = (p2, .ok (sb.headD none, ns, hn)) := by
  intro k
  induction k with
  | zero =>
    intro p p1 n nsib pr sb hd hsame _
    obtain ⟨nn, hr, hcase⟩ := descendLoop_succ_ok bits 0 p n pr sb hd
    have hr1 : p1.read n = some nn := by rw [hsame n (Or.inl rfl)]; exact hr
    have hs : sb.headD none = (nn.niece ((bits >>> 0) % 2 ^^^ 1)).map Ptr.cell := by
      rcases hcase with ⟨_, _, _, hs⟩ | ⟨c, pr1, sb1, _, hrec, _, hs⟩
      · rw [hs]; rfl
      · simp only [descendLoop, Except.ok.injEq, Prod.mk.injEq] at hrec
        rw [hs, ← hrec.2]; rfl
    rw [grabPosLoop, hr1, hs]
    exact ⟨_, _, _, rfl⟩
  | succ k ih =>
    intro p p1 n nsib pr sb hd hsame hnd
    obtain ⟨nn, hr, hcase⟩ := descendLoop_succ_ok bits (k + 1) p n pr sb hd
    have hr1 : p1.read n = some nn := by rw [hsame n (Or.inl rfl)]; exact hr
    rcases hcase with ⟨_, h0, _, _⟩ | ⟨c, pr1, sb1, hc, hrec, hp, hs⟩
    · exact absurd h0 (by omega)
    · obtain ⟨l1, l2⟩ := descendLoop_length bits (k + 1) p _ pr1 sb1 hrec
      have hdrop : pr.drop 1 = pr1.drop 1 ++ [some (Ptr.cell c)] := by
        rw [hp, List.drop_append_of_le_length (by rw [l1]; omega)]
      have hhead : sb.headD none = sb1.headD none := by
        rw [hs]
        cases sb1 with
        | nil => simp at l2
        | cons a t => rfl
      rw [hdrop] at hnd hsame
      have hread := descendLoop_readable bits (k + 1) p _ pr1 sb1 hrec
      have hne : ∀ q, q = Ptr.cell c ∨ some q ∈ pr1.drop 1 → q ≠ n := by
        intro q hq e
        subst e
        have hmem : some q ∈ pr1.drop 1 ++ [some (Ptr.cell c)] := by
          rcases hq with hq | hq
          · rw [hq]; simp
          · exact List.mem_append_left _ hq
        have := List.disjoint_of_nodup_append hnd hmem
        simp at this
      have hsm : ∀ q, q = Ptr.cell c ∨ some q ∈ pr1.drop 1 → p1.read q = p.read q := by
        intro q hq
        apply hsame q
        right
        rcases hq with hq | hq
        · rw [hq]; simp
        · exact List.mem_append_left _ hq
      have hsome : ∀ q, q = Ptr.cell c ∨ some q ∈ pr1.drop 1 → (p.read q).isSome := by
        intro q hq
        rcases hq with hq | hq
        · rw [hq]; exact hread.1 (by omega)
        · exact hread.2 q hq
      rw [grabPosLoop, hr1]
      simp only [Nat.add_one_ne_zero, ↓reduceIte]
      rw [hhead]
      cases hm : nn.niece ((bits >>> (k + 1)) % 2 ^^^ 1) with
      | some v =>
        simp only
        have hn2 : p1.nieceAt n ((bits >>> (k + 1)) % 2) = some c := by
          simp [Pollard.nieceAt, hr1, hc]
        rw [hn2]
        simp only
        exact ih p _ (.cell c) _ pr1 sb1 hrec hsm (List.Nodup.of_append_left hnd)
      | none =>
        simp only
        have hlt : (bits >>> (k + 1)) % 2 < 2 := Nat.mod_lt _ (by decide)
        have ha : (p1.alloc polNode.zero).1.read n = some nn := read_alloc p1 _ _ _ hr1
        have hn2 : ((p1.alloc polNode.zero).1.setNieceAt n ((bits >>> (k + 1)) % 2 ^^^ 1)
            (some p1.heap.length)).nieceAt n ((bits >>> (k + 1)) % 2) = some c := by
          rw [nieceAt_setNieceAt_other _ _ _ _ hlt]
          simp [Pollard.nieceAt, ha, hc]
        rw [hn2]
        simp only
        refine ih p _ (.cell c) _ pr1 sb1 hrec ?_ (List.Nodup.of_append_left hnd)
        intro q hq
        rw [read_setNieceAt_ne _ _ _ _ _ (Ne.symm (hne q hq))]
        obtain ⟨m, hm1⟩ := Option.isSome_iff_exists.mp (hsome q hq)
        rw [hm1]
        exact read_alloc p1 _ _ _ (by rw [hsm q hq]; exact hm1)

/-- C21: for every pollard and position, `descendToPos` returns an error (and no paths)
when the position is not inside the forest; when it returns without error both lists have
length `branchLen + 1`, their last entries are the root of the position's tree, and
`sibs[0]` is the node that `grabPos` returns as the requested node for the same position
(for a descent path of distinct nodes, as in every tree-shaped pollard). -/
theorem descendToPos_shape (L : Layout) (p : Pollard) (pos : Nat) :
    (L.inForest pos p.numLeaves (L.height p.numLeaves) = false →
      descendToPos L p pos = .error .descendOOB) ∧
    (∀ proofs sibs, descendToPos L p pos = .ok (proofs, sibs) →
      proofs.length = (L.detectOffset pos p.numLeaves).2.1 + 1 ∧
      sibs.length = (L.detectOffset pos p.numLeaves).2.1 + 1 ∧
      proofs.getLast? = some (some (.top (L.detectOffset pos p.numLeaves).1)) ∧
      sibs.getLast? = some (some (.top (L.detectOffset pos p.numLeaves).1)) ∧
      ((proofs.drop 1).Nodup →
        ∃ p1 nsib hn, grabPos L p pos = (p1, .ok (sibs.headD none, nsib, hn)))) := by
  constructor
  · intro hin
    unfold descendToPos
    simp [hin]
  · intro proofs sibs hd
    unfold descendToPos at hd
    split at hd
    · simp at hd
    · rcases hdo : L.detectOffset pos p.numLeaves with ⟨tNum, branchLen, bits⟩
      rw [hdo] at hd
      simp only at hd ⊢
      split at hd
      · simp at hd
      · rename_i htop
        split at hd
        · simp at hd
        · cases hl : descendLoop bits branchLen p (.top tNum) with
          | error e => rw [hl] at hd; simp at hd
          | ok r =>
            obtain ⟨pr, sb⟩ := r
            rw [hl] at hd
            simp only [Except.ok.injEq, Prod.mk.injEq] at hd
            obtain ⟨rfl, rfl⟩ := hd
            obtain ⟨l1, l2⟩ := descendLoop_length bits branchLen p _ pr sb hl
            refine ⟨by simp [l1], by simp [l2], by simp, by simp, ?_⟩
            intro hnd
            unfold grabPos
            rw [hdo]
            simp only [htop, ↓reduceIte]
            cases branchLen with
            | zero =>
              simp only [descendLoop, Except.ok.injEq, Prod.mk.injEq] at hl
              rw [← hl.2]
              exact ⟨p, _, _, rfl⟩
            | succ k =>
              have hdrop : (pr ++ [some (Ptr.top tNum)]).drop 1
                  = pr.drop 1 ++ [some (Ptr.top tNum)] := by
                rw [List.drop_append_of_le_length (by rw [l1]; omega)]
              rw [hdrop] at hnd
              have hhead : (sb ++ [some (Ptr.top tNum)]).headD none = sb.headD none := by
                cases sb with
                | nil => simp at l2
                | cons a t => rfl
              rw [hhead]
              exact grabPosLoop_descend bits k p p (.top tNum) _ pr sb hl
                (fun _ _ => rfl) hnd

/-- Witness for `descendToPos_shape`: on the eight-leaf pollard position 9 is outside the
forest, and the descent to position 0 ends on heap cell 2, which `grabPos(0)` returns. -/
theorem descendToPos_shape_witness :
    descendToPos (specLayout exParent) exEight 9 = .error .descendOOB ∧
    descendToPos (specLayout exParent) exEight 0 =
      .ok ([some (.cell 1), some (.cell 7), some (.cell 19), some (.top 0)],
        [some (.cell 2), some (.cell 8), some (.cell 20), some (.top 0)]) ∧
    ∃ p1 nsib hn, grabPos (specLayout exParent) exEight 0 =
      (p1, .ok (some (.cell 2), nsib, hn)) :=
  ⟨(descendToPos_shape (specLayout exParent) exEight 9).1 (by decide), rfl,
    ((descendToPos_shape (specLayout exParent) exEight 0).2
      [some (.cell 1), some (.cell 7), some (.cell 19), some (.top 0)]
      [some (.cell 2), some (.cell 8), some (.cell 20), some (.top 0)] rfl).2.2.2.2
      (by decide)⟩

/-! ## `mergeSortedSlices` -/

/-- The index loop of `mergeSortedSlices` is the structural merge of what is left of the
two slices, appended to what has been written. -/
theorem mergeLoop_eq_merge (a b : List txoEnd) :
    ∀ (fuel idxa idxb : Nat) (c : List txoEnd), idxa ≤ a.length → idxb ≤ b.length →
      fuel = (a.length - idxa) + (b.length - idxb) →
      mergeLoop a b fuel idxa idxb c =
        c ++ List.merge (a.drop idxa) (b.drop idxb) (fun x y => decide (x.end_ < y.end_)) := by
  intro fuel
  induction fuel with
  | zero =>
    intro idxa idxb c ha hb hf
    have h1 : a.drop idxa = [] := List.drop_eq_nil_of_le (by omega)
    have h2 : b.drop idxb = [] := List.drop_eq_nil_of_le (by omega)
    simp [mergeLoop, h1, h2]
  | succ fuel ih =>
    intro idxa idxb c ha hb hf
    rw [mergeLoop]
    by_cases h1 : idxa ≥ a.length
    · have e1 : a.drop idxa = [] := List.drop_eq_nil_of_le h1
      have hl : (b.drop idxb).length ≤ fuel + 1 := by rw [List.length_drop]; omega
      simp [h1, e1, List.take_of_length_le hl]
    · by_cases h2 : idxb ≥ b.length
      · have e2 : b.drop idxb = [] := List.drop_eq_nil_of_le h2
        have hl : (a.drop idxa).length ≤ fuel + 1 := by rw [List.length_drop]; omega
        simp [h1, h2, e2, List.take_of_length_le hl]
      · have ha1 : idxa < a.length := Nat.lt_of_not_le h1
        have hb1 : idxb < b.length := Nat.lt_of_not_le h2
        have ga : a.get? idxa = some a[idxa] := by
          rw [List.get?_eq_getElem?]; exact List.getElem?_eq_getElem ha1
        have gb : b.get? idxb = some b[idxb] := by
          rw [List.get?_eq_getElem?]; exact List.getElem?_eq_getElem hb1
        have da : a.drop idxa = a[idxa] :: a.drop (idxa + 1) := List.drop_eq_getElem_cons ha1
        have db : b.drop idxb = b[idxb] :: b.drop (idxb + 1) := List.drop_eq_getElem_cons hb1
        simp only [h1, h2, ↓reduceIte, ga, gb]
        by_cases hlt : a[idxa].end_ < b[idxb].end_
        · simp only [hlt, ↓reduceIte]
          rw [ih (idxa + 1) idxb _ ha1 hb (by omega), da, db,
            List.cons_merge_cons_pos _ _ _ (by simpa using hlt), ← db]
          simp
        · simp only [hlt, ↓reduceIte]
          rw [ih idxa (idxb + 1) _ ha hb1 (by omega), da, db,
            List.cons_merge_cons_neg _ _ _ (by simpa using hlt), ← da]
          simp

theorem mergeSortedSlices_eq_merge (a b : List txoEnd) :
    mergeSortedSlices a b = List.merge a b (fun x y => decide (x.end_ < y.end_)) := by
  unfold mergeSortedSlices
  rw [mergeLoop_eq_merge a b _ 0 0 [] (Nat.zero_le _) (Nat.zero_le _) (by simp)]
  simp

/-- Merging two lists sorted by non-decreasing `end`, taking the head of the first list
only when its `end` is strictly smaller, gives a list sorted by non-decreasing `end`. -/
theorem merge_sorted_by_end :
    ∀ (a b : List txoEnd), a.Pairwise (fun x y => x.end_ ≤ y.end_) →
      b.Pairwise (fun x y => x.end_ ≤ y.end_) →
      (List.merge a b (fun x y => decide (x.end_ < y.end_))).Pairwise
        (fun x y => x.end_ ≤ y.end_)
  | [], b, _, hb => by simpa using hb
  | x :: a, [], ha, _ => by simpa using ha
  | x :: a, y :: b, ha, hb => by
    by_cases hlt : x.end_ < y.end_
    · rw [List.cons_merge_cons_pos _ _ _ (by simpa using hlt)]
      refine List.Pairwise.cons ?_ (merge_sorted_by_end a (y :: b) (List.Pairwise.of_cons ha) hb)
      intro z hz
      rcases List.mem_merge.mp hz with hz | hz
      · exact List.rel_of_pairwise_cons ha hz
      · rcases List.mem_cons.mp hz with hz | hz
        · rw [hz]; exact le_of_lt hlt
        · exact le_trans (le_of_lt hlt) (List.rel_of_pairwise_cons hb hz)
    · rw [List.cons_merge_cons_neg _ _ _ (by simpa using hlt)]
      refine List.Pairwise.cons ?_ (merge_sorted_by_end (x :: a) b ha (List.Pairwise.of_cons hb))
      have hyx : y.end_ ≤ x.end_ := not_lt.mp hlt
      intro z hz
      rcases List.mem_merge.mp hz with hz | hz
      · rcases List.mem_cons.mp hz with hz | hz
        · rw [hz]; exact hyx
        · exact le_trans hyx (List.rel_of_pairwise_cons ha hz)
      · exact List.rel_of_pairwise_cons hb hz
termination_by a b => a.length + b.length

/-- C22: for every two slices `a` and `b` each sorted by non-decreasing `end`, the result
of `mergeSortedSlices` is sorted by non-decreasing `end`, has length `len(a) + len(b)`, and
is a permutation of `a` followed by `b`. -/
theorem mergeSortedSlices_sorted_merge (a b : List txoEnd)
    (ha : a.Pairwise (fun x y => x.end_ ≤ y.end_))
    (hb : b.Pairwise (fun x y => x.end_ ≤ y.end_)) :
    (mergeSortedSlices a b).Pairwise (fun x y => x.end_ ≤ y.end_) ∧
    (mergeSortedSlices a b).length = a.length + b.length ∧
    (mergeSortedSlices a b).Perm (a ++ b) := by
  rw [mergeSortedSlices_eq_merge]
  exact ⟨merge_sorted_by_end a b ha hb, List.length_merge _ _ _, List.merge_perm_append _⟩

/-- Witness for `mergeSortedSlices_sorted_merge`: two sorted slices with a tie at `end`
5. -/
theorem mergeSortedSlices_sorted_merge_witness :
    (mergeSortedSlices [⟨0, 1⟩, ⟨1, 5⟩, ⟨2, 8⟩] [⟨3, 2⟩, ⟨4, 5⟩]).Pairwise
      (fun x y => x.end_ ≤ y.end_) ∧
    (mergeSortedSlices [⟨0, 1⟩, ⟨1, 5⟩, ⟨2, 8⟩] [⟨3, 2⟩, ⟨4, 5⟩]).length = 3 + 2 ∧
    (mergeSortedSlices [⟨0, 1⟩, ⟨1, 5⟩, ⟨2, 8⟩] [⟨3, 2⟩, ⟨4, 5⟩]).Perm
      ([⟨0, 1⟩, ⟨1, 5⟩, ⟨2, 8⟩] ++ [⟨3, 2⟩, ⟨4, 5⟩]) :=
  mergeSortedSlices_sorted_merge [⟨0, 1⟩, ⟨1, 5⟩, ⟨2, 8⟩] [⟨3, 2⟩, ⟨4, 5⟩]
    (by decide) (by decide)

/-- C23 (as amended): `mergeSortedSlices` keeps duplicates: for every two slices, every
element occurs in the result as often as in `a` and in `b` together, so an element that
occurs in both occurs at least twice. -/
theorem mergeSortedSlices_keeps_duplicates (a b : List txoEnd) (x : txoEnd) :
    (mergeSortedSlices a b).count x = a.count x + b.count x ∧
    (x ∈ a → x ∈ b → 2 ≤ (mergeSortedSlices a b).count x) := by
  have hc : (mergeSortedSlices a b).count x = a.count x + b.count x := by
    rw [mergeSortedSlices_eq_merge, (List.merge_perm_append _).count_eq, List.count_append]
  refine ⟨hc, fun h1 h2 => ?_⟩
  have c1 := List.count_pos_iff.mpr h1
  have c2 := List.count_pos_iff.mpr h2
  omega

/-- Witness for `mergeSortedSlices_keeps_duplicates`: the element with `end` 5 of the
example of the doc comment. -/
theorem mergeSortedSlices_keeps_duplicates_witness :
    2 ≤ (mergeSortedSlices [⟨1, 1⟩, ⟨5, 5⟩, ⟨8, 8⟩, ⟨9, 9⟩]
      [⟨2, 2⟩, ⟨3, 3⟩, ⟨4, 4⟩, ⟨5, 5⟩, ⟨6, 6⟩]).count ⟨5, 5⟩ :=
  (mergeSortedSlices_keeps_duplicates [⟨1, 1⟩, ⟨5, 5⟩, ⟨8, 8⟩, ⟨9, 9⟩]
    [⟨2, 2⟩, ⟨3, 3⟩, ⟨4, 4⟩, ⟨5, 5⟩, ⟨6, 6⟩] ⟨5, 5⟩).2 (by decide) (by decide)

/-- C23 (as stated) fails on the example of the doc comment: `[1, 5, 8, 9]` merged with
`[2, 3, 4, 5, 6]` gives `[1, 2, 3, 4, 5, 5, 6, 8, 9]`, with the common element twice. -/
theorem mergeSortedSlices_duplicates_counterexample :
    mergeSortedSlices [⟨1, 1⟩, ⟨5, 5⟩, ⟨8, 8⟩, ⟨9, 9⟩]
        [⟨2, 2⟩, ⟨3, 3⟩, ⟨4, 4⟩, ⟨5, 5⟩, ⟨6, 6⟩] =
      [⟨1, 1⟩, ⟨2, 2⟩, ⟨3, 3⟩, ⟨4, 4⟩, ⟨5, 5⟩, ⟨5, 5⟩, ⟨6, 6⟩, ⟨8, 8⟩, ⟨9, 9⟩] ∧
    ¬ (∀ (a b : List txoEnd) (x : txoEnd),
        a.Pairwise (fun x y => x.end_ ≤ y.end_) → b.Pairwise (fun x y => x.end_ ≤ y.end_) →
        x ∈ a → x ∈ b → (mergeSortedSlices a b).count x = 1) := by
  refine ⟨by decide, fun h => ?_⟩
  have := h [⟨1, 1⟩, ⟨5, 5⟩, ⟨8, 8⟩, ⟨9, 9⟩] [⟨2, 2⟩, ⟨3, 3⟩, ⟨4, 4⟩, ⟨5, 5⟩, ⟨6, 6⟩] ⟨5, 5⟩
    (by decide) (by decide) (by decide) (by decide)
  revert this
  decide

/-! ## `SplitAfter` -/

/-- The loop of `SplitAfter` stops at the first element whose `end` exceeds `h`; when
there is none, `top` and `bottom` stay nil. -/
theorem SplitAfterLoop_spec (s : List txoEnd) (h : Int) :
    ∀ (rest : List txoEnd) (i : Nat), s.drop i = rest → (∀ c ∈ s.take i, c.end_ ≤ h) →
      ((∀ c ∈ rest, c.end_ ≤ h) ∧ SplitAfterLoop s h i rest = (none, none)) ∨
      (∃ j x l, SplitAfterLoop s h i rest = (some (s.take j), some (s.drop j)) ∧
        (∀ c ∈ s.take j, c.end_ ≤ h) ∧ s.drop j = x :: l ∧ h < x.end_) := by
  intro rest
  induction rest with
  | nil => intro i _ _; left; exact ⟨by simp, rfl⟩
  | cons c rest ih =>
    intro i hd hlow
    rw [SplitAfterLoop]
    by_cases hc : c.end_ > h
    · right
      exact ⟨i, c, rest, by simp [hc], hlow, hd, hc⟩
    · have hi : i < s.length := by
        by_contra hge
        rw [List.drop_eq_nil_of_le (Nat.le_of_not_lt hge)] at hd
        simp at hd
      have hd1 : s.drop (i + 1) = rest := by
        have := List.drop_eq_getElem_cons hi
        rw [hd] at this
        simp only [List.cons.injEq] at this
        exact this.2.symm
      have hci : s[i] = c := by
        have := List.drop_eq_getElem_cons hi
        rw [hd] at this
        simp only [List.cons.injEq] at this
        exact this.1.symm
      have hlow1 : ∀ x ∈ s.take (i + 1), x.end_ ≤ h := by
        intro x hx
        rw [List.take_succ, List.getElem?_eq_getElem hi] at hx
        rcases List.mem_append.mp hx with hx | hx
        · exact hlow x hx
        · simp only [Option.toList_some, List.mem_singleton] at hx
          rw [hx, hci]; exact not_lt.mp hc
      simp only [hc, ↓reduceIte]
      rcases ih (i + 1) hd1 hlow1 with ⟨h1, h2⟩ | h2
      · left
        refine ⟨?_, h2⟩
        intro x hx
        rcases List.mem_cons.mp hx with hx | hx
        · rw [hx]; exact not_lt.mp hc
        · exact h1 x hx
      · right; exact h2

/-- What `SplitAfter` returns when no element has an `end` above `h`: a nil `top`, and the
whole slice as `bottom`. -/
theorem SplitAfter_all_low (s : List txoEnd) (h : Int) (hall : ∀ c ∈ s, c.end_ ≤ h) :
    SplitAfter s h = ([], s) := by
  unfold SplitAfter
  rcases SplitAfterLoop_spec s h s 0 rfl (by simp) with ⟨_, h2⟩ | ⟨j, x, l, _, _, h3, h4⟩
  · rw [h2]
  · have hx : x ∈ s := List.mem_of_mem_drop (by rw [h3]; exact List.mem_cons_self _ _)
    exact absurd (hall x hx) (not_le.mpr h4)

/-- What `SplitAfter` returns on a sorted slice with an element whose `end` exceeds `h`:
the elements with `end <= h` and the elements with `end > h`. -/
theorem SplitAfter_some_high (s : List txoEnd) (h : Int)
    (hs : s.Pairwise (fun x y => x.end_ ≤ y.end_)) (hex : ∃ c ∈ s, h < c.end_) :
    SplitAfter s h =
      (s.filter (fun c => decide (c.end_ ≤ h)), s.filter (fun c => decide (h < c.end_))) := by
  unfold SplitAfter
  rcases SplitAfterLoop_spec s h s 0 rfl (by simp) with ⟨h1, _⟩ | ⟨j, x, l, h2, hlow, h3, h4⟩
  · obtain ⟨c, hc, hlt⟩ := hex
    exact absurd (h1 c hc) (not_le.mpr hlt)
  · rw [h2]
    simp only [Option.getD_some]
    have hhigh : ∀ c ∈ s.drop j, h < c.end_ := by
      intro c hc
      rw [h3] at hc
      have hp : (s.drop j).Pairwise (fun x y => x.end_ ≤ y.end_) :=
        List.Pairwise.sublist (List.drop_sublist _ _) hs
      rw [h3] at hp
      rcases List.mem_cons.mp hc with hc | hc
      · rw [hc]; exact h4
      · exact lt_of_lt_of_le h4 (List.rel_of_pairwise_cons hp hc)
    have hsplit : s = s.take j ++ s.drop j := (List.take_append_drop j s).symm
    have f1 : (s.take j).filter (fun c => decide (c.end_ ≤ h)) = s.take j :=
      List.filter_eq_self.mpr (fun c hc => by simpa using hlow c hc)
    have f2 : (s.drop j).filter (fun c => decide (c.end_ ≤ h)) = [] :=
      List.filter_eq_nil_iff.mpr (fun c hc => by simpa using hhigh c hc)
    have f3 : (s.take j).filter (fun c => decide (h < c.end_)) = [] :=
      List.filter_eq_nil_iff.mpr (fun c hc => by simpa using hlow c hc)
    have f4 : (s.drop j).filter (fun c => decide (h < c.end_)) = s.drop j :=
      List.filter_eq_self.mpr (fun c hc => by simpa using hhigh c hc)
    conv_rhs => rw [hsplit, List.filter_append, List.filter_append, f1, f2, f3, f4]
    simp

/-- C24 (fails in the code): on the sorted slice with ends 1 and 2 and `h = 5` every
element has `end <= h`, and `SplitAfter` returns an empty `top` and the whole slice as
`bottom`, although the elements with `end <= h` are the whole slice and no element has
`end > h`. -/
theorem SplitAfter_all_low_returns_nothing :
    SplitAfter [⟨0, 1⟩, ⟨1, 2⟩] 5 = ([], [⟨0, 1⟩, ⟨1, 2⟩]) ∧
    ([⟨0, 1⟩, ⟨1, 2⟩] : List txoEnd).filter (fun c => decide (c.end_ ≤ 5)) =
      [⟨0, 1⟩, ⟨1, 2⟩] ∧
    ([⟨0, 1⟩, ⟨1, 2⟩] : List txoEnd).filter (fun c => decide (5 < c.end_)) = [] ∧
    ¬ (∀ (s : List txoEnd) (h : Int), s.Pairwise (fun x y => x.end_ ≤ y.end_) →
        SplitAfter s h =
          (s.filter (fun c => decide (c.end_ ≤ h)), s.filter (fun c => decide (h < c.end_)))) := by
  refine ⟨by decide, by decide, by decide, fun hcl => ?_⟩
  have := hcl [⟨0, 1⟩, ⟨1, 2⟩] 5 (by decide)
  revert this
  decide

/-! ## `assertBitInRam` -/

/-- C25: for every byte slice `s` and index `i` with `i/8 < len(s)`, after
`assertBitInRam(i, s)` bit `7 - (i mod 8)` of byte `i/8` is 1 and every other bit of every
byte of `s` is unchanged (the slice keeps its length and holds bytes); for
`i/8 >= len(s)` the call fails. -/
theorem assertBitInRam_sets_one_bit (i : Nat) (s : List Nat) (hbytes : ∀ x ∈ s, x < 256) :
    (i / 8 < s.length →
      ∃ s1, assertBitInRam i s = some s1 ∧ s1.length = s.length ∧ (∀ x ∈ s1, x < 256) ∧
        (s1.getD (i / 8) 0).testBit (7 - i % 8) = true ∧
        ∀ j b, (j ≠ i / 8 ∨ b ≠ 7 - i % 8) →
          (s1.getD j 0).testBit b = (s.getD j 0).testBit b) ∧
    (s.length ≤ i / 8 → assertBitInRam i s = none) := by
  constructor
  · intro hi
    have hg : s.get? (i / 8) = some s[i / 8] := by
      rw [List.get?_eq_getElem?]; exact List.getElem?_eq_getElem hi
    have hb : s[i / 8] < 256 := hbytes _ (List.getElem_mem _)
    have hk : 7 - i % 8 < 8 := by omega
    have hpow : 1 <<< (7 - i % 8) = 2 ^ (7 - i % 8) := Nat.one_shiftLeft _
    have hp256 : 2 ^ (7 - i % 8) < 2 ^ 8 := Nat.pow_lt_pow_right (by decide) hk
    have hlt : s[i / 8] ||| 2 ^ (7 - i % 8) < 256 :=
      Nat.or_lt_two_pow (n := 8) hb hp256
    have hnew : (s[i / 8] ||| 1 <<< (7 - i % 8)) % 256 = s[i / 8] ||| 2 ^ (7 - i % 8) := by
      rw [hpow]; exact Nat.mod_eq_of_lt hlt
    refine ⟨s.set (i / 8) (s[i / 8] ||| 2 ^ (7 - i % 8)), ?_, by simp, ?_, ?_, ?_⟩
    · unfold assertBitInRam
      simp only [hg, hnew]
    · intro x hx
      rcases List.mem_or_eq_of_mem_set hx with hx | hx
      · exact hbytes x hx
      · rw [hx]; exact hlt
    · simp [List.getD_eq_getElem?_getD, List.getElem?_set, hi, Nat.testBit_or,
        Nat.testBit_two_pow]
    · intro j b hjb
      by_cases hj : i / 8 = j
      · subst hj
        have hbne : 7 - i % 8 ≠ b := by
          rcases hjb with h | h
          · exact absurd rfl h
          · exact fun e => h e.symm
        simp [List.getD_eq_getElem?_getD, List.getElem?_set, hi, Nat.testBit_or,
          Nat.testBit_two_pow, hbne]
      · simp [List.getD_eq_getElem?_getD, List.getElem?_set, hj]
  · intro hi
    unfold assertBitInRam
    have hg : s.get? (i / 8) = none := by
      rw [List.get?_eq_getElem?]; exact List.getElem?_eq_none hi
    simp only [hg]

/-- Witness for `assertBitInRam_sets_one_bit`: txo 10 is bit 5 of byte 1; index 24 is out
of range for three bytes. -/
theorem assertBitInRam_sets_one_bit_witness :
    (∃ s1, assertBitInRam 10 [128, 1, 0] = some s1 ∧ s1.length = 3 ∧ (∀ x ∈ s1, x < 256) ∧
      (s1.getD (10 / 8) 0).testBit (7 - 10 % 8) = true ∧
      ∀ j b, (j ≠ 10 / 8 ∨ b ≠ 7 - 10 % 8) →
        (s1.getD j 0).testBit b = (([128, 1, 0] : List Nat).getD j 0).testBit b) ∧
    assertBitInRam 24 [128, 1, 0] = none :=
  ⟨(assertBitInRam_sets_one_bit 10 [128, 1, 0] (by decide)).1 (by decide),
    (assertBitInRam_sets_one_bit 24 [128, 1, 0] (by decide)).2 (by decide)⟩

/-! ## `writeBlockOffset` -/

theorem find_mem (m : HeaderMap) (k : Hash) (v : RawHeaderData) (h : m.find k = some v) :
    (k, v) ∈ m := by
  unfold HeaderMap.find at h
  cases hf : List.find? (fun e => e.1 == k) m with
  | none => rw [hf] at h; simp at h
  | some e =>
    rw [hf] at h
    simp only [Option.map_some', Option.some.injEq] at h
    have h1 := List.find?_some hf
    have h2 := List.mem_of_find?_eq_some hf
    simp only [beq_iff_eq] at h1
    obtain ⟨e1, e2⟩ := e
    simp only at h1 h
    subst h1 h
    exact h2

theorem keyed_find (m : HeaderMap) (hk : m.keyed) (k : Hash) (v : RawHeaderData)
    (h : m.find k = some v) : v.Prevhash = k :=
  hk (k, v) (find_mem m k v h)

theorem keyed_delete (m : HeaderMap) (hk : m.keyed) (k : Hash) : (m.delete k).keyed :=
  fun e he => hk e (List.mem_of_mem_filter he)

theorem keyed_insert (m : HeaderMap) (hk : m.keyed) (b : RawHeaderData) :
    (m.insert b.Prevhash b).keyed := by
  intro e he
  rcases List.mem_cons.mp he with he | he
  · rw [he]
  · exact hk e (List.mem_of_mem_filter he)

theorem length_delete_lt (m : HeaderMap) (k : Hash) (v : RawHeaderData)
    (h : m.find k = some v) : (m.delete k).length < m.length := by
  have hm := find_mem m k v h
  unfold HeaderMap.delete
  have hle := List.length_filter_le (fun e : Hash × RawHeaderData => e.1 != k) m
  rcases Nat.lt_or_eq_of_le hle with hlt | heq
  · exact hlt
  · have he := List.filter_length_eq_length.mp heq (k, v) hm
    simp at he

theorem length_insert_le (m : HeaderMap) (k : Hash) (v : RawHeaderData) :
    (m.insert k v).length ≤ m.length + 1 := by
  unfold HeaderMap.insert
  simp only [List.length_cons, Nat.add_le_add_iff_right]
  exact List.length_filter_le _ _

theorem isHashChain_append (t : Hash) (ws : List RawHeaderData) (b : RawHeaderData) :
    isHashChain t (ws ++ [b]) = (isHashChain t ws && b.Prevhash == chainTip t ws) := by
  induction ws generalizing t with
  | nil => simp [isHashChain, chainTip]
  | cons w ws ih =>
    show (w.Prevhash == t && isHashChain w.CurrentHeaderHash (ws ++ [b])) = _
    rw [ih]
    simp only [isHashChain, chainTip, Bool.and_assoc]

theorem chainTip_append (t : Hash) (ws : List RawHeaderData) (b : RawHeaderData) :
    chainTip t (ws ++ [b]) = b.CurrentHeaderHash := by
  induction ws generalizing t with
  | nil => rfl
  | cons w ws ih =>
    show chainTip w.CurrentHeaderHash (ws ++ [b]) = _
    exact ih _

/-- The headers written so far form a hash chain from `t0` that ends at the tip. -/
theorem emit_chain (t0 : Hash) (st : OffsetState) (b : RawHeaderData)
    (hc : isHashChain t0 st.written = true) (ht : st.tip = chainTip t0 st.written)
    (hb : b.Prevhash = st.tip) :
    isHashChain t0 (st.emit b).written = true ∧
      (st.emit b).tip = chainTip t0 (st.emit b).written := by
  simp only [OffsetState.emit, isHashChain_append, chainTip_append, hc, hb, ht, beq_self_eq_true,
    Bool.and_self, and_self]

theorem drainStash_chain (t0 : Hash) :
    ∀ (fuel : Nat) (st : OffsetState), st.nextMap.keyed → st.nextMap.length ≤ fuel →
      isHashChain t0 st.written = true → st.tip = chainTip t0 st.written →
      ∃ st1, drainStash fuel st = some st1 ∧ st1.nextMap.keyed ∧
        st1.nextMap.length ≤ st.nextMap.length ∧
        isHashChain t0 st1.written = true ∧ st1.tip = chainTip t0 st1.written := by
  intro fuel
  induction fuel with
  | zero =>
    intro st hk hl hc ht
    rw [drainStash]
    cases hf : st.nextMap.find st.tip with
    | none => exact ⟨st, rfl, hk, Nat.le_refl _, hc, ht⟩
    | some v =>
      have := length_delete_lt _ _ _ hf
      omega
  | succ fuel ih =>
    intro st hk hl hc ht
    rw [drainStash]
    cases hf : st.nextMap.find st.tip with
    | none => exact ⟨st, rfl, hk, Nat.le_refl _, hc, ht⟩
    | some v =>
      simp only
      have hv : v.Prevhash = st.tip := keyed_find _ hk _ _ hf
      obtain ⟨c1, c2⟩ := emit_chain t0 st v hc ht hv
      have hlt : (st.nextMap.delete v.Prevhash).length < st.nextMap.length := by
        rw [hv]; exact length_delete_lt _ _ _ hf
      obtain ⟨st1, h1, h2, h3, h4, h5⟩ :=
        ih { st.emit v with nextMap := (st.emit v).nextMap.delete v.Prevhash }
          (keyed_delete _ hk _) (by simp only [OffsetState.emit]; omega) c1 c2
      refine ⟨st1, h1, h2, ?_, h4, h5⟩
      simp only [OffsetState.emit] at h3
      omega

theorem offsetLoop_chain (t0 : Hash) (fuel : Nat) :
    ∀ (hs : List RawHeaderData) (st : OffsetState), st.nextMap.keyed →
      st.nextMap.length + hs.length ≤ fuel →
      isHashChain t0 st.written = true → st.tip = chainTip t0 st.written →
      ∃ st1, offsetLoop fuel hs st = some st1 ∧ st1.nextMap.keyed ∧
        isHashChain t0 st1.written = true ∧ st1.tip = chainTip t0 st1.written := by
  intro hs
  induction hs with
  | nil => intro st hk _ hc ht; exact ⟨st, rfl, hk, hc, ht⟩
  | cons b rest ih =>
    intro st hk hl hc ht
    rw [offsetLoop]
    simp only [List.length_cons] at hl
    by_cases hbig : st.nextMap.len > 10000
    · simp only [hbig, ↓reduceIte]
      exact ⟨st, rfl, hk, hc, ht⟩
    · simp only [hbig, ↓reduceIte]
      by_cases hp : b.Prevhash ≠ st.tip
      · simp only [hp, ↓reduceIte, ne_eq, not_false_eq_true]
        have := length_insert_le st.nextMap b.Prevhash b
        exact ih _ (keyed_insert _ hk b) (by simp only; omega) hc ht
      · simp only [hp, ↓reduceIte]
        have hb : b.Prevhash = st.tip := not_not.mp hp
        obtain ⟨c1, c2⟩ := emit_chain t0 st b hc ht hb
        obtain ⟨st1, h1, h2, h3, h4, h5⟩ := drainStash_chain t0 fuel (st.emit b)
          (by simpa [OffsetState.emit] using hk)
          (by simp only [OffsetState.emit]; omega) c1 c2
        rw [h1]
        simp only
        simp only [OffsetState.emit] at h3
        exact ih st1 h2 (by omega) h4 h5

/-- C26: for every header list, stash map and starting tip, `writeBlockOffset` returns (the
stash loop ends within `len(map) + len(headers)` passes) and the headers whose records are
written form a hash chain from the tip: the first has `Prevhash` equal to the input tip,
each later one has `Prevhash` equal to the `CurrentHeaderHash` of the one written before
it, and the returned tip is the `CurrentHeaderHash` of the last written header (the input
tip if nothing was written).  The stash map is one the code builds: each header is stored
under its own `Prevhash`, which is so of the empty map `buildOffsetFile` starts from and,
as the last part says, of the map every call leaves behind for the next. -/
theorem writeBlockOffset_writes_hash_chain (fuel : Nat) (blockHeaders : List RawHeaderData)
    (nextMap : HeaderMap) (tipnum : Int) (tip : Hash) (hk : nextMap.keyed)
    (hfuel : nextMap.length + blockHeaders.length ≤ fuel) :
    ∃ st, writeBlockOffset fuel blockHeaders nextMap tipnum tip = some st ∧
      isHashChain tip st.written = true ∧ st.tip = chainTip tip st.written ∧
      st.nextMap.keyed := by
  unfold writeBlockOffset
  obtain ⟨st, h1, h2, h3, h4⟩ :=
    offsetLoop_chain tip fuel blockHeaders ⟨nextMap, [], [], tip, tipnum⟩ hk hfuel rfl rfl
  exact ⟨st, h1, h3, h4, h2⟩

/-- Witness for `writeBlockOffset_writes_hash_chain`: three headers out of order; the
second is stashed and written after the third. -/
theorem writeBlockOffset_writes_hash_chain_witness :
    ∃ st, writeBlockOffset 3
        [⟨11, 10, [0, 0, 0, 0], [0, 0, 0, 8], 7⟩, ⟨13, 12, [0, 0, 0, 0], [0, 0, 0, 9], 300⟩,
          ⟨12, 11, [0, 0, 0, 1], [0, 0, 0, 0], 65536⟩] [] 100 10 = some st ∧
      isHashChain 10 st.written = true ∧ st.tip = chainTip 10 st.written ∧
      st.nextMap.keyed :=
  writeBlockOffset_writes_hash_chain 3
    [⟨11, 10, [0, 0, 0, 0], [0, 0, 0, 8], 7⟩, ⟨13, 12, [0, 0, 0, 0], [0, 0, 0, 9], 300⟩,
      ⟨12, 11, [0, 0, 0, 1], [0, 0, 0, 0], 65536⟩] [] 100 10
    (fun _ h => by simp at h) (by decide)

/-! ## The height and the records written by `writeBlockOffset` -/

theorem wrapInt32_succ (x : Int) : wrapInt32 (wrapInt32 x + 1) = wrapInt32 (x + 1) := by
  unfold wrapInt32
  omega

theorem wrapInt32_of_range (x : Int) (h1 : -2 ^ 31 ≤ x) (h2 : x < 2 ^ 31) :
    wrapInt32 x = x := by
  unfold wrapInt32
  omega

/-- `PutUint32` writes four bytes, most significant first. -/
theorem putUint32BE_bigEndian (v : Nat) (hv : v < 2 ^ 32) :
    ∃ a b c d, putUint32BE v = [a, b, c, d] ∧ a < 256 ∧ b < 256 ∧ c < 256 ∧ d < 256 ∧
      a * 2 ^ 24 + b * 2 ^ 16 + c * 2 ^ 8 + d = v := by
  refine ⟨_, _, _, _, rfl, Nat.mod_lt _ (by decide), Nat.mod_lt _ (by decide),
    Nat.mod_lt _ (by decide), Nat.mod_lt _ (by decide), ?_⟩
  omega

theorem emit_counted (tn0 : Int) (st : OffsetState) (b : RawHeaderData)
    (hc : st.counted tn0) (hb : b.FileNum.length = 4 ∧ b.Offset.length = 4) :
    (st.emit b).counted tn0 := by
  obtain ⟨h1, h2, h3, h4⟩ := hc
  refine ⟨?_, ?_, ?_, h4⟩
  · simp only [OffsetState.emit, h1, wrapInt32_succ, List.length_append, List.length_singleton,
      Nat.cast_add, Nat.cast_one, add_assoc]
  · simp only [OffsetState.emit, h2, List.flatMap_append, List.flatMap_cons, List.flatMap_nil,
      List.append_nil, offsetRecord, List.append_assoc]
  · intro w hw
    simp only [OffsetState.emit] at hw
    rcases List.mem_append.mp hw with hw | hw
    · exact h3 w hw
    · simp only [List.mem_singleton] at hw
      rw [hw]; exact hb

theorem drainStash_counted (tn0 : Int) :
    ∀ (fuel : Nat) (st st1 : OffsetState), drainStash fuel st = some st1 →
      st.counted tn0 → st1.counted tn0 := by
  intro fuel
  induction fuel with
  | zero =>
    intro st st1 hd hc
    rw [drainStash] at hd
    cases hf : st.nextMap.find st.tip with
    | none => rw [hf] at hd; simp only [Option.some.injEq] at hd; rw [← hd]; exact hc
    | some v => rw [hf] at hd; simp at hd
  | succ fuel ih =>
    intro st st1 hd hc
    rw [drainStash] at hd
    cases hf : st.nextMap.find st.tip with
    | none => rw [hf] at hd; simp only [Option.some.injEq] at hd; rw [← hd]; exact hc
    | some v =>
      rw [hf] at hd
      simp only at hd
      have hv := hc.2.2.2 _ (find_mem _ _ _ hf)
      obtain ⟨e1, e2, e3, e4⟩ := emit_counted tn0 st v hc hv
      refine ih _ st1 hd ⟨e1, e2, e3, ?_⟩
      intro e he
      exact e4 e (List.mem_of_mem_filter he)

theorem offsetLoop_counted (tn0 : Int) (fuel : Nat) :
    ∀ (hs : List RawHeaderData) (st st1 : OffsetState),
      (∀ b ∈ hs, b.FileNum.length = 4 ∧ b.Offset.length = 4) →
      offsetLoop fuel hs st = some st1 → st.counted tn0 → st1.counted tn0 := by
  intro hs
  induction hs with
  | nil =>
    intro st st1 _ hd hc
    simp only [offsetLoop, Option.some.injEq] at hd
    rw [← hd]; exact hc
  | cons b rest ih =>
    intro st st1 hsz hd hc
    have hb := hsz b (List.mem_cons_self _ _)
    have hrest : ∀ x ∈ rest, x.FileNum.length = 4 ∧ x.Offset.length = 4 :=
      fun x hx => hsz x (List.mem_cons_of_mem _ hx)
    rw [offsetLoop] at hd
    by_cases hbig : st.nextMap.len > 10000
    · simp only [hbig, ↓reduceIte, Option.some.injEq] at hd
      rw [← hd]; exact hc
    · simp only [hbig, ↓reduceIte] at hd
      by_cases hp : b.Prevhash ≠ st.tip
      · simp only [hp, ↓reduceIte, ne_eq, not_false_eq_true] at hd
        refine ih _ st1 hrest hd ⟨hc.1, hc.2.1, hc.2.2.1, ?_⟩
        intro e he
        rcases List.mem_cons.mp he with he | he
        · rw [he]; exact hb
        · exact hc.2.2.2 e (List.mem_of_mem_filter he)
      · simp only [hp, ↓reduceIte] at hd
        cases hdr : drainStash fuel (st.emit b) with
        | none => rw [hdr] at hd; simp at hd
        | some st2 =>
          rw [hdr] at hd
          simp only at hd
          exact ih st2 st1 hrest hd
            (drainStash_counted tn0 fuel _ st2 hdr (emit_counted tn0 st b hc hb))

theorem length_flatMap_offsetRecord (ws : List RawHeaderData)
    (h : ∀ w ∈ ws, w.FileNum.length = 4 ∧ w.Offset.length = 4) :
    (ws.flatMap offsetRecord).length = 12 * ws.length := by
  induction ws with
  | nil => rfl
  | cons w ws ih =>
    have hw := h w (List.mem_cons_self _ _)
    have := ih (fun x hx => h x (List.mem_cons_of_mem _ hx))
    simp only [List.flatMap_cons, List.length_append, this, List.length_cons, offsetRecord,
      putUint32BE, hw.1, hw.2, List.length_nil]
    omega

/-- C27 (as amended): for every input with 4-byte `FileNum` and `Offset` fields and an
`int32` height, whenever `writeBlockOffset` returns, the returned height is the input
height plus the number of headers written in `int32` arithmetic (the plain sum when that
stays below `2^31`), and the output consists of exactly that many 12-byte records, each
being the header's `FileNum`, `Offset` and the big-endian `UndoPos` in that order; it does
return when every stashed header is stored under its own `Prevhash`. -/
theorem writeBlockOffset_height_and_records (fuel : Nat) (blockHeaders : List RawHeaderData)
    (nextMap : HeaderMap) (tipnum : Int) (tip : Hash)
    (hlo : -2 ^ 31 ≤ tipnum) (hhi : tipnum < 2 ^ 31)
    (hsz : ∀ b ∈ blockHeaders, b.FileNum.length = 4 ∧ b.Offset.length = 4)
    (hmz : ∀ e ∈ nextMap, e.2.FileNum.length = 4 ∧ e.2.Offset.length = 4) :
    (∀ st, writeBlockOffset fuel blockHeaders nextMap tipnum tip = some st →
      st.tipnum = wrapInt32 (tipnum + st.written.length) ∧
      (tipnum + st.written.length < 2 ^ 31 → st.tipnum = tipnum + st.written.length) ∧
      st.out = st.written.flatMap offsetRecord ∧
      st.out.length = 12 * st.written.length ∧
      (∀ w ∈ st.written, (offsetRecord w).length = 12 ∧
        offsetRecord w = w.FileNum ++ w.Offset ++ putUint32BE w.UndoPos)) ∧
    (nextMap.keyed → nextMap.length + blockHeaders.length ≤ fuel →
      (writeBlockOffset fuel blockHeaders nextMap tipnum tip).isSome) := by
  constructor
  · intro st hst
    unfold writeBlockOffset at hst
    have h0 : (OffsetState.mk nextMap [] [] tip tipnum).counted tipnum :=
      ⟨by simp [wrapInt32_of_range tipnum hlo hhi], rfl, by simp, hmz⟩
    obtain ⟨c1, c2, c3, _⟩ := offsetLoop_counted tipnum fuel blockHeaders _ st hsz hst h0
    refine ⟨c1, ?_, c2, ?_, ?_⟩
    · intro hlt
      rw [c1]
      exact wrapInt32_of_range _ (by have : (0 : Int) ≤ st.written.length := by positivity
                                     omega) hlt
    · rw [c2]; exact length_flatMap_offsetRecord _ c3
    · intro w hw
      have := c3 w hw
      refine ⟨?_, rfl⟩
      simp [offsetRecord, putUint32BE, this.1, this.2]
  · intro hk hfuel
    unfold writeBlockOffset
    obtain ⟨st, hst, _⟩ := offsetLoop_chain tip fuel blockHeaders
      ⟨nextMap, [], [], tip, tipnum⟩ hk hfuel rfl rfl
    rw [hst]; rfl

/-- Witness for `writeBlockOffset_height_and_records`: three headers written from height
100 give height 103 and 36 bytes. -/
theorem writeBlockOffset_height_and_records_witness :
    (∀ st, writeBlockOffset 3
        [⟨11, 10, [0, 0, 0, 0], [0, 0, 0, 8], 7⟩, ⟨13, 12, [0, 0, 0, 0], [0, 0, 0, 9], 300⟩,
          ⟨12, 11, [0, 0, 0, 1], [0, 0, 0, 0], 65536⟩] [] 100 10 = some st →
      st.tipnum = wrapInt32 (100 + st.written.length) ∧
      st.out = st.written.flatMap offsetRecord ∧
      st.out.length = 12 * st.written.length) ∧
    writeBlockOffset 3
        [⟨11, 10, [0, 0, 0, 0], [0, 0, 0, 8], 7⟩, ⟨13, 12, [0, 0, 0, 0], [0, 0, 0, 9], 300⟩,
          ⟨12, 11, [0, 0, 0, 1], [0, 0, 0, 0], 65536⟩] [] 100 10 =
      some ⟨[], [0, 0, 0, 0, 0, 0, 0, 8, 0, 0, 0, 7, 0, 0, 0, 1, 0, 0, 0, 0, 0, 1, 0, 0,
          0, 0, 0, 0, 0, 0, 0, 9, 0, 0, 1, 44],
        [⟨11, 10, [0, 0, 0, 0], [0, 0, 0, 8], 7⟩, ⟨12, 11, [0, 0, 0, 1], [0, 0, 0, 0], 65536⟩,
          ⟨13, 12, [0, 0, 0, 0], [0, 0, 0, 9], 300⟩], 13, 103⟩ :=
  ⟨fun st hst =>
    have h := (writeBlockOffset_height_and_records 3
      [⟨11, 10, [0, 0, 0, 0], [0, 0, 0, 8], 7⟩, ⟨13, 12, [0, 0, 0, 0], [0, 0, 0, 9], 300⟩,
        ⟨12, 11, [0, 0, 0, 1], [0, 0, 0, 0], 65536⟩] [] 100 10
      (by decide) (by decide) (by decide) (by simp)).1 st hst
    ⟨h.1, h.2.2.1, h.2.2.2.1⟩, by decide⟩

/-- C27 (as stated) fails at the last `int32`: one header written from height `2^31 - 1`
returns the height `-2^31`. -/
theorem writeBlockOffset_height_counterexample :
    ¬ (∀ (fuel : Nat) (blockHeaders : List RawHeaderData) (nextMap : HeaderMap)
        (tipnum : Int) (tip : Hash) (st : OffsetState),
        -2 ^ 31 ≤ tipnum → tipnum < 2 ^ 31 →
        writeBlockOffset fuel blockHeaders nextMap tipnum tip = some st →
        st.tipnum = tipnum + st.written.length) := by
  intro h
  have h1 := h 0 [⟨11, 10, [0, 0, 0, 0], [0, 0, 0, 8], 7⟩] [] (2 ^ 31 - 1) 10
    ⟨[], [0, 0, 0, 0, 0, 0, 0, 8, 0, 0, 0, 7], [⟨11, 10, [0, 0, 0, 0], [0, 0, 0, 8], 7⟩],
      11, -2 ^ 31⟩ (by decide) (by decide) (by decide)
  revert h1
  decide

/-! ## One `addOne` step on the root hashes -/

/-- With `k` one bits from bit `h` on (and a zero bit after them, unless the loop counter
runs out), the carry loop pops the last `k` hashes and folds them onto `x`. -/
theorem carry_trailing (Parent : Hash → Hash → Hash) :
    ∀ (K h m : Nat) (ts : List Hash) (x : Hash) (k : Nat), k ≤ K → k ≤ ts.length →
      (∀ i < k, (m >>> (h + i)) % 2 = 1) → (k < K → (m >>> (h + k)) % 2 = 0) →
      carry Parent K h m ts x =
        some (ts.take (ts.length - k), (ts.drop (ts.length - k)).foldr Parent x) := by
  intro K
  induction K with
  | zero =>
    intro h m ts x k hk _ _ _
    have : k = 0 := Nat.le_zero.mp hk
    subst this
    simp [carry]
  | succ K ih =>
    intro h m ts x k hk hlen hones hzero
    rw [carry]
    cases k with
    | zero =>
      have hz : (m >>> h) % 2 = 0 := by simpa using hzero (Nat.succ_pos _)
      simp [hz]
    | succ k =>
      have h1 : (m >>> h) % 2 = 1 := by simpa using hones 0 (Nat.succ_pos _)
      simp only [h1, ↓reduceIte]
      cases hl : ts.getLast? with
      | none =>
        rw [List.getLast?_eq_none_iff] at hl
        subst hl
        simp at hlen
      | some t =>
        simp only
        have hts : ts = ts.dropLast ++ [t] := (List.dropLast_append_getLast? t hl).symm
        obtain ⟨d, rfl⟩ : ∃ d, ts = d ++ [t] := ⟨ts.dropLast, hts⟩
        simp only [List.dropLast_concat, List.length_append, List.length_singleton] at hlen ⊢
        rw [ih (h + 1) m d (Parent t x) k (by omega) (by omega)
          (fun i hi => by
            have := hones (i + 1) (by omega)
            rwa [show h + (i + 1) = h + 1 + i by omega] at this)
          (fun hk2 => by
            have := hzero (by omega)
            rwa [show h + (k + 1) = h + 1 + k by omega] at this)]
        have hj : d.length + 1 - (k + 1) = d.length - k := by omega
        have hjle : d.length - k ≤ d.length := Nat.sub_le _ _
        rw [hj, List.take_append_of_le_length hjle, List.drop_append_of_le_length hjle,
          List.foldr_append]
        rfl

/-- C28: for every pollard whose `numLeaves` has exactly `k` trailing one bits and which
has `m >= k` tops, `addOne(x)` succeeds, the root list then has `m - k + 1` entries, the
hashes of the first `m - k` are those of `t_0..t_{m-k-1}` unchanged, and the hash of the
last is `Parent(t_{m-k}, Parent(t_{m-k+1}, ... Parent(t_{m-1}, x)))` (just `x` when
`k = 0`). -/
theorem addOne_one_step (Parent : Hash → Hash → Hash) (p : Pollard) (x : Hash)
    (remember : Bool) (k : Nat) (hk : k ≤ 64) (hm : k ≤ p.tops.length)
    (hones : ∀ i < k, (p.numLeaves >>> i) % 2 = 1)
    (hzero : k < 64 → (p.numLeaves >>> k) % 2 = 0) :
    (addOne Parent p x remember).2 = none ∧
    (addOne Parent p x remember).1.tops.length = p.tops.length - k + 1 ∧
    (addOne Parent p x remember).1.topHashes =
      p.topHashes.take (p.tops.length - k) ++
        [(p.topHashes.drop (p.tops.length - k)).foldr Parent x] := by
  have hlen : p.topHashes.length = p.tops.length := by simp [Pollard.topHashes]
  have hc := carry_trailing Parent 64 0 p.numLeaves p.topHashes x k hk (by rw [hlen]; exact hm)
    (fun i hi => by simpa using hones i hi) (fun h => by simpa using hzero h)
  have h := addOne_carry Parent p x remember
  rw [hc] at h
  simp only at h
  obtain ⟨h1, h2, _, _⟩ := h
  rw [hlen] at h2
  refine ⟨h1, ?_, h2⟩
  have := congrArg List.length h2
  simp only [Pollard.topHashes, List.length_map, List.length_append, List.length_take,
    List.length_singleton] at this
  omega

/-- Witness for `addOne_one_step`: the three-leaf pollard (tops 35 and 7, two trailing one
bits) takes the leaf 8 into the single root `Parent 35 (Parent 7 8)`. -/
theorem addOne_one_step_witness :
    (addOne exParent exThree 8 true).2 = none ∧
    (addOne exParent exThree 8 true).1.tops.length = 2 - 2 + 1 ∧
    (addOne exParent exThree 8 true).1.topHashes =
      [] ++ [exParent 35 (exParent 7 8)] :=
  addOne_one_step exParent exThree 8 true 2 (by decide) (by decide) (by decide) (by decide)

/-! ## `dirtify` -/

theorem dirtify_nonempty (L : Layout) (dirt : List Nat) (swaps : List (List arrow))
    (pos nl up2h ph : Nat) (hd : dirt ≠ []) : dirtify L dirt swaps pos nl up2h ph = dirt := by
  have hcond : dirt ≠ [] ∧
      (dirt.getLast? ≠ some pos ∨ dirt.getLast? ≠ some (pos ^^^ 1)) := by
    refine ⟨hd, ?_⟩
    by_cases h1 : dirt.getLast? = some pos
    · right
      rw [h1]
      intro e
      simp only [Option.some.injEq] at e
      have h2 : pos ^^^ 1 ≠ pos := by
        intro e2
        have := congrArg (fun v => v % 2) e2
        simp only [Nat.xor_mod_two_eq] at this
        omega
      exact h2 e.symm
    · exact Or.inl h1
  have key : ∀ b : Bool, (if b = true then dirt
      else if dirt ≠ [] ∧ (dirt.getLast? ≠ some pos ∨ dirt.getLast? ≠ some (pos ^^^ 1))
        then dirt else dirt ++ [L.up1 pos ph]) = dirt := by
    intro b
    rw [if_pos hcond]
    cases b <;> simp
  unfold dirtify
  exact key _

theorem dirtify_empty (L : Layout) (swaps : List (List arrow)) (pos nl up2h ph : Nat) :
    dirtify L [] swaps pos nl up2h ph = [] ∨
    dirtify L [] swaps pos nl up2h ph = [L.up1 pos ph] := by
  have key : ∀ b : Bool,
      (if b = true then ([] : List Nat)
        else if ([] : List Nat) ≠ [] ∧ (([] : List Nat).getLast? ≠ some pos ∨
          ([] : List Nat).getLast? ≠ some (pos ^^^ 1))
          then [] else [] ++ [L.up1 pos ph]) = [] ∨
      (if b = true then ([] : List Nat)
        else if ([] : List Nat) ≠ [] ∧ (([] : List Nat).getLast? ≠ some pos ∨
          ([] : List Nat).getLast? ≠ some (pos ^^^ 1))
          then [] else [] ++ [L.up1 pos ph]) = [L.up1 pos ph] := by
    intro b
    cases b
    · right; simp
    · left; simp
  unfold dirtify
  exact key _

theorem dirtify_length_le (L : Layout) (dirt : List Nat) (swaps : List (List arrow))
    (pos nl up2h ph : Nat) (h : dirt.length ≤ 1) :
    (dirtify L dirt swaps pos nl up2h ph).length ≤ 1 := by
  by_cases hd : dirt = []
  · subst hd
    rcases dirtify_empty L swaps pos nl up2h ph with e | e <;> rw [e] <;> simp
  · rw [dirtify_nonempty L dirt swaps pos nl up2h ph hd]; exact h

theorem swapLoop_hashdirt_le (L : Layout) (rows : List (List arrow)) (nnl h ph : Nat) :
    ∀ (row : List arrow) (p : Pollard) (rowdirt hashdirt : List Nat) (p1 : Pollard)
      (rd hd : List Nat), hashdirt.length ≤ 1 →
      swapLoop L rows nnl h ph row p rowdirt hashdirt = (p1, .ok (rd, hd)) →
      hd.length ≤ 1 ∧ rd.length ≤ rowdirt.length := by
  intro row
  induction row with
  | nil =>
    intro p rowdirt hashdirt p1 rd hd hl hs
    simp only [swapLoop, Prod.mk.injEq, Except.ok.injEq] at hs
    obtain ⟨_, rfl, rfl⟩ := hs
    exact ⟨hl, Nat.le_refl _⟩
  | cons s rest ih =>
    intro p rowdirt hashdirt p1 rd hd hl hs
    rw [swapLoop] at hs
    by_cases hself : s.from_ = s.to_
    · simp only [hself, ↓reduceIte] at hs
      exact ih _ _ _ _ _ _ hl hs
    · simp only [hself, ↓reduceIte] at hs
      cases hsw : swapNodes L p s with
      | mk p2 res =>
        rw [hsw] at hs
        cases res with
        | error e => simp at hs
        | ok hn =>
          simp only at hs
          cases hsib : hn.sib with
          | none => rw [hsib] at hs; simp at hs
          | some sib =>
            rw [hsib] at hs
            simp only at hs
            cases hd0 : p2.nieceData sib 0 with
            | none => rw [hd0] at hs; simp at hs
            | some d0 =>
              cases hd1 : p2.nieceData sib 1 with
              | none => rw [hd0, hd1] at hs; simp at hs
              | some d1 =>
                rw [hd0, hd1] at hs
                simp only at hs
                by_cases he : d0 = empty ∨ d1 = empty
                · simp only [he, ↓reduceIte] at hs
                  exact ih _ _ _ _ _ _ hl hs
                · simp only [he, ↓reduceIte] at hs
                  cases hrun : hn.run L p2 with
                  | mk p3 e =>
                    rw [hrun] at hs
                    cases e with
                    | some e => simp at hs
                    | none =>
                      simp only at hs
                      obtain ⟨r1, r2⟩ := ih _ _ _ _ _ _
                        (dirtify_length_le L hashdirt rows s.to_ nnl ((h + 2) % 256) ph hl) hs
                      refine ⟨r1, Nat.le_trans r2 ?_⟩
                      split
                      · simp
                      · exact Nat.le_refl _

theorem dirtLoop_hashdirt_le (L : Layout) (rows : List (List arrow)) (nnl h ph : Nat) :
    ∀ (ds : List Nat) (p : Pollard) (hashdirt : List Nat) (p1 : Pollard) (hd : List Nat),
      hashdirt.length ≤ 1 →
      dirtLoop L rows nnl h ph ds p hashdirt = (p1, .ok hd) → hd.length ≤ 1 := by
  intro ds
  induction ds with
  | nil =>
    intro p hashdirt p1 hd hl hs
    simp only [dirtLoop, Prod.mk.injEq, Except.ok.injEq] at hs
    obtain ⟨_, rfl⟩ := hs
    exact hl
  | cons d rest ih =>
    intro p hashdirt p1 hd hl hs
    rw [dirtLoop] at hs
    cases hh : HnFromPos L p d with
    | mk p2 res =>
      rw [hh] at hs
      cases res with
      | error e => simp at hs
      | ok hn =>
        simp only at hs
        cases hsib : hn.sib with
        | none => rw [hsib] at hs; simp at hs
        | some sib =>
          rw [hsib] at hs
          simp only at hs
          cases hd0 : p2.nieceData sib 0 with
          | none => rw [hd0] at hs; simp at hs
          | some d0 =>
            cases hd1 : p2.nieceData sib 1 with
            | none => rw [hd0, hd1] at hs; simp at hs
            | some d1 =>
              rw [hd0, hd1] at hs
              simp only at hs
              cases hrun : hn.run L p2 with
              | mk p3 e =>
                rw [hrun] at hs
                cases e with
                | some e => simp at hs
                | none =>
                  simp only at hs
                  exact ih _ _ _ _
                    (dirtify_length_le L hashdirt rows d nnl ((h + 2) % 256) ph hl) hs

/-- C29 (fails in the code): with the dirt list `[16]`, 8 remaining leaves and height 4,
the grandparent 24 of position 2 is inside the forest and its parent is 17, but `dirtify`
returns `[16]`, which does not contain 17; so the claim fails for every non-empty dirt
list that does not hold the parent already. -/
theorem dirtify_drops_parent :
    (specLayout exParent).inForest ((specLayout exParent).upMany 2 2 4) 8 4 = true ∧
    (specLayout exParent).up1 2 4 = 17 ∧
    dirtify (specLayout exParent) [16] [] 2 8 2 4 = [16] ∧
    ¬ (∀ (L : Layout) (dirt : List Nat) (swaps : List (List arrow)) (pos nl up2h ph : Nat),
        L.inForest (L.upMany pos 2 ph) nl ph = true →
        L.up1 pos ph ∈ dirtify L dirt swaps pos nl up2h ph) := by
  refine ⟨by decide, by decide, by decide, fun h => ?_⟩
  have h1 := h (specLayout exParent) [16] [] 2 8 2 4 (by decide)
  revert h1
  decide

/-- C30: for every non-empty dirt list and all other arguments `dirtify` returns `dirt`
unchanged, and for an empty dirt list it returns either the empty list or the one-element
list `[up1(pos, ph)]`; consequently in `rem2` the hash-dirt list built by the swaps and by
the row dirt of a row, which is carried to the next row, has at most one position. -/
theorem dirtify_never_grows (L : Layout) (dirt : List Nat) (swaps : List (List arrow))
    (pos nl up2h ph : Nat) :
    (dirt ≠ [] → dirtify L dirt swaps pos nl up2h ph = dirt) ∧
    (dirt = [] → dirtify L dirt swaps pos nl up2h ph = [] ∨
      dirtify L dirt swaps pos nl up2h ph = [L.up1 pos ph]) ∧
    (∀ (h : Nat) (row : List arrow) (p p1 p2 : Pollard) (rowdirt rd hd hd2 : List Nat),
      swapLoop L swaps nl h ph row p rowdirt [] = (p1, .ok (rd, hd)) →
      dirtLoop L swaps nl h ph rd p1 hd = (p2, .ok hd2) →
      hd.length ≤ 1 ∧ hd2.length ≤ 1) := by
  refine ⟨dirtify_nonempty L dirt swaps pos nl up2h ph, ?_, ?_⟩
  · intro hd
    subst hd
    exact dirtify_empty L swaps pos nl up2h ph
  · intro h row p p1 p2 rowdirt rd hd hd2 hs hdl
    have h1 := (swapLoop_hashdirt_le L swaps nl h ph row p rowdirt [] p1 rd hd (by simp) hs).1
    exact ⟨h1, dirtLoop_hashdirt_le L swaps nl h ph rd p1 hd p2 hd2 h1 hdl⟩

/-- Witness for `dirtify_never_grows`: the dirt list `[16]` stays as it is, the empty list
becomes `[17]`, and row 0 of the swap `(1, 0)` on the four-leaf pollard hands `[8]` to the
next row. -/
theorem dirtify_never_grows_witness :
    dirtify (specLayout exParent) [16] [] 2 8 2 4 = [16] ∧
    (dirtify (specLayout exParent) [] [] 2 8 2 4 = [] ∨
      dirtify (specLayout exParent) [] [] 2 8 2 4 = [(specLayout exParent).up1 2 4]) ∧
    (([8] : List Nat).length ≤ 1 ∧ ([8] : List Nat).length ≤ 1) :=
  ⟨(dirtify_never_grows (specLayout exParent) [16] [] 2 8 2 4).1 (by decide),
    (dirtify_never_grows (specLayout exParent) [] [] 2 8 2 4).2.1 rfl,
    (dirtify_never_grows (specLayout exParent) [] [[⟨1, 0⟩], [], [⟨12, 12⟩]] 0 3 0 3).2.2
      0 [⟨1, 0⟩] exFour
      (swapLoop (specLayout exParent) [[⟨1, 0⟩], [], [⟨12, 12⟩]] 3 0 3 [⟨1, 0⟩] exFour [] []).1
      (swapLoop (specLayout exParent) [[⟨1, 0⟩], [], [⟨12, 12⟩]] 3 0 3 [⟨1, 0⟩] exFour [] []).1
      [] [] [8] [8] rfl rfl⟩

/-! ## Rejected arrows, empty removals, and what `SplitAfter` keeps -/

/-- C31: for every pollard and arrow `(from, to)`, if `from` or `to` is not inside the
forest for the current `numLeaves` and height, `swapNodes` returns its out-of-bounds error
and leaves the pollard unchanged: the check comes before any descent, so no node is
exchanged or created. -/
theorem swapNodes_rejects_out_of_forest (L : Layout) (p : Pollard) (r : arrow)
    (hout : L.inForest r.from_ p.numLeaves (L.height p.numLeaves) = false ∨
      L.inForest r.to_ p.numLeaves (L.height p.numLeaves) = false) :
    swapNodes L p r = (p, .error .swapOutOfBounds) := by
  unfold swapNodes
  rcases hout with h | h <;> simp [h]

/-- Witness for `swapNodes_rejects_out_of_forest`: position 5 is not a leaf of the
four-leaf pollard. -/
theorem swapNodes_rejects_out_of_forest_witness :
    swapNodes (specLayout exParent) exFour ⟨5, 0⟩ = (exFour, .error .swapOutOfBounds) ∧
    swapNodes (specLayout exParent) exFour ⟨0, 5⟩ = (exFour, .error .swapOutOfBounds) :=
  ⟨swapNodes_rejects_out_of_forest (specLayout exParent) exFour ⟨5, 0⟩ (Or.inl (by decide)),
    swapNodes_rejects_out_of_forest (specLayout exParent) exFour ⟨0, 5⟩ (Or.inr (by decide))⟩

/-- C32: for every pollard, `rem2` of an empty deletion list returns no error and the
pollard as it was (`numLeaves`, the root list and every node), so `Modify(adds, empty)`
has exactly the effect and the result of `add(adds)`. -/
theorem rem2_empty_is_noop (L : Layout) (p : Pollard) (adds : List LeafTXO) :
    rem2 L p [] = (p, none) ∧ Modify L p adds [] = add L.Parent p adds := by
  have h : rem2 L p [] = (p, none) := by
    unfold rem2
    simp
  refine ⟨h, ?_⟩
  unfold Modify
  rw [h]
  simp only
  rcases hadd : add L.Parent p adds with ⟨p2, e⟩
  cases e <;> rfl

/-- C33: for every slice `s` (sorted or not) and every height `h`, the `top` returned by
`SplitAfter` followed by the returned `bottom` is exactly `s`, in the same order. -/
theorem SplitAfter_loses_nothing (s : List txoEnd) (h : Int) :
    (SplitAfter s h).1 ++ (SplitAfter s h).2 = s := by
  have key : ∀ (rest : List txoEnd) (i : Nat),
      SplitAfterLoop s h i rest = (none, none) ∨
      ∃ j, SplitAfterLoop s h i rest = (some (s.take j), some (s.drop j)) := by
    intro rest
    induction rest with
    | nil => intro i; exact Or.inl rfl
    | cons c rest ih =>
      intro i
      rw [SplitAfterLoop]
      by_cases hc : c.end_ > h
      · right; exact ⟨i, by simp [hc]⟩
      · simp only [hc, ↓reduceIte]
        exact ih (i + 1)
  unfold SplitAfter
  rcases key s 0 with e | ⟨j, e⟩
  · rw [e]; rfl
  · rw [e]
    simp only [Option.getD_some]
    exact List.take_append_drop j s

end Utreexo
